import Mathlib

/-!
Verification of the amino-dedupe matching / merge engine.

This file gives a shallow embedding, in Lean 4, of the algorithmic core of the
repository (src/lib/normalize.js, src/lib/matching.js, src/lib/merge.js) and
proves or refutes the frozen specification claims about it.

Conventions of the embedding:
* JavaScript strings are `List Char` (`Str` below); string-producing literals
  are written via `str` which unfolds a Lean `String` literal.
* Record field maps are association lists in insertion order, mirroring the
  insertion-order semantics of JavaScript object keys.
* Functions that JavaScript makes nondeterministic (random merge ids,
  `Date.now` timestamps) take the generated value as an explicit argument.
* All recursion is structural (lists, or an explicit fuel counter), so every
  definition evaluates inside the kernel (`rfl` / `decide`).
* The regex operations of normalize.js (`\b`-delimited whole-word tests and
  replacements) are embedded as explicit scanners over `List Char` with the
  same word-boundary semantics (`\b` holds between a word character
  `[A-Za-z0-9_]` and a non-word character or the string edge).
* `JSON.parse` / `JSON.stringify` (platform builtins used by merge.js) are
  embedded as an executable parser and printer for the JSON fragment the code
  produces (null / bool / integer / string / array / object), including the
  two-space pretty-printing mode `JSON.stringify(x, null, 2)` used by the code.
-/

/-- Characters of a JavaScript string. -/
abbrev Str := List Char

/-- Character list of a Lean string literal. -/
def str (s : String) : Str := s.data

/-- Word character for the JavaScript regex class `\w` / boundary `\b`. -/
def isWordChar (c : Char) : Bool :=
  ('a' ≤ c && c ≤ 'z') || ('A' ≤ c && c ≤ 'Z') || ('0' ≤ c && c ≤ '9') || c = '_'

/-- Whitespace for the JavaScript regex class `\s` (ASCII part). -/
def isJsSpace (c : Char) : Bool :=
  c = ' ' || c = '\t' || c = '\n' || c = '\r' || c = '\x0b' || c = '\x0c'

/-- ASCII decimal digit. -/
def isDigitCh (c : Char) : Bool := '0' ≤ c && c ≤ '9'

/-- ASCII lower-casing, the fragment of `String.prototype.toLowerCase` the
    name data exercises (identity beyond ASCII). -/
def lowerChar (c : Char) : Char :=
  if 'A' ≤ c && c ≤ 'Z' then Char.ofNat (c.toNat + 32) else c

/-- Embedding of `removeAccents` (normalize.js): NFD decomposition followed by
    stripping the combining marks U+0300–U+036F.  On precomposed Latin letters
    this maps each accented letter to its base letter; the table below covers
    the Latin-1 / Latin-Extended letters that occur in name data, and is the
    identity elsewhere. -/
def stripAccent (c : Char) : Char :=
  if c ∈ str "àáâãäå" then 'a'
  else if c ∈ str "ÀÁÂÃÄÅ" then 'A'
  else if c ∈ str "èéêë" then 'e'
  else if c ∈ str "ÈÉÊË" then 'E'
  else if c ∈ str "ìíîï" then 'i'
  else if c ∈ str "ÌÍÎÏ" then 'I'
  else if c ∈ str "òóôõö" then 'o'
  else if c ∈ str "ÒÓÔÕÖ" then 'O'
  else if c ∈ str "ùúûü" then 'u'
  else if c ∈ str "ÙÚÛÜ" then 'U'
  else if c = 'ñ' then 'n'
  else if c = 'Ñ' then 'N'
  else if c = 'ç' then 'c'
  else if c = 'Ç' then 'C'
  else if c = 'ý' then 'y'
  else c

def removeAccents (s : Str) : Str := s.map stripAccent

def toLowerStr (s : Str) : Str := s.map lowerChar

/-- `String.prototype.trim`: drop leading whitespace. -/
def trimLeft : Str → Str
  | [] => []
  | c :: cs => if isJsSpace c then trimLeft cs else c :: cs

/-- `String.prototype.trim`: drop leading and trailing whitespace. -/
def jsTrim (s : Str) : Str := (trimLeft (trimLeft s.reverse).reverse)

/-- Worker for `collapseWs`; `prevSpace` records whether the previous input
    character was whitespace (in which case further whitespace is dropped). -/
def collapseWsAux (prevSpace : Bool) : Str → Str
  | [] => []
  | c :: cs =>
    if isJsSpace c then
      if prevSpace then collapseWsAux true cs else ' ' :: collapseWsAux true cs
    else c :: collapseWsAux false cs

/-- `replace(/\s+/g, ' ')`: collapse every whitespace run to a single space. -/
def collapseWs (s : Str) : Str := collapseWsAux false s

/-- Replace every character satisfying `p` by `r` (a `replace(/[…]/g, r)` with
    a single-character class and single-character replacement). -/
def replaceChars (p : Char → Bool) (r : Char) (s : Str) : Str :=
  s.map (fun c => if p c then r else c)

/-- Delete every character satisfying `p` (a `replace(/[…]/g, '')`). -/
def deleteChars (p : Char → Bool) (s : Str) : Str :=
  s.filter (fun c => !(p c))

/-- Split on runs of separator characters, dropping empty pieces: the
    composition `split(/[sep]+/)` + `filter(p => p.length > 0)` used by the
    source (and plain `split` on a one-character separator never yields empty
    pieces after this filter either). -/
def splitDropAux (sep : Char → Bool) (cur : Str) : Str → List Str
  | [] => if cur = [] then [] else [cur.reverse]
  | c :: cs =>
    if sep c then
      if cur = [] then splitDropAux sep [] cs
      else cur.reverse :: splitDropAux sep [] cs
    else splitDropAux sep (c :: cur) cs

def splitDrop (sep : Char → Bool) (s : Str) : List Str := splitDropAux sep [] s

/-- Split a string at every occurrence of the (single-character) separator,
    keeping empty pieces — JavaScript `split(',')`. -/
def splitKeep (sep : Char) : Str → List Str
  | [] => [[]]
  | c :: cs =>
    if c = sep then [] :: splitKeep sep cs
    else
      match splitKeep sep cs with
      | [] => [[c]]
      | t :: ts => (c :: t) :: ts

/-- `Array.prototype.join(d)` on strings. -/
def joinWith (d : Str) : List Str → Str
  | [] => []
  | [x] => x
  | x :: xs => x ++ d ++ joinWith d xs

/-- UTF-16 lexicographic order on strings, as used by the default
    `Array.prototype.sort()` comparator. -/
def lexLe : Str → Str → Bool
  | [], _ => true
  | _ :: _, [] => false
  | a :: as, b :: bs =>
    if a.toNat < b.toNat then true
    else if b.toNat < a.toNat then false
    else lexLe as bs

/-- Stable insertion respecting `le` (ties keep the existing element first). -/
def insertBy (le : α → α → Bool) (x : α) : List α → List α
  | [] => [x]
  | y :: ys => if le x y && !le y x then x :: y :: ys else y :: insertBy le x ys

/-- Stable insertion sort by `le` — the ECMAScript `sort` (stable since
    ES2019) with comparator derived from `le`. -/
def sortBy (le : α → α → Bool) : List α → List α
  | [] => []
  | x :: xs => insertBy le x (sortBy le xs)

/-- JavaScript `Array.prototype.sort()` on an array of strings. -/
def sortStrs (l : List Str) : List Str := sortBy lexLe l

/-- Add to a set kept as an insertion-ordered list (`Set.prototype.add`). -/
def setAdd (x : α) [DecidableEq α] (l : List α) : List α :=
  if x ∈ l then l else l ++ [x]

/-! ### Association lists: JavaScript objects / Maps in insertion order -/

/-- First value bound to `k` (JavaScript property read / `Map.get`). -/
def alGet [DecidableEq κ] : List (κ × ν) → κ → Option ν
  | [], _ => none
  | (k, v) :: t, k' => if k' = k then some v else alGet t k'

/-- Bind `k` to `v`: overwrite in place if present (keeping insertion
    position), append otherwise — JavaScript property write / `Map.set`. -/
def alSet [DecidableEq κ] : List (κ × ν) → κ → ν → List (κ × ν)
  | [], k', v' => [(k', v')]
  | (k, v) :: t, k', v' =>
    if k' = k then (k, v') :: t else (k, v) :: alSet t k' v'

/-- Key membership. -/
def alHas [DecidableEq κ] (l : List (κ × ν)) (k : κ) : Bool := (alGet l k).isSome

/-! ### Decimal digits of a `Nat` (for reason strings and the JSON printer) -/

/-- Digit characters of `n`, least significant first; `fuel` bounds the
    recursion (any `fuel ≥ n` is enough, and `fuel = n` is always passed). -/
def natDigitsRev : Nat → Nat → List Char
  | 0, _ => []
  | fuel + 1, n =>
    if n = 0 then [] else Char.ofNat ('0'.toNat + n % 10) :: natDigitsRev fuel (n / 10)

/-- Decimal notation of `n` (JavaScript number-to-string on a Nat). -/
def natToStr (n : Nat) : Str :=
  if n = 0 then ['0'] else (natDigitsRev n n).reverse

/-- Decimal notation of an `Int` (sign and digits). -/
def intToStr (i : Int) : Str :=
  if i < 0 then '-' :: natToStr i.natAbs else natToStr i.natAbs

/-! ### Word-boundary regex machinery

The source tests and rewrites honorifics, suffixes and address abbreviations
with regexes of the form `\bWORD\b` (flags `g` and, for names, `i`), where
`WORD` is a table entry with only its FIRST `.` escaped
(`h.replace('.', '\\.')`) — any later `.` is left as the regex wildcard.  The
embedding compiles such a word into a list of pattern characters and scans the
subject left to right, replacing every `\b`-delimited occurrence, continuing
after the replaced region exactly as the JavaScript global replace does. -/

/-- One compiled regex pattern character: a literal, or the `.` wildcard
    (which in JavaScript matches anything but a line terminator). -/
inductive PChar where
  | lit (c : Char)
  | anyDot
deriving DecidableEq

/-- Compile `w.replace('.', '\\.')` into pattern characters: the first `.` is
    escaped to a literal, later `.`s remain wildcards. -/
def compileWordAux : Bool → Str → List PChar
  | _, [] => []
  | seen, c :: cs =>
    if c = '.' then
      if seen then PChar.anyDot :: compileWordAux true cs
      else PChar.lit '.' :: compileWordAux true cs
    else PChar.lit c :: compileWordAux seen cs

def compileWord (w : Str) : List PChar := compileWordAux false w

/-- Does pattern character `p` match subject character `c` (`ci` = the `i`
    flag)? -/
def pcharMatches (ci : Bool) (p : PChar) (c : Char) : Bool :=
  match p with
  | PChar.lit l => if ci then lowerChar c = lowerChar l else c = l
  | PChar.anyDot => !(c = '\n' || c = '\r')

/-- Match the pattern against a prefix of the subject, returning the matched
    characters and the remaining subject. -/
def patMatch (ci : Bool) : List PChar → Str → Option (Str × Str)
  | [], s => some ([], s)
  | _ :: _, [] => none
  | p :: ps, c :: cs =>
    if pcharMatches ci p c then
      match patMatch ci ps cs with
      | some (m, r) => some (c :: m, r)
      | none => none
    else none

/-- Wordness of an optional character (string edges count as non-word). -/
def wordAt : Option Char → Bool
  | none => false
  | some c => isWordChar c

/-- Both `\b` assertions around a nonempty match: the character before the
    match and its first character differ in wordness, as do its last character
    and the character after it. -/
def boundaryOk (prev : Option Char) (m : Str) (rest : Str) : Bool :=
  match m with
  | [] => false
  | c0 :: _ => (wordAt prev != wordAt (some c0)) &&
      (wordAt (m.getLast? ) != wordAt rest.head?)

/-- Global replace of `\bPAT\b` by `rep`, scanning left to right; `prev` is
    the character just before the current position, `fuel ≥ length` makes the
    recursion structural. -/
def replaceWordAll (ci : Bool) (pat : List PChar) (rep : Str) :
    Option Char → Nat → Str → Str
  | _, 0, s => s
  | _, _ + 1, [] => []
  | prev, fuel + 1, c :: cs =>
    match patMatch ci pat (c :: cs) with
    | some (m, rest) =>
      if boundaryOk prev m rest then
        rep ++ replaceWordAll ci pat rep m.getLast? fuel rest
      else c :: replaceWordAll ci pat rep (some c) fuel cs
    | none => c :: replaceWordAll ci pat rep (some c) fuel cs

/-- Is there any `\b`-delimited occurrence of the pattern (`regex.test`)? -/
def hasWordMatch (ci : Bool) (pat : List PChar) :
    Option Char → Nat → Str → Bool
  | _, 0, _ => false
  | _, _ + 1, [] => false
  | prev, fuel + 1, c :: cs =>
    match patMatch ci pat (c :: cs) with
    | some (m, rest) =>
      if boundaryOk prev m rest then true
      else hasWordMatch ci pat (some c) fuel cs
    | none => hasWordMatch ci pat (some c) fuel cs

/-- `s.replace(new RegExp('\\b' + w(.-escaped) + '\\b', flags), rep)`. -/
def jsReplaceWord (ci : Bool) (w rep s : Str) : Str :=
  replaceWordAll ci (compileWord w) rep none (s.length + 1) s

/-- `new RegExp('\\b' + w(.-escaped) + '\\b', flags).test(s)`. -/
def jsTestWord (ci : Bool) (w s : Str) : Bool :=
  hasWordMatch ci (compileWord w) none (s.length + 1) s

/-- `h.replace('.', '')`: delete the first `.` only. -/
def removeFirstDot : Str → Str
  | [] => []
  | c :: cs => if c = '.' then cs else c :: removeFirstDot cs

/-! ### normalize.js: nickname tables, honorifics, suffixes -/

/-- `NICKNAME_MAP` (normalize.js): first name → possible variants. -/
def NICKNAME_MAP : List (Str × List Str) :=
  [ (str "robert", [str "bob", str "bobby", str "rob", str "robbie", str "bert"]),
    (str "bob", [str "robert", str "bobby", str "rob"]),
    (str "bobby", [str "robert", str "bob", str "rob"]),
    (str "william", [str "bill", str "billy", str "will", str "willy", str "liam"]),
    (str "bill", [str "william", str "billy", str "will"]),
    (str "billy", [str "william", str "bill", str "will"]),
    (str "richard", [str "rick", str "ricky", str "rich", str "dick", str "dickie"]),
    (str "rick", [str "richard", str "ricky", str "rich"]),
    (str "james", [str "jim", str "jimmy", str "jamie"]),
    (str "jim", [str "james", str "jimmy", str "jamie"]),
    (str "jimmy", [str "james", str "jim", str "jamie"]),
    (str "michael", [str "mike", str "mikey", str "mick", str "mickey"]),
    (str "mike", [str "michael", str "mikey", str "mick"]),
    (str "elizabeth", [str "liz", str "lizzy", str "beth", str "betty", str "eliza", str "lisa"]),
    (str "liz", [str "elizabeth", str "lizzy", str "beth"]),
    (str "beth", [str "elizabeth", str "liz", str "betty"]),
    (str "jennifer", [str "jen", str "jenny", str "jenn"]),
    (str "jen", [str "jennifer", str "jenny"]),
    (str "jenny", [str "jennifer", str "jen"]),
    (str "katherine", [str "kate", str "katie", str "kathy", str "cathy", str "kit"]),
    (str "catherine", [str "kate", str "katie", str "kathy", str "cathy", str "kit"]),
    (str "kate", [str "katherine", str "catherine", str "katie"]),
    (str "margaret", [str "maggie", str "meg", str "peggy", str "marge", str "margie"]),
    (str "maggie", [str "margaret", str "meg"]),
    (str "charles", [str "charlie", str "chuck", str "chas"]),
    (str "charlie", [str "charles", str "chuck"]),
    (str "joseph", [str "joe", str "joey", str "jo"]),
    (str "joe", [str "joseph", str "joey"]),
    (str "thomas", [str "tom", str "tommy", str "thom"]),
    (str "tom", [str "thomas", str "tommy"]),
    (str "christopher", [str "chris", str "topher", str "kit"]),
    (str "chris", [str "christopher", str "christine", str "christina"]),
    (str "patricia", [str "pat", str "patty", str "trish", str "tricia"]),
    (str "pat", [str "patricia", str "patrick"]),
    (str "patrick", [str "pat", str "paddy", str "rick"]),
    (str "daniel", [str "dan", str "danny", str "dannie"]),
    (str "dan", [str "daniel", str "danny"]),
    (str "anthony", [str "tony", str "ant"]),
    (str "tony", [str "anthony"]),
    (str "samuel", [str "sam", str "sammy"]),
    (str "sam", [str "samuel", str "samantha", str "sammy"]),
    (str "jose", [str "pepe", str "chepe", str "joe"]),
    (str "francisco", [str "paco", str "pancho", str "frank", str "frankie"]),
    (str "guadalupe", [str "lupe", str "lupita"]),
    (str "maria", [str "mary", str "mari"]),
    (str "jesus", [str "chuy", str "chucho"]),
    (str "alejandro", [str "alex", str "alejo"]),
    (str "alejandra", [str "alex", str "aleja"]),
    (str "miguel", [str "mike", str "michael"]),
    (str "guillermo", [str "memo", str "william", str "bill"]),
    (str "enrique", [str "henry", str "kike"]),
    (str "roberto", [str "robert", str "bob", str "beto"]),
    (str "eduardo", [str "eddie", str "edward", str "lalo"]),
    (str "fernando", [str "fernie", str "nando"]),
    (str "ricardo", [str "richard", str "rick", str "ricky"]) ]

/-- One step of the `NICKNAME_REVERSE` construction: record `nm` as a reverse
    expansion of its variant `v`. -/
def revStep (nm : Str) (m : List (Str × List Str)) (v : Str) : List (Str × List Str) :=
  match alGet m v with
  | none => m ++ [(v, [nm])]
  | some l => if nm ∈ l then m else alSet m v (l ++ [nm])

/-- `NICKNAME_REVERSE`, built from `NICKNAME_MAP` exactly as the module
    initialisation loop does. -/
def NICKNAME_REVERSE : List (Str × List Str) :=
  NICKNAME_MAP.foldl (fun m nmvs => nmvs.2.foldl (revStep nmvs.1) m) []

/-- `HONORIFICS` (normalize.js). -/
def HONORIFICS : List Str :=
  [ str "dr", str "dr.", str "doctor",
    str "mr", str "mr.", str "mister",
    str "mrs", str "mrs.", str "missus",
    str "ms", str "ms.", str "miss",
    str "prof", str "prof.", str "professor",
    str "rev", str "rev.", str "reverend",
    str "hon", str "hon.", str "honorable",
    str "sr", str "sr.", str "señor", str "senor",
    str "sra", str "sra.", str "señora", str "senora" ]

/-- `SUFFIXES` (normalize.js). -/
def SUFFIXES : List Str :=
  [ str "jr", str "jr.", str "junior",
    str "sr", str "sr.", str "senior",
    str "i", str "ii", str "iii", str "iv", str "v",
    str "1st", str "2nd", str "3rd", str "4th",
    str "esq", str "esq.", str "esquire",
    str "phd", str "ph.d", str "ph.d.",
    str "md", str "m.d", str "m.d." ]

/-- Punctuation removed early by `normalizeName` (`/[.,'"()]/g`). -/
def isNamePunct (c : Char) : Bool :=
  c = '.' || c = ',' || c = '\'' || c = '"' || c = '(' || c = ')'

/-- One iteration of the honorific/suffix extraction loop: if `\bw\b` occurs,
    record `w` without its first dot and replace all occurrences by a space,
    re-collapsing whitespace. -/
def stripWordStep (st : List Str × Str) (w : Str) : List Str × Str :=
  if jsTestWord true w st.2 then
    (st.1 ++ [removeFirstDot w], jsTrim (collapseWs (jsReplaceWord true w (str " ") st.2)))
  else st

/-- Run the extraction loop over a whole word table. -/
def stripWords (ws : List Str) (s : Str) : List Str × Str :=
  ws.foldl stripWordStep ([], s)

/-- Result shape of `normalizeName`. -/
structure NormalizedName where
  canonical : Str
  variants : List Str
  honorifics : List Str
  suffixes : List Str
  parts : List Str
  original : Str
deriving DecidableEq

/-- Variant generation: for each token, substitute each direct or reverse
    nickname and add the re-sorted, re-joined result to the variant set. -/
def buildVariants (parts : List Str) (canonical : Str) : List Str :=
  (List.range parts.length).foldl
    (fun acc idx =>
      let part := parts.getD idx []
      let nicknames := (alGet NICKNAME_MAP part).getD []
      let reverseNicknames := (alGet NICKNAME_REVERSE part).getD []
      (nicknames ++ reverseNicknames).foldl
        (fun acc v =>
          setAdd (joinWith (str " ") (sortStrs (parts.set idx v))) acc)
        acc)
    [canonical]

/-- Embedding of `normalizeName` (normalize.js). -/
def normalizeName (fullName : Str) : NormalizedName :=
  if fullName = [] then
    { canonical := [], variants := [], honorifics := [], suffixes := [],
      parts := [], original := fullName }
  else
    let name0 := jsTrim (toLowerStr (removeAccents fullName))
    let name1 := collapseWs name0
    let name2 := jsTrim (collapseWs (replaceChars isNamePunct ' ' name1))
    let (foundHonorifics, name3) := stripWords HONORIFICS name2
    let (foundSuffixes, name4) := stripWords SUFFIXES name3
    let parts0 := splitDrop (fun c => isJsSpace c || c = ',') name4
    let parts :=
      if ',' ∈ fullName then
        match (splitKeep ',' fullName).map jsTrim with
        | [last, firstMid] =>
          let lastName := jsTrim (toLowerStr (removeAccents last))
          let fm := jsTrim (toLowerStr (removeAccents firstMid))
          let firstMiddle := if fm = [] then [([] : Str)] else splitDrop isJsSpace fm
          firstMiddle ++ [lastName]
        | _ => parts0
      else parts0
    let canonical := joinWith (str " ") (sortStrs parts)
    { canonical := canonical,
      variants := buildVariants parts canonical,
      honorifics := foundHonorifics,
      suffixes := foundSuffixes,
      parts := parts,
      original := fullName }

/-! ### normalize.js: edit distance, similarity, name comparison -/

/-- Inner loop of the Levenshtein dynamic programme: fill one row.  `diag` is
    `matrix[i-1][j-1]`, `above` the rest of the previous row, `left` the value
    just written (`matrix[i][j-1]`). -/
def levRowAux (bc : Char) : Str → Nat → List Nat → Nat → List Nat
  | [], _, _, _ => []
  | _ :: _, _, [], _ => []
  | ac :: arest, diag, abv :: abvrest, left =>
    let v := if bc = ac then diag else 1 + min diag (min left abv)
    v :: levRowAux bc arest abv abvrest v

/-- One row step: previous row → row for the next character of `b`. -/
def levRow (a : Str) (prev : List Nat) (bc : Char) : List Nat :=
  match prev with
  | [] => []
  | d :: rest => (d + 1) :: levRowAux bc a d rest (d + 1)

/-- Embedding of `levenshteinDistance` (normalize.js): the classic DP matrix,
    computed row by row; rows are indexed by `b`, columns by `a`. -/
def levenshteinDistance (a b : Str) : Nat :=
  if a = [] || b = [] then max a.length b.length
  else ((b.foldl (levRow a) (List.range (a.length + 1))).getLast?).getD 0

/-- Embedding of `stringSimilarity` (normalize.js): percentage similarity,
    with `Math.round((1 - d/m) * 100)` computed exactly on naturals as
    `⌊((m - d) * 200 + m) / (2 * m)⌋`. -/
def stringSimilarity (a b : Str) : Nat :=
  if a = [] && b = [] then 100
  else if a = [] || b = [] then 0
  else
    let d := levenshteinDistance (toLowerStr a) (toLowerStr b)
    let m := max a.length b.length
    if m = 0 then 100
    else ((m - d) * 200 + m) / (2 * m)

/-- Result shape of `areNamesSimilar`; `matched` is the source's `match` field
    (a reserved word in Lean). -/
structure NameSim where
  matched : Bool
  score : Nat
  reason : Str
deriving DecidableEq

/-- Embedding of `areNamesSimilar` (normalize.js). -/
def areNamesSimilar (name1 name2 : Str) (threshold : Nat := 80) : NameSim :=
  let norm1 := normalizeName name1
  let norm2 := normalizeName name2
  if norm1.canonical = norm2.canonical then
    { matched := true, score := 100, reason := str "exact_canonical" }
  else if norm1.variants.any (fun v1 => norm2.variants.any (fun v2 => v1 = v2)) then
    { matched := true, score := 95, reason := str "nickname_variant" }
  else
    let similarity := stringSimilarity norm1.canonical norm2.canonical
    if threshold ≤ similarity then
      { matched := true, score := similarity, reason := str "fuzzy_match" }
    else
      let sharedParts := norm1.parts.filter (fun p => p ∈ norm2.parts)
      if 2 ≤ sharedParts.length &&
          min norm1.parts.length norm2.parts.length ≤ sharedParts.length then
        { matched := true, score := 85, reason := str "shared_parts" }
      else
        { matched := false, score := similarity, reason := str "no_match" }

/-- Embedding of `normalizePhone` (normalize.js). -/
def normalizePhone (phone : Option Str) : Str :=
  match phone with
  | none => []
  | some p =>
    if p = [] then []
    else
      let digits := p.filter isDigitCh
      if digits.length = 11 && digits.head? = some '1' then digits.tail
      else digits

/-- Embedding of `normalizeEmail` (normalize.js). -/
def normalizeEmail (email : Option Str) : Str :=
  match email with
  | none => []
  | some e => if e = [] then [] else jsTrim (toLowerStr e)

/-- Street-suffix and directional abbreviation table of `normalizeAddress`,
    in source order (each is a whole-word global replace, no `i` flag). -/
def ADDRESS_ABBREVS : List (Str × Str) :=
  [ (str "street", str "st"), (str "avenue", str "ave"), (str "drive", str "dr"),
    (str "boulevard", str "blvd"), (str "road", str "rd"), (str "court", str "ct"),
    (str "lane", str "ln"), (str "apartment", str "apt"), (str "suite", str "ste"),
    (str "north", str "n"), (str "south", str "s"), (str "east", str "e"),
    (str "west", str "w") ]

/-- Punctuation deleted by `normalizeAddress` (`/[.,#]/g` → empty string). -/
def isAddrPunct (c : Char) : Bool := c = '.' || c = ',' || c = '#'

/-- Embedding of `normalizeAddress` (normalize.js). -/
def normalizeAddress (address : Option Str) : Str :=
  match address with
  | none => []
  | some a =>
    if a = [] then []
    else
      let s0 := jsTrim (toLowerStr (removeAccents a))
      let s1 := ADDRESS_ABBREVS.foldl (fun s wr => jsReplaceWord false wr.1 wr.2 s) s0
      jsTrim (collapseWs (deleteChars isAddrPunct s1))

/-- Does the string begin with the given needle? -/
def strStartsWith : Str → Str → Bool
  | [], _ => true
  | _ :: _, [] => false
  | a :: as, b :: bs => a = b && strStartsWith as bs

/-- JavaScript `String.prototype.includes`: substring occurrence. -/
def strIncludes (needle : Str) : Str → Bool
  | [] => needle = []
  | c :: cs => strStartsWith needle (c :: cs) || strIncludes needle cs

/-! ### matching.js: tiers, configuration, records, scoreMatch -/

/-- One tier descriptor from `MATCH_TIERS`. -/
structure MatchTier where
  tier : Nat
  name : Str
  minConfidence : Nat
  color : Str
deriving DecidableEq

/-- The `MATCH_TIERS` object. -/
structure MatchTiers where
  DEFINITIVE : MatchTier
  STRONG : MatchTier
  POSSIBLE : MatchTier
  INVESTIGATE : MatchTier

def MATCH_TIERS : MatchTiers :=
  { DEFINITIVE := ⟨1, str "Definitive", 100, str "#10b981"⟩,
    STRONG := ⟨2, str "Strong", 85, str "#6366f1"⟩,
    POSSIBLE := ⟨3, str "Possible", 70, str "#f59e0b"⟩,
    INVESTIGATE := ⟨4, str "Investigate", 0, str "#ef4444"⟩ }

/-- Field-matching configuration (`DEFAULT_FIELD_CONFIG` shape). -/
structure FieldConfig where
  uniqueIdFields : List Str
  nameFields : List Str
  corroboratingFields : List Str
  excludeFromMerge : List Str
  concatenateFields : List Str
  linkFields : List Str

def DEFAULT_FIELD_CONFIG : FieldConfig :=
  { uniqueIdFields := [str "PPID", str "clio_contact_id", str "A#"],
    nameFields := [str "Client Name", str "First Name", str "Family Name", str "Middle Name"],
    corroboratingFields := [str "Phone Number", str "Client Email", str "DOB",
      str "Address", str "Address Line 1"],
    excludeFromMerge := [str "Box Legacy ID"],
    concatenateFields := [str "Client Notes"],
    linkFields := [str "Case Master View", str "Events", str "Relationships", str "Matters"] }

/-- A record as seen by matching.js: store id plus string-valued fields (the
    fields the scorer touches — ids, names, phone, email, DOB, address — are
    text fields in this table). -/
structure SRec where
  id : Str
  fields : List (Str × Str)
deriving DecidableEq

/-- JavaScript truthiness of a field read: present and nonempty. -/
def truthyS : Option Str → Bool
  | none => false
  | some s => s ≠ []

/-- JavaScript `a || b` on two field reads, then defaulted to `''`. -/
def jsOrFields (a b : Option Str) : Option Str := if truthyS a then a else b

/-- `fields['First Name'] … .filter(Boolean)` then fallback chain — the
    `buildFullName` helper of matching.js. -/
def buildFullName (fields : List (Str × Str)) : Str :=
  let parts := ([alGet fields (str "First Name"), alGet fields (str "Middle Name"),
      alGet fields (str "Family Name")].filterMap id).filter (fun s => s ≠ [])
  if parts ≠ [] then joinWith (str " ") parts
  else
    match jsOrFields (alGet fields (str "Client Name"))
        (alGet fields (str "Full_Name_Normal_Pretty")) with
    | some s => s
    | none => []

/-- State of the unique-ID loop in `scoreMatch`: running confidence, reasons
    and conflicts. -/
structure IdScanState where
  confidence : Nat
  reasons : List Str
  conflicts : List Str
deriving DecidableEq

/-- One unique-ID field check of `scoreMatch`. -/
def idScanStep (fieldsA fieldsB : List (Str × Str)) (st : IdScanState)
    (idField : Str) : IdScanState :=
  match alGet fieldsA idField, alGet fieldsB idField with
  | some valA, some valB =>
    if valA ≠ [] && valB ≠ [] then
      if valA = valB then
        { st with reasons := st.reasons ++ [idField ++ str " exact match"],
                  confidence := max st.confidence 100 }
      else
        { st with conflicts := st.conflicts ++
            [idField ++ str " conflict: \"" ++ valA ++ str "\" vs \"" ++ valB ++ str "\""] }
    else st
  | _, _ => st

/-- Result shape of `scoreMatch`. -/
structure MatchResult where
  tier : MatchTier
  confidence : Nat
  reasons : List Str
  conflicts : List Str
  isConflict : Bool
deriving DecidableEq

/-- Embedding of `scoreMatch` (matching.js). -/
def scoreMatch (recordA recordB : SRec) (config : FieldConfig) : MatchResult :=
  let fieldsA := recordA.fields
  let fieldsB := recordB.fields
  let idState := config.uniqueIdFields.foldl (idScanStep fieldsA fieldsB) ⟨0, [], []⟩
  if idState.conflicts ≠ [] then
    { tier := MATCH_TIERS.INVESTIGATE, confidence := max idState.confidence 50,
      reasons := idState.reasons, conflicts := idState.conflicts, isConflict := true }
  else if 100 ≤ idState.confidence then
    { tier := MATCH_TIERS.DEFINITIVE, confidence := 100,
      reasons := idState.reasons, conflicts := idState.conflicts, isConflict := false }
  else
    let nameA := buildFullName fieldsA
    let nameB := buildFullName fieldsB
    let afterName :=
      if nameA ≠ [] && nameB ≠ [] then
        let nameMatch := areNamesSimilar nameA nameB 75
        if nameMatch.matched then
          let upd : IdScanState :=
            { idState with
                reasons := idState.reasons ++ [str "Name: " ++ natToStr nameMatch.score ++
                  str "% (" ++ nameMatch.reason ++ str ")"],
                confidence := max idState.confidence nameMatch.score }
          (upd, 0)
        else (idState, 0)
      else (idState, (0 : Nat))
    let st1 := afterName.1
    let phoneA := normalizePhone (alGet fieldsA (str "Phone Number"))
    let phoneB := normalizePhone (alGet fieldsB (str "Phone Number"))
    let st2 :=
      if phoneA ≠ [] && phoneB ≠ [] && 10 ≤ phoneA.length && phoneA = phoneB then
        let upd : IdScanState :=
          { st1 with
              reasons := st1.reasons ++ [str "Phone exact match"],
              confidence := min 100 (st1.confidence + 10) }
        (upd, afterName.2 + 1)
      else (st1, afterName.2)
    let st2s := st2.1
    let emailA := normalizeEmail (alGet fieldsA (str "Client Email"))
    let emailB := normalizeEmail (alGet fieldsB (str "Client Email"))
    let st3 :=
      if emailA ≠ [] && emailB ≠ [] && !(strIncludes (str "null@blank") emailA) &&
          emailA = emailB then
        let upd : IdScanState :=
          { st2s with
              reasons := st2s.reasons ++ [str "Email exact match"],
              confidence := min 100 (st2s.confidence + 10) }
        (upd, st2.2 + 1)
      else (st2s, st2.2)
    let st3s := st3.1
    let dobA := alGet fieldsA (str "DOB")
    let dobB := alGet fieldsB (str "DOB")
    let st4 :=
      if truthyS dobA && truthyS dobB && dobA = dobB then
        let upd : IdScanState :=
          { st3s with
              reasons := st3s.reasons ++ [str "DOB exact match"],
              confidence := min 100 (st3s.confidence + 15) }
        (upd, st3.2 + 1)
      else (st3s, st3.2)
    let st4s := st4.1
    let addrA := normalizeAddress (jsOrFields (alGet fieldsA (str "Address"))
        (alGet fieldsA (str "Address Line 1")))
    let addrB := normalizeAddress (jsOrFields (alGet fieldsB (str "Address"))
        (alGet fieldsB (str "Address Line 1")))
    let st5 :=
      if addrA ≠ [] && addrB ≠ [] then
        let addrSim := stringSimilarity addrA addrB
        if 80 ≤ addrSim then
          let upd : IdScanState :=
            { st4s with
                reasons := st4s.reasons ++ [str "Address: " ++ natToStr addrSim ++
                  str "% similar"],
                confidence := min 100 (st4s.confidence + 5) }
          (upd, st4.2 + 1)
        else (st4s, st4.2)
      else (st4s, st4.2)
    let finalState := st5.1
    let corroborationCount := st5.2
    if 100 ≤ finalState.confidence then
      { tier := MATCH_TIERS.DEFINITIVE, confidence := finalState.confidence,
        reasons := finalState.reasons, conflicts := [], isConflict := false }
    else if 85 ≤ finalState.confidence ||
        (75 ≤ finalState.confidence && 1 ≤ corroborationCount) then
      { tier := MATCH_TIERS.STRONG, confidence := finalState.confidence,
        reasons := finalState.reasons, conflicts := [], isConflict := false }
    else if 70 ≤ finalState.confidence then
      { tier := MATCH_TIERS.POSSIBLE, confidence := finalState.confidence,
        reasons := finalState.reasons, conflicts := [], isConflict := false }
    else
      { tier := MATCH_TIERS.POSSIBLE, confidence := max finalState.confidence 70,
        reasons := finalState.reasons, conflicts := [], isConflict := false }

/-! ### matching.js: groupCandidates -/

/-- A record entry as carried in candidates and groups:
    `{ record, score, name }`. -/
structure RecEntry where
  record : SRec
  score : Int
  name : Str
deriving DecidableEq

/-- The projection of a `MatchCandidate` that `groupCandidates` consumes:
    survivor / merged entries, tier and confidence (presentation-only fields
    like `matchKey` and the reason lists play no role in grouping). -/
structure Candidate where
  survivor : RecEntry
  merged : RecEntry
  tier : MatchTier
  confidence : Nat
deriving DecidableEq

/-- A merge group (`MGroup`; the source calls it a plain group object, and its
    `matches` array is `matchList` here since both names are taken in Lean).
    `survivor` / `toMerge` stay at their JavaScript-undefined defaults until
    the final election pass fills them. -/
structure MGroup where
  gid : Str
  records : List RecEntry
  matchList : List Candidate
  bestTier : MatchTier
  highestConfidence : Nat
  survivor : Option RecEntry := none
  toMerge : List RecEntry := []
deriving DecidableEq

/-- Mutable state of the grouping loop.  JavaScript group objects are shared
    references; the embedding gives each created group a key into `store`,
    keeps the `groups` array as the `live` key list, and `recordToGroup` as
    the `memb` map from record id to key. -/
structure GState where
  store : List (Nat × MGroup)
  live : List Nat
  memb : List (Str × Nat)
  nextKey : Nat

/-- Append `r` unless a record with the same id is already present (the
    per-record guard of the group-merge branch). -/
def pushIfNewId (acc : List RecEntry) (r : RecEntry) : List RecEntry :=
  if acc.any (fun sr => sr.record.id = r.record.id) then acc else acc ++ [r]

/-- One `candidates.forEach` iteration of `groupCandidates`. -/
def stepCandidate (st : GState) (c : Candidate) : GState :=
  let survivorId := c.survivor.record.id
  let mergedId := c.merged.record.id
  match alGet st.memb survivorId, alGet st.memb mergedId with
  | none, none =>
    let k := st.nextKey
    let g : MGroup :=
      { gid := str "group_" ++ natToStr st.live.length,
        records := [c.survivor, c.merged], matchList := [c],
        bestTier := c.tier, highestConfidence := c.confidence }
    { store := st.store ++ [(k, g)], live := st.live ++ [k],
      memb := alSet (alSet st.memb survivorId k) mergedId k, nextKey := k + 1 }
  | some ks, none =>
    match alGet st.store ks with
    | none => st
    | some g =>
      let g' : MGroup :=
        { g with
            records := g.records ++ [c.merged],
            matchList := g.matchList ++ [c],
            highestConfidence := max g.highestConfidence c.confidence,
            bestTier := if c.tier.tier < g.bestTier.tier then c.tier else g.bestTier }
      { st with store := alSet st.store ks g', memb := alSet st.memb mergedId ks }
  | none, some km =>
    match alGet st.store km with
    | none => st
    | some g =>
      let g' : MGroup :=
        { g with
            records := g.records ++ [c.survivor],
            matchList := g.matchList ++ [c],
            highestConfidence := max g.highestConfidence c.confidence,
            bestTier := if c.tier.tier < g.bestTier.tier then c.tier else g.bestTier }
      { st with store := alSet st.store km g', memb := alSet st.memb survivorId km }
  | some ks, some km =>
    if ks = km then
      match alGet st.store ks with
      | none => st
      | some g =>
        { st with store := alSet st.store ks { g with matchList := g.matchList ++ [c] } }
    else
      match alGet st.store ks, alGet st.store km with
      | some gs, some gm =>
        let gs' : MGroup :=
          { gs with
              records := gm.records.foldl pushIfNewId gs.records,
              matchList := gs.matchList ++ gm.matchList ++ [c],
              highestConfidence := max (max gs.highestConfidence gm.highestConfidence)
                c.confidence,
              bestTier := if gm.bestTier.tier < gs.bestTier.tier then gm.bestTier
                else gs.bestTier }
        { store := alSet st.store ks gs',
          live := st.live.erase km,
          memb := gm.records.foldl (fun m r => alSet m r.record.id ks) st.memb,
          nextKey := st.nextKey }
      | _, _ => st

/-- Deduplicate group members by record id, keeping first occurrences (the
    `seen`-set filter of the final pass). -/
def dedupRecords (rs : List RecEntry) : List RecEntry :=
  rs.foldl pushIfNewId []

/-- Comparator `(a, b) => b.score - a.score`, as a may-precede relation. -/
def byScoreDesc (a b : RecEntry) : Bool := b.score ≤ a.score

/-- Final pass over a group: dedupe, sort by quality descending, elect the
    head as survivor and the rest as `toMerge`. -/
def finalizeGroup (g : MGroup) : MGroup :=
  let sorted := sortBy byScoreDesc (dedupRecords g.records)
  { g with records := sorted, survivor := sorted.head?, toMerge := sorted.tail }

/-- Embedding of `groupCandidates` (matching.js). -/
def groupCandidates (candidates : List Candidate) : List MGroup :=
  let st := candidates.foldl stepCandidate ⟨[], [], [], 0⟩
  (st.live.filterMap (alGet st.store)).map finalizeGroup

/-! ### JSON values, printer and parser

merge.js persists history through the platform builtins `JSON.stringify`
(with indent 2) and `JSON.parse`.  The embedding models the JSON fragment the
code reads and writes: null, booleans, integers, strings, arrays, objects.
`Json` / `JsonList` / `JsonObj` are a mutual inductive so that every function
over them is plain structural recursion (kernel-reducible). -/

mutual
inductive Json where
  | null
  | bool (b : Bool)
  | num (n : Int)
  | jstr (s : Str)
  | arr (elems : JsonList)
  | obj (members : JsonObj)
inductive JsonList where
  | nil
  | cons (hd : Json) (tl : JsonList)
inductive JsonObj where
  | nil
  | cons (key : Str) (val : Json) (tl : JsonObj)
end

def JsonList.toList : JsonList → List Json
  | .nil => []
  | .cons h t => h :: t.toList

def JsonList.ofList : List Json → JsonList
  | [] => .nil
  | h :: t => .cons h (JsonList.ofList t)

def JsonObj.toList : JsonObj → List (Str × Json)
  | .nil => []
  | .cons k v t => (k, v) :: t.toList

def JsonObj.ofList : List (Str × Json) → JsonObj
  | [] => .nil
  | (k, v) :: t => .cons k v (JsonObj.ofList t)

/-- Opening and closing curly braces (written by code point). -/
def chLB : Char := Char.ofNat 123
def chRB : Char := Char.ofNat 125

/-- Lower-case hexadecimal digit. -/
def hexDigit (n : Nat) : Char :=
  if n < 10 then Char.ofNat ('0'.toNat + n) else Char.ofNat ('a'.toNat + (n - 10))

/-- JSON string escaping of one character, as `JSON.stringify` performs it. -/
def escapeChar (c : Char) : Str :=
  if c = '"' then ['\\', '"']
  else if c = '\\' then ['\\', '\\']
  else if c = Char.ofNat 8 then ['\\', 'b']
  else if c = Char.ofNat 12 then ['\\', 'f']
  else if c = '\n' then ['\\', 'n']
  else if c = '\r' then ['\\', 'r']
  else if c = '\t' then ['\\', 't']
  else if c.toNat < 32 then
    ['\\', 'u', '0', '0', hexDigit (c.toNat / 16), hexDigit (c.toNat % 16)]
  else [c]

def escapeStr (s : Str) : Str := (s.map escapeChar).flatten

/-- A quoted, escaped JSON string literal. -/
def printStrLit (s : Str) : Str := '"' :: (escapeStr s ++ ['"'])

/-- Newline plus indentation before an item at nesting `depth`, when printing
    with a `gap` of spaces per level; empty in compact mode (`gap = 0`). -/
def nlIndent (gap depth : Nat) : Str :=
  if gap = 0 then [] else '\n' :: List.replicate (gap * depth) ' '

/-- Key/value separator: `": "` pretty, `":"` compact. -/
def colonSep (gap : Nat) : Str := if gap = 0 then [':'] else [':', ' ']

mutual
/-- `JSON.stringify(v, null, gap)` (with `gap = 0` for the compact
    two-argument form), at nesting level `depth`. -/
def printVal (gap depth : Nat) : Json → Str
  | .null => str "null"
  | .bool true => str "true"
  | .bool false => str "false"
  | .num n => intToStr n
  | .jstr s => printStrLit s
  | .arr .nil => ['[', ']']
  | .arr (.cons h t) =>
    '[' :: (printItems gap (depth + 1) (.cons h t) ++ (nlIndent gap depth ++ [']']))
  | .obj .nil => [chLB, chRB]
  | .obj (.cons k v t) =>
    chLB :: (printMembers gap (depth + 1) (.cons k v t) ++ (nlIndent gap depth ++ [chRB]))
/-- Array items, each preceded by its indentation, separated by commas. -/
def printItems (gap depth : Nat) : JsonList → Str
  | .nil => []
  | .cons h t =>
    nlIndent gap depth ++ (printVal gap depth h ++ printItemsRest gap depth t)
def printItemsRest (gap depth : Nat) : JsonList → Str
  | .nil => []
  | .cons h t =>
    ',' :: (nlIndent gap depth ++ (printVal gap depth h ++ printItemsRest gap depth t))
/-- Object members, `"key": value`. -/
def printMembers (gap depth : Nat) : JsonObj → Str
  | .nil => []
  | .cons k v t =>
    nlIndent gap depth ++ (printStrLit k ++ (colonSep gap ++
      (printVal gap depth v ++ printMembersRest gap depth t)))
def printMembersRest (gap depth : Nat) : JsonObj → Str
  | .nil => []
  | .cons k v t =>
    ',' :: (nlIndent gap depth ++ (printStrLit k ++ (colonSep gap ++
      (printVal gap depth v ++ printMembersRest gap depth t))))
end

/-- Whitespace accepted between JSON tokens (the JSON grammar's `ws`). -/
def isJsonWs (c : Char) : Bool := c = ' ' || c = '\t' || c = '\n' || c = '\r'

def skipJsonWs : Str → Str
  | [] => []
  | c :: cs => if isJsonWs c then skipJsonWs cs else c :: cs

/-- Longest digit prefix and the rest. -/
def takeDigits : Str → Str × Str
  | [] => ([], [])
  | c :: cs =>
    if isDigitCh c then
      match takeDigits cs with
      | (ds, r) => (c :: ds, r)
    else ([], c :: cs)

def digitsToNat (ds : Str) : Nat :=
  ds.foldl (fun acc c => acc * 10 + (c.toNat - '0'.toNat)) 0

/-- Parse a JSON integer (sign and digit run). -/
def parseNum (cs : Str) : Option (Json × Str) :=
  match cs with
  | '-' :: r =>
    match takeDigits r with
    | ([], _) => none
    | (ds, rest) => some (.num (-(digitsToNat ds : Int)), rest)
  | _ =>
    match takeDigits cs with
    | ([], _) => none
    | (ds, rest) => some (.num (digitsToNat ds : Int), rest)

def hexVal (c : Char) : Option Nat :=
  let n := c.toNat
  if 48 ≤ n && n ≤ 57 then some (n - 48)
  else if 97 ≤ n && n ≤ 102 then some (n - 97 + 10)
  else if 65 ≤ n && n ≤ 70 then some (n - 65 + 10)
  else none

/-- Body of a JSON string after the opening quote; raw control characters are
    rejected, escapes decoded. -/
def parseStrBody (acc : Str) : Str → Option (Str × Str)
  | [] => none
  | '"' :: rest => some (acc.reverse, rest)
  | '\\' :: esc =>
    match esc with
    | [] => none
    | 'u' :: a :: b :: c :: d :: rest =>
      match hexVal a, hexVal b, hexVal c, hexVal d with
      | some va, some vb, some vc, some vd =>
        parseStrBody (Char.ofNat (((va * 16 + vb) * 16 + vc) * 16 + vd) :: acc) rest
      | _, _, _, _ => none
    | e :: rest =>
      if e = '"' then parseStrBody ('"' :: acc) rest
      else if e = '\\' then parseStrBody ('\\' :: acc) rest
      else if e = '/' then parseStrBody ('/' :: acc) rest
      else if e = 'b' then parseStrBody (Char.ofNat 8 :: acc) rest
      else if e = 'f' then parseStrBody (Char.ofNat 12 :: acc) rest
      else if e = 'n' then parseStrBody ('\n' :: acc) rest
      else if e = 'r' then parseStrBody ('\r' :: acc) rest
      else if e = 't' then parseStrBody ('\t' :: acc) rest
      else none
  | c :: rest => if c.toNat < 32 then none else parseStrBody (c :: acc) rest

mutual
/-- Parse one JSON value; `fuel` makes the recursion structural. -/
def parseVal : Nat → Str → Option (Json × Str)
  | 0, _ => none
  | fuel + 1, cs =>
    match skipJsonWs cs with
    | 'n' :: 'u' :: 'l' :: 'l' :: r => some (.null, r)
    | 't' :: 'r' :: 'u' :: 'e' :: r => some (.bool true, r)
    | 'f' :: 'a' :: 'l' :: 's' :: 'e' :: r => some (.bool false, r)
    | '"' :: r =>
      match parseStrBody [] r with
      | some (s, rest) => some (.jstr s, rest)
      | none => none
    | '[' :: r =>
      match skipJsonWs r with
      | ']' :: rest => some (.arr .nil, rest)
      | r' =>
        match parseElems fuel r' with
        | some (es, rest) => some (.arr es, rest)
        | none => none
    | c :: r =>
      if c = chLB then
        match skipJsonWs r with
        | d :: rest =>
          if d = chRB then some (.obj .nil, rest)
          else
            match parseMembers fuel (d :: rest) with
            | some (ms, rest') => some (.obj ms, rest')
            | none => none
        | [] => none
      else if c = '-' || isDigitCh c then parseNum (c :: r)
      else none
    | [] => none
/-- One or more comma-separated array elements, up to the closing `]`. -/
def parseElems : Nat → Str → Option (JsonList × Str)
  | 0, _ => none
  | fuel + 1, cs =>
    match parseVal fuel cs with
    | none => none
    | some (v, r) =>
      match skipJsonWs r with
      | ',' :: r' =>
        match parseElems fuel r' with
        | some (vs, rest) => some (.cons v vs, rest)
        | none => none
      | ']' :: r' => some (.cons v .nil, r')
      | _ => none
/-- One or more comma-separated object members, up to the closing brace. -/
def parseMembers : Nat → Str → Option (JsonObj × Str)
  | 0, _ => none
  | fuel + 1, cs =>
    match skipJsonWs cs with
    | '"' :: r =>
      match parseStrBody [] r with
      | none => none
      | some (k, r1) =>
        match skipJsonWs r1 with
        | ':' :: r2 =>
          match parseVal fuel r2 with
          | none => none
          | some (v, r3) =>
            match skipJsonWs r3 with
            | ',' :: r4 =>
              match parseMembers fuel r4 with
              | some (ms, rest) => some (.cons k v ms, rest)
              | none => none
            | d :: r4 => if d = chRB then some (.cons k v .nil, r4) else none
            | [] => none
        | _ => none
    | _ => none
end

/-- `JSON.parse`, returning `none` where the JavaScript builtin throws a
    `SyntaxError` (the model covers the integer-numeric fragment the
    application reads and writes). -/
def jsonParse (s : Str) : Option Json :=
  match parseVal (s.length + 1) s with
  | some (j, rest) => if skipJsonWs rest = [] then some j else none
  | none => none

/-! ### merge.js: values, resolutions, computeFieldResolutions -/

/-- A field value as merge.js sees one: null, text, number, boolean, or a
    list of strings (linked-record id arrays / multi-value fields).  A missing
    field is `none` at the map level (JavaScript `undefined`). -/
inductive Value where
  | null
  | vstr (s : Str)
  | vnum (n : Int)
  | vbool (b : Bool)
  | vlist (l : List Str)
deriving DecidableEq

/-- Embedding of `isEmpty` (merge.js): null/undefined, whitespace-only string,
    or empty array. -/
def isEmptyV : Option Value → Bool
  | none => true
  | some .null => true
  | some (.vstr s) => jsTrim s = []
  | some (.vlist l) => l = []
  | some (.vnum _) => false
  | some (.vbool _) => false

/-- JSON encoding of a field value. -/
def valueToJson : Value → Json
  | .null => .null
  | .vstr s => .jstr s
  | .vnum n => .num n
  | .vbool b => .bool b
  | .vlist l => .arr (JsonList.ofList (l.map Json.jstr))

/-- `JSON.stringify(v)` of a field value (compact form), used for the
    distinct-value comparison in `computeFieldResolutions`; JavaScript's
    `JSON.stringify(undefined)` is the undefined value, rendered here as the
    marker it prints as (unreachable: callers filter empties first). -/
def stringifyValue : Option Value → Str
  | none => str "undefined"
  | some v => printVal 0 0 (valueToJson v)

/-- `String(v)` for concatenation (JavaScript string coercion). -/
def jsToString : Value → Str
  | .null => str "null"
  | .vstr s => s
  | .vnum n => intToStr n
  | .vbool true => str "true"
  | .vbool false => str "false"
  | .vlist l => joinWith [','] l

/-- A record as merge.js sees one. -/
structure MRec where
  id : Str
  fields : List (Str × Value)
deriving DecidableEq

/-- A survivor / to-merge entry (`{ record, name, … }`); merge.js reads only
    `record` and `name` from these. -/
structure REntry where
  record : MRec
  name : Str
deriving DecidableEq

/-- The schema as merge.js consumes it: computed-field and link-field names. -/
structure MSchema where
  computedFields : List Str
  linkFields : List Str
deriving DecidableEq

/-- `DEFAULT_RESOLUTION_CONFIG` shape. -/
structure ResolutionConfig where
  concatenateFields : List Str
  linkFields : List Str
  excludeFields : List Str
  concatenateDelimiter : Str

def DEFAULT_RESOLUTION_CONFIG : ResolutionConfig :=
  { concatenateFields := [str "Client Notes"],
    linkFields := [str "Case Master View", str "Events", str "Relationships",
      str "Matters", str "Client Notes"],
    excludeFields := [str "Box Legacy ID"],
    concatenateDelimiter := str " | " }

/-- The `RESOLUTION_STRATEGIES` constants. -/
structure RStrategies where
  KEEP_A : Str
  KEEP_B : Str
  KEEP_LONGEST : Str
  KEEP_NONEMPTY : Str
  CONCATENATE : Str
  MERGE_LINKS : Str
  MANUAL : Str
  AUTO : Str

def RESOLUTION_STRATEGIES : RStrategies :=
  { KEEP_A := str "keep_a", KEEP_B := str "keep_b", KEEP_LONGEST := str "keep_longest",
    KEEP_NONEMPTY := str "keep_nonempty", CONCATENATE := str "concatenate",
    MERGE_LINKS := str "merge_links", MANUAL := str "manual", AUTO := str "auto" }

/-- The `{recordId, name, value}` triples carried by manual resolutions. -/
structure MergedInfo where
  recordId : Str
  name : Str
  value : Option Value
deriving DecidableEq

/-- A field resolution / field decision.  The JavaScript objects carry only
    the keys their creating branch set; here every key is present with the
    absent-key default (`none` / `[]` / `false`), and the source's `include`
    key is `include'` (a Lean keyword). -/
structure FieldResolution where
  strategy : Str
  value : Option Value := none
  include' : Bool
  needsDecision : Bool := false
  isComputed : Bool := false
  isExcluded : Bool := false
  isLinkField : Bool := false
  survivorValue : Option Value := none
  mergedValues : List (Option Value) := []
  mergedInfos : List MergedInfo := []
  allValues : List (Option Value) := []
deriving DecidableEq

/-- Resolution of one field name by `computeFieldResolutions`. -/
def resolveOneField (survivor : REntry) (toMerge : List REntry) (schema : MSchema)
    (config : ResolutionConfig) (fieldName : Str) : FieldResolution :=
  if fieldName ∈ schema.computedFields then
    { strategy := str "computed", include' := false, isComputed := true }
  else if fieldName ∈ config.excludeFields then
    { strategy := str "excluded", include' := false, isExcluded := true }
  else
    let survivorValue := alGet survivor.record.fields fieldName
    if fieldName ∈ config.linkFields || fieldName ∈ schema.linkFields then
      let start := match survivorValue with
        | some (.vlist l) => l
        | _ => []
      let merged := toMerge.foldl (fun acc m =>
        match alGet m.record.fields fieldName with
        | some (.vlist l) => l.foldl (fun acc id => if id ∈ acc then acc else acc ++ [id]) acc
        | _ => acc) start
      { strategy := RESOLUTION_STRATEGIES.MERGE_LINKS,
        value := if merged ≠ [] then some (.vlist merged) else some .null,
        include' := merged ≠ [],
        survivorValue := survivorValue,
        mergedValues := toMerge.map (fun m => alGet m.record.fields fieldName),
        isLinkField := true }
    else if fieldName ∈ config.concatenateFields then
      let parts0 : List Str :=
        if !isEmptyV survivorValue then
          [jsToString ((survivorValue).getD .null)]
        else []
      let parts := toMerge.foldl (fun acc m =>
        let val := alGet m.record.fields fieldName
        if !isEmptyV val && jsToString (val.getD .null) ∉ acc then
          acc ++ [jsToString (val.getD .null)]
        else acc) parts0
      let concatenated := joinWith config.concatenateDelimiter parts
      { strategy := RESOLUTION_STRATEGIES.CONCATENATE,
        value := if concatenated ≠ [] then some (.vstr concatenated) else some .null,
        include' := concatenated ≠ [],
        survivorValue := survivorValue,
        mergedValues := toMerge.map (fun m => alGet m.record.fields fieldName) }
    else
      let allValues := survivorValue :: toMerge.map (fun m => alGet m.record.fields fieldName)
      let nonEmptyValues := allValues.filter (fun v => !isEmptyV v)
      if nonEmptyValues = [] then
        { strategy := RESOLUTION_STRATEGIES.AUTO, value := some .null, include' := false }
      else
        let uniqueValues := (nonEmptyValues.map stringifyValue).foldl
          (fun acc s => setAdd s acc) []
        if uniqueValues.length = 1 then
          { strategy := RESOLUTION_STRATEGIES.AUTO,
            value := (nonEmptyValues.headI : Option Value),
            include' := true,
            survivorValue := survivorValue }
        else
          { strategy := RESOLUTION_STRATEGIES.MANUAL,
            value := some .null,
            include' := true,
            needsDecision := true,
            survivorValue := survivorValue,
            mergedInfos := toMerge.map (fun m =>
              ⟨m.record.id, m.name, alGet m.record.fields fieldName⟩),
            allValues := nonEmptyValues }

/-- Embedding of `computeFieldResolutions` (merge.js): resolve every field
    name appearing on the survivor or any subsumed record, in first-seen
    order. -/
def computeFieldResolutions (survivor : REntry) (toMerge : List REntry)
    (schema : MSchema) (config : ResolutionConfig) : List (Str × FieldResolution) :=
  let allFields := (survivor.record.fields.map Prod.fst ++
    (toMerge.map (fun m => m.record.fields.map Prod.fst)).flatten).foldl
    (fun acc f => setAdd f acc) []
  allFields.foldl (fun res fieldName =>
    alSet res fieldName (resolveOneField survivor toMerge schema config fieldName)) []

/-- Embedding of `hasUnresolvedDecisions` (merge.js). -/
def hasUnresolvedDecisions (resolutions : List (Str × FieldResolution)) : Bool :=
  resolutions.any (fun fr => fr.2.needsDecision)

/-! ### merge.js: history entries, buildMergePayload, parseDedupeHistory,
    buildUnmergePayload -/

/-- JavaScript `x || d` on an optional string with a default. -/
def jsOrDefault (o : Option Str) (d : Str) : Str :=
  match o with
  | some s => if s ≠ [] then s else d
  | none => d

/-- `String.prototype.replace` with a plain-string pattern: first occurrence
    only. -/
def strReplaceFirst (pat rep : Str) : Str → Str
  | [] => if pat = [] then rep else []
  | c :: cs =>
    if strStartsWith pat (c :: cs) then rep ++ (c :: cs).drop pat.length
    else c :: strReplaceFirst pat rep cs

/-- Property lookup on a parsed JSON object.  `JSON.parse` collapses
    duplicate keys keeping the LAST occurrence, so the lookup scans from the
    end. -/
def jsonObjGet (o : JsonObj) (k : Str) : Option Json := alGet o.toList.reverse k

/-- JavaScript property access `j[k]` on a parsed value: a lookup on objects,
    `undefined` on other primitives (`null` access, which throws, is handled
    at each call site). -/
def jsonGetProp (j : Json) (k : Str) : Option Json :=
  match j with
  | .obj o => jsonObjGet o k
  | _ => none

/-- The `options` argument of `buildMergePayload`. -/
structure MergeOptions where
  confidence : Option Int := none
  matchReasons : List Str := []
  performedBy : Option Str := none
  notes : Option Str := none

/-- `options.confidence || null`: a number, where `0` and absence both fall
    back to JSON null. -/
def confidenceToJson (c : Option Int) : Json :=
  match c with
  | some n => if n ≠ 0 then .num n else .null
  | none => .null

/-- One `merged_records` element of a merge history entry. -/
structure HistoryMergedRecord where
  original_record_id : Str
  field_snapshot : List (Str × Value)
  linked_records : List (Str × List Str)
deriving DecidableEq

/-- A merge history entry, as built by `buildMergePayload`. -/
structure HistoryEntry where
  merge_id : Str
  timestamp : Str
  action : Str
  confidence : Json
  match_reasons : List Str
  survivor_record_id : Str
  merged_records : List HistoryMergedRecord
  field_decisions : List (Str × FieldResolution)
  performed_by : Str
  notes : Str

/-- Embedding of `extractLinkedRecords` (merge.js). -/
def extractLinkedRecords (fields : List (Str × Value)) (schema : MSchema) :
    List (Str × List Str) :=
  schema.linkFields.foldl (fun linked fieldName =>
    match alGet fields fieldName with
    | some (.vlist l) => if l ≠ [] then linked ++ [(fieldName, l)] else linked
    | _ => linked) []

/-- JSON encoding of a list of strings. -/
def strListToJson (l : List Str) : Json := .arr (JsonList.ofList (l.map Json.jstr))

/-- JSON encoding of a field map. -/
def fieldsToJson (fields : List (Str × Value)) : Json :=
  .obj (JsonObj.ofList (fields.map (fun kv => (kv.1, valueToJson kv.2))))

/-- JSON encoding of one field decision (its canonical resolution keys). -/
def resolutionToJson (r : FieldResolution) : Json :=
  .obj (JsonObj.ofList
    [ (str "strategy", .jstr r.strategy),
      (str "value", (r.value.map valueToJson).getD .null),
      (str "include", .bool r.include'),
      (str "needsDecision", .bool r.needsDecision) ])

/-- JSON encoding of one `merged_records` element. -/
def mergedRecordToJson (m : HistoryMergedRecord) : Json :=
  .obj (JsonObj.ofList
    [ (str "original_record_id", .jstr m.original_record_id),
      (str "field_snapshot", fieldsToJson m.field_snapshot),
      (str "linked_records",
        .obj (JsonObj.ofList (m.linked_records.map (fun kv => (kv.1, strListToJson kv.2))))) ])

/-- JSON encoding of a merge history entry, with the key order of the object
    literal in `buildMergePayload`. -/
def historyEntryToJson (h : HistoryEntry) : Json :=
  .obj (JsonObj.ofList
    [ (str "merge_id", .jstr h.merge_id),
      (str "timestamp", .jstr h.timestamp),
      (str "action", .jstr h.action),
      (str "confidence", h.confidence),
      (str "match_reasons", strListToJson h.match_reasons),
      (str "survivor_record_id", .jstr h.survivor_record_id),
      (str "merged_records", .arr (JsonList.ofList (h.merged_records.map mergedRecordToJson))),
      (str "field_decisions",
        .obj (JsonObj.ofList (h.field_decisions.map (fun kv => (kv.1, resolutionToJson kv.2))))),
      (str "performed_by", .jstr h.performed_by),
      (str "notes", .jstr h.notes) ])

/-- Embedding of `parseDedupeHistory` (merge.js).  `none` is an absent field;
    a parse failure, or a parsed shape that is neither an array nor an object
    with a `dedupe_history` / `_merge_history` array, yields the empty
    history (the JavaScript `catch` also swallows the `TypeError` thrown by
    property access on a parsed `null`). -/
def parseDedupeHistory (historyField : Option Str) : List Json :=
  match historyField with
  | none => []
  | some s =>
    if s = [] then []
    else
      match jsonParse s with
      | none => []
      | some (.arr l) => l.toList
      | some (.obj o) =>
        match jsonObjGet o (str "dedupe_history") with
        | some (.arr l) => l.toList
        | _ =>
          match jsonObjGet o (str "_merge_history") with
          | some (.arr l) => l.toList
          | _ => []
      | some _ => []

/-- Read the serialized history field off a record's field map (the
    designated `dedupe_history` long-text field; a non-string value there
    does not occur). -/
def histFieldOf (fields : List (Str × Value)) : Option Str :=
  match alGet fields (str "dedupe_history") with
  | some (.vstr s) => some s
  | _ => none

/-- Result of `buildMergePayload`.  `updateFields` values keep the JavaScript
    distinction between an explicit null and undefined (`none`). -/
structure MergePayload where
  mergeId : Str
  historyEntry : HistoryEntry
  updateFields : List (Str × Option Value)
  recordsToDelete : List Str

/-- Embedding of `buildMergePayload` (merge.js).  `mergeId` and `timestamp`
    stand for the `generateMergeId()` / `new Date().toISOString()` values the
    source draws at call time. -/
def buildMergePayload (survivor : REntry) (toMerge : List REntry)
    (fieldDecisions : List (Str × FieldResolution)) (schema : MSchema)
    (options : MergeOptions) (mergeId timestamp : Str) : MergePayload :=
  let historyEntry : HistoryEntry :=
    { merge_id := mergeId,
      timestamp := timestamp,
      action := str "merge",
      confidence := confidenceToJson options.confidence,
      match_reasons := options.matchReasons,
      survivor_record_id := survivor.record.id,
      merged_records := toMerge.map (fun m =>
        { original_record_id := m.record.id,
          field_snapshot := m.record.fields,
          linked_records := extractLinkedRecords m.record.fields schema }),
      field_decisions := fieldDecisions,
      performed_by := jsOrDefault options.performedBy (str "user"),
      notes := jsOrDefault options.notes [] }
  let updateFields := fieldDecisions.foldl (fun uf fd =>
    if !fd.2.include' then uf
    else if fd.1 ∈ schema.computedFields then uf
    else if fd.1 ∈ DEFAULT_RESOLUTION_CONFIG.excludeFields then uf
    else alSet uf fd.1 fd.2.value) []
  let existingHistory := parseDedupeHistory (histFieldOf survivor.record.fields)
  let newHistory := existingHistory ++ [historyEntryToJson historyEntry]
  let updateFields' := alSet updateFields (str "dedupe_history")
    (some (.vstr (printVal 2 0 (.arr (JsonList.ofList newHistory)))))
  { mergeId := mergeId,
    historyEntry := historyEntry,
    updateFields := updateFields',
    recordsToDelete := toMerge.map (fun m => m.record.id) }

/-- Apply an update-fields map to a record's field map (the external store
    write): each listed field is replaced; an undefined value clears it. -/
def applyUpdateFields (fields : List (Str × Value)) (updates : List (Str × Option Value)) :
    List (Str × Value) :=
  updates.foldl (fun fs kv =>
    match kv.2 with
    | some v => alSet fs kv.1 v
    | none => fs.filter (fun f => f.1 ≠ kv.1)) fields

/-- One record to recreate during an unmerge. -/
structure RecreateRecord where
  originalId : Option Json
  fields : List (Str × Json)
  linkedRecords : Option Json

/-- The `unmerge` history entry. -/
structure UnmergeHistoryEntry where
  merge_id : Str
  timestamp : Str
  action : Str
  original_merge_id : Str
  survivor_record_id : Str
  restored_records : List (Option Json)
  performed_by : Str
  notes : Str

/-- JSON encoding of the unmerge entry (`undefined` ids serialize as null,
    as `JSON.stringify` does inside arrays). -/
def unmergeEntryToJson (u : UnmergeHistoryEntry) : Json :=
  .obj (JsonObj.ofList
    [ (str "merge_id", .jstr u.merge_id),
      (str "timestamp", .jstr u.timestamp),
      (str "action", .jstr u.action),
      (str "original_merge_id", .jstr u.original_merge_id),
      (str "survivor_record_id", .jstr u.survivor_record_id),
      (str "restored_records", .arr (JsonList.ofList (u.restored_records.map (·.getD .null)))),
      (str "performed_by", .jstr u.performed_by),
      (str "notes", .jstr u.notes) ])

/-- Result of `buildUnmergePayload`. -/
structure UnmergePayload where
  unmergeId : Str
  mergeEvent : Json
  recordsToCreate : List RecreateRecord
  survivorUpdates : List (Str × Value)
  unmergeHistoryEntry : UnmergeHistoryEntry

/-- The `history.find(h => h.merge_id === mergeId)` scan.  A null entry makes
    the JavaScript callback throw (property access on null), escaping the
    function — modelled as an error. -/
def findMergeEvent (mergeId : Str) : List Json → Except Str (Option Json)
  | [] => .ok none
  | .null :: _ => .error (str "TypeError: cannot read merge_id of null")
  | h :: t =>
    match jsonGetProp h (str "merge_id") with
    | some (.jstr s) =>
      if s = mergeId then .ok (some h) else findMergeEvent mergeId t
    | _ => findMergeEvent mergeId t

/-- Rebuild one creatable record from a `merged_records` snapshot, dropping
    fields flagged computed in the current schema; a snapshot that is not an
    object makes `Object.entries` throw. -/
def recreateFromSnapshot (schema : MSchema) (merged : Json) : Except Str RecreateRecord :=
  match jsonGetProp merged (str "field_snapshot") with
  | some (.obj snap) =>
    .ok { originalId := jsonGetProp merged (str "original_record_id"),
          fields := snap.toList.filter (fun kv => kv.1 ∉ schema.computedFields),
          linkedRecords := jsonGetProp merged (str "linked_records") }
  | _ => .error (str "TypeError: field_snapshot is not an object")

/-- Embedding of `buildUnmergePayload` (merge.js).  `freshId` stands for the
    `generateMergeId()` value; exceptions the JavaScript code throws (merge
    event not found, malformed entries) are the error branch. -/
def buildUnmergePayload (survivor : MRec) (mergeId : Str) (schema : MSchema)
    (freshId timestamp : Str) : Except Str UnmergePayload := do
  let history := parseDedupeHistory (histFieldOf survivor.fields)
  let found ← findMergeEvent mergeId history
  match found with
  | none => .error (str "Merge event " ++ mergeId ++ str " not found in history")
  | some mergeEvent =>
    let unmergeId := strReplaceFirst (str "mrg_") (str "unmrg_") freshId
    match jsonGetProp mergeEvent (str "merged_records") with
    | some (.arr mergedRecords) =>
      let recordsToCreate ← (mergedRecords.toList).mapM (recreateFromSnapshot schema)
      let unmergeHistoryEntry : UnmergeHistoryEntry :=
        { merge_id := unmergeId,
          timestamp := timestamp,
          action := str "unmerge",
          original_merge_id := mergeId,
          survivor_record_id := survivor.id,
          restored_records := (mergedRecords.toList).map
            (fun m => jsonGetProp m (str "original_record_id")),
          performed_by := str "user",
          notes := str "Unmerge of " ++ mergeId }
      let updatedHistory := history ++ [unmergeEntryToJson unmergeHistoryEntry]
      .ok { unmergeId := unmergeId,
            mergeEvent := mergeEvent,
            recordsToCreate := recordsToCreate,
            survivorUpdates := [(str "dedupe_history",
              .vstr (printVal 2 0 (.arr (JsonList.ofList updatedHistory))))],
            unmergeHistoryEntry := unmergeHistoryEntry }
    | _ => .error (str "TypeError: merged_records is not an array")

/-! ### Statement-level definitions used by the claim theorems -/

/-- Confidence accumulated by the unique-ID loop of `scoreMatch` alone: 100
    as soon as one configured ID field matches exactly (both sides non-empty),
    0 otherwise. -/
def idConfidence (recordA recordB : SRec) (config : FieldConfig) : Nat :=
  if config.uniqueIdFields.any (fun f =>
      match alGet recordA.fields f, alGet recordB.fields f with
      | some a, some b => a ≠ [] && b ≠ [] && a = b
      | _, _ => false) then 100 else 0

/-- Does some configured unique-ID field carry differing non-empty values on
    the two records (the conflict condition of `scoreMatch`)? -/
def hasIdConflict (recordA recordB : SRec) (config : FieldConfig) : Bool :=
  config.uniqueIdFields.any (fun f =>
    match alGet recordA.fields f, alGet recordB.fields f with
    | some a, some b => a ≠ [] && b ≠ [] && a ≠ b
    | _, _ => false)

/-- Shapes `parseDedupeHistory` recognizes: an array, or an object carrying a
    `dedupe_history` or `_merge_history` array. -/
def recognizedHistoryShape (j : Json) : Bool :=
  match j with
  | .arr _ => true
  | .obj o =>
    match jsonObjGet o (str "dedupe_history") with
    | some (.arr _) => true
    | _ =>
      match jsonObjGet o (str "_merge_history") with
      | some (.arr _) => true
      | _ => false
  | _ => false

/-- Candidate `c` pairs the two record ids (in either orientation). -/
def candLinks (c : Candidate) (x y : Str) : Prop :=
  (c.survivor.record.id = x ∧ c.merged.record.id = y) ∨
  (c.survivor.record.id = y ∧ c.merged.record.id = x)

/-- Candidate `c` touches record id `x`. -/
def candTouches (c : Candidate) (x : Str) : Prop :=
  c.survivor.record.id = x ∨ c.merged.record.id = x

/-- Connectivity of two record ids through the pairwise candidates: the
    transitive closure of the (symmetric) candidate edges. -/
inductive Conn (cs : List Candidate) : Str → Str → Prop
  | edge {c : Candidate} {x y : Str} : c ∈ cs → candLinks c x y → Conn cs x y
  | trans {x y z : Str} : Conn cs x y → Conn cs y z → Conn cs x z

/-- Member record ids of a group. -/
def groupIds (g : MGroup) : List Str := g.records.map (fun r => r.record.id)

/-- Maximal word-character runs of a string (the regions where a `\b`-bounded
    whole-word pattern can match). -/
def wordRuns (s : Str) : List Str := splitDrop (fun c => !isWordChar c) s

/-- A remainder that cannot extend a parsed number: empty or starting with a
    non-digit (every JSON delimiter and all printed whitespace qualify). -/
def numDelimB : Str → Bool
  | [] => true
  | c :: _ => !isDigitCh c

/-- The values all sources hold for a field: survivor first, then each
    subsumed record, in order (the `allValues` list of
    `computeFieldResolutions`). -/
def fieldSources (survivor : REntry) (toMerge : List REntry) (f : Str) :
    List (Option Value) :=
  alGet survivor.record.fields f :: toMerge.map (fun m => alGet m.record.fields f)

/-- The non-empty source values for a field (the `nonEmptyValues` list of
    `computeFieldResolutions`). -/
def nonEmptySources (survivor : REntry) (toMerge : List REntry) (f : Str) :
    List (Option Value) :=
  (fieldSources survivor toMerge f).filter (fun v => !isEmptyV v)

/-- Decoder of the JSON forms `valueToJson` produces, a left inverse used to
    show the value encoding is injective. -/
def jsonToValue : Json -> Value
  | .null => .null
  | .jstr s => .vstr s
  | .num n => .vnum n
  | .bool b => .vbool b
  | .arr es => .vlist (es.toList.map (fun j => match j with | .jstr s => s | _ => []))
  | .obj _ => .null

/-- Invariant of the grouping loop relating the candidate prefix processed so
    far to the state: membership map, live list and store are mutually
    consistent, records share a live group exactly when they are connected
    through processed candidates, live keys are distinct and fresh keys really
    are fresh, and every stored group is non-empty. -/
def GInv (st : GState) (cs : List Candidate) : Prop :=
  (∀ x k, alGet st.memb x = some k →
    k ∈ st.live ∧ ∃ g, alGet st.store k = some g ∧ x ∈ groupIds g) ∧
  (∀ k g, k ∈ st.live → alGet st.store k = some g →
    ∀ x, x ∈ groupIds g → alGet st.memb x = some k) ∧
  (∀ x y k, alGet st.memb x = some k → alGet st.memb y = some k →
    Conn cs x y ∨ x = y) ∧
  (∀ x y, Conn cs x y → ∃ k, alGet st.memb x = some k ∧ alGet st.memb y = some k) ∧
  st.live.Nodup ∧
  (∀ k, k ∈ st.live → k < st.nextKey) ∧
  (∀ k, (alGet st.store k).isSome = true → k < st.nextKey) ∧
  (∀ x k, alGet st.memb x = some k → k < st.nextKey) ∧
  (∀ k g, alGet st.store k = some g → g.records ≠ [])

/-- Two sample record entries and the candidate pairing them, used to
    instantiate the grouping theorems on a concrete input. -/
def sampleEntryA : RecEntry := ⟨⟨str "a", []⟩, 10, str "a"⟩

/-- Second sample entry (higher quality score than `sampleEntryA`). -/
def sampleEntryB : RecEntry := ⟨⟨str "b", []⟩, 20, str "b"⟩

/-- Sample candidate linking `sampleEntryA` (survivor side) and `sampleEntryB`. -/
def sampleCand : Candidate := ⟨sampleEntryA, sampleEntryB, MATCH_TIERS.STRONG, 85⟩

/-- The single group `groupCandidates [sampleCand]` produces. -/
def sampleGroup : MGroup :=
  ⟨str "group_0", [sampleEntryB, sampleEntryA], [sampleCand], MATCH_TIERS.STRONG, 85, some sampleEntryB, [sampleEntryA]⟩

/-! ### Auxiliary predicates for the normalization idempotence analysis -/

/-- A character the cleaning pipeline leaves untouched: accent-free,
    lower-case and not one of the punctuation characters removed early. -/
def cleanChar (c : Char) : Prop :=
  stripAccent c = c ∧ lowerChar c = c ∧ isNamePunct c = false

/-- A table word made of word characters only (its compiled pattern is the
    plain literal word). -/
def goodw (w : Str) : Prop := w ≠ [] ∧ ∀ c ∈ w, isWordChar c = true ∧ lowerChar c = c

/-- A table word whose compiled pattern contains a literal character that a
    cleaned name string can never contain. -/
def deadw (w : Str) : Prop := PChar.lit '.' ∈ compileWord w ∨ PChar.lit 'ñ' ∈ compileWord w

/-- Every character of the string is clean. -/
def cleanStr (s : Str) : Prop := ∀ c ∈ s, cleanChar c

instance decGoodw (w : Str) : Decidable (goodw w) := by
  unfold goodw
  infer_instance

instance decDeadw (w : Str) : Decidable (deadw w) := by
  unfold deadw
  infer_instance

/-! # Theorems -/

/-- Claim C7: for every history-field input that is absent, not valid JSON,
    or parses to an unrecognized shape, `parseDedupeHistory` returns the
    empty history, with no exception — a corrupted history never aborts a
    scan or merge computation. -/
theorem C7_parse_history_fails_open :
    parseDedupeHistory none = [] ∧
    (∀ s : Str, jsonParse s = none → parseDedupeHistory (some s) = []) ∧
    (∀ (s : Str) (j : Json), jsonParse s = some j → recognizedHistoryShape j = false →
      parseDedupeHistory (some s) = []) := by
  refine ⟨rfl, ?_, ?_⟩
  · intro s h
    by_cases hs : s = []
    · subst hs; rfl
    · simp only [parseDedupeHistory, if_neg hs, h]
  · intro s j h hr
    by_cases hs : s = []
    · subst hs
      rw [show jsonParse ([] : Str) = none from rfl] at h
      exact Option.noConfusion h
    · simp only [parseDedupeHistory, if_neg hs, h]
      cases j with
      | arr l => simp [recognizedHistoryShape] at hr
      | obj o =>
        simp only [recognizedHistoryShape] at hr
        rcases hdd : jsonObjGet o (str "dedupe_history") with _ | jd
        · simp only [hdd] at hr ⊢
          rcases hmm2 : jsonObjGet o (str "_merge_history") with _ | jm
          · simp only [hmm2] at hr ⊢
          · cases jm <;> simp only [hmm2] at hr ⊢ <;> exact absurd hr (by decide)
        · cases jd <;> simp only [hdd] at hr ⊢ <;>
          first
          | exact absurd hr (by decide)
          | (rcases hmm2 : jsonObjGet o (str "_merge_history") with _ | jm <;>
             first
             | (cases jm <;> simp only [hmm2] at hr ⊢ <;> exact absurd hr (by decide))
             | simp only [hmm2] at hr ⊢)
      | null => rfl
      | bool b => rfl
      | num n => rfl
      | jstr t => rfl

/-- Witness for C7 at concrete corrupted inputs. -/
theorem C7_witness :
    parseDedupeHistory (some (str "not json at all")) = [] ∧
    parseDedupeHistory (some (str "42")) = [] :=
  ⟨C7_parse_history_fails_open.2.1 _ (by rfl),
   C7_parse_history_fails_open.2.2 _ (Json.num 42) (by rfl) (by rfl)⟩

/-- Claim C8: every serialized history value parsing to a JSON object whose
    `_merge_history` property holds an array — the legacy shape, without a
    `dedupe_history` array taking precedence — is accepted by
    `parseDedupeHistory` and normalized to that array. -/
theorem C8_legacy_shape_accepted (s : Str) (o : JsonObj) (l : JsonList)
    (hparse : jsonParse s = some (.obj o))
    (hno : ∀ x : JsonList, jsonObjGet o (str "dedupe_history") ≠ some (.arr x))
    (hleg : jsonObjGet o (str "_merge_history") = some (.arr l)) :
    parseDedupeHistory (some s) = l.toList := by
  have hs : s ≠ [] := by
    intro h
    subst h
    rw [show jsonParse ([] : Str) = none from rfl] at hparse
    exact Option.noConfusion hparse
  simp only [parseDedupeHistory, if_neg hs, hparse]
  rcases hdd : jsonObjGet o (str "dedupe_history") with _ | jd
  · simp only [hdd, hleg]
  · cases jd
    case arr x => exact absurd hdd (hno x)
    all_goals simp only [hdd, hleg]

/-- Witness for C8 on a concrete legacy-format history string. -/
theorem C8_witness :
    parseDedupeHistory (some (str "\x7b\"_merge_history\": [\"a\"]\x7d")) =
      [Json.jstr (str "a")] :=
  C8_legacy_shape_accepted _
    (JsonObj.cons (str "_merge_history") (.arr (.cons (.jstr (str "a")) .nil)) .nil)
    (.cons (.jstr (str "a")) .nil)
    (by rfl)
    (by intro x h; exact Option.noConfusion h)
    (by rfl)

/-- Counterexample to claim C1: called with a resolution still flagged
    `needsDecision`, `buildMergePayload` does not refuse — there is no
    precondition check in it — and happily produces a full merge payload,
    including the undecided field (with its placeholder null) among the
    fields to write and the subsumed record among the records to delete.
    The undecided resolution is
    `⟨manual, null, include, needsDecision, …defaults…⟩`. -/
theorem C1_counterexample :
    hasUnresolvedDecisions
      [(str "Email", ⟨str "manual", some Value.null, true, true, false, false,
        false, none, [], [], []⟩)] = true ∧
    (buildMergePayload ⟨⟨str "recS", []⟩, str "S"⟩ [⟨⟨str "recM", []⟩, str "M"⟩]
      [(str "Email", ⟨str "manual", some Value.null, true, true, false, false,
        false, none, [], [], []⟩)]
      ⟨[], []⟩ {} (str "mrg_1") (str "t0")).recordsToDelete = [str "recM"] ∧
    alGet (buildMergePayload ⟨⟨str "recS", []⟩, str "S"⟩ [⟨⟨str "recM", []⟩, str "M"⟩]
      [(str "Email", ⟨str "manual", some Value.null, true, true, false, false,
        false, none, [], [], []⟩)]
      ⟨[], []⟩ {} (str "mrg_1") (str "t0")).updateFields (str "Email") =
      some (some Value.null) :=
  ⟨rfl, rfl, rfl⟩

/-- Claim C1 as amended: `buildMergePayload` performs no unresolved-decision
    check itself and builds a payload for every input; the precondition is
    exposed as the separate `hasUnresolvedDecisions` — true exactly when some
    resolution has `needsDecision` — which the callers check before invoking
    `buildMergePayload` and before any external write. -/
theorem C1_amended_precondition_is_callers :
    ∀ resolutions : List (Str × FieldResolution),
      (hasUnresolvedDecisions resolutions = true ↔
        ∃ fr ∈ resolutions, fr.2.needsDecision = true) ∧
      ∀ (survivor : REntry) (toMerge : List REntry) (schema : MSchema)
        (options : MergeOptions) (mergeId timestamp : Str),
        (buildMergePayload survivor toMerge resolutions schema options
          mergeId timestamp).mergeId = mergeId ∧
        (buildMergePayload survivor toMerge resolutions schema options
          mergeId timestamp).recordsToDelete = toMerge.map (fun m => m.record.id) := by
  intro resolutions
  constructor
  · rw [show hasUnresolvedDecisions resolutions =
      resolutions.any (fun fr => fr.2.needsDecision) from rfl, List.any_eq_true]
  · intro survivor toMerge schema options mergeId timestamp
    exact ⟨rfl, rfl⟩

/-- Confidence effect of one unique-ID field check. -/
theorem idScanStep_confidence (fA fB : List (Str × Str)) (st : IdScanState) (f : Str) :
    (idScanStep fA fB st f).confidence =
      if (match alGet fA f, alGet fB f with
          | some a, some b => a ≠ [] && b ≠ [] && a = b
          | _, _ => false) then max st.confidence 100
      else st.confidence := by
  unfold idScanStep
  rcases alGet fA f with _ | va <;> rcases alGet fB f with _ | vb
  · rfl
  · rfl
  · rfl
  · by_cases hva : va = [] <;> by_cases hvb : vb = [] <;> by_cases heq : va = vb <;>
      simp [hva, hvb, heq]

/-- Conflict effect of one unique-ID field check. -/
theorem idScanStep_conflicts_nil (fA fB : List (Str × Str)) (st : IdScanState) (f : Str) :
    (idScanStep fA fB st f).conflicts = [] ↔
      (st.conflicts = [] ∧ (match alGet fA f, alGet fB f with
        | some a, some b => a ≠ [] && b ≠ [] && a ≠ b
        | _, _ => false) = false) := by
  unfold idScanStep
  rcases alGet fA f with _ | va <;> rcases alGet fB f with _ | vb
  · simp
  · simp
  · simp
  · by_cases hva : va = [] <;> by_cases hvb : vb = [] <;> by_cases heq : va = vb <;>
      simp [hva, hvb, heq]

/-- Confidence after the whole unique-ID loop: 100 as soon as one field
    matches, the untouched start otherwise. -/
theorem idScan_confidence (fA fB : List (Str × Str)) :
    ∀ (fields : List Str) (st0 : IdScanState),
      (fields.foldl (idScanStep fA fB) st0).confidence =
        if fields.any (fun f =>
            match alGet fA f, alGet fB f with
            | some a, some b => a ≠ [] && b ≠ [] && a = b
            | _, _ => false) then max st0.confidence 100
        else st0.confidence
  | [], st0 => by simp
  | f :: rest, st0 => by
    rw [List.foldl_cons, idScan_confidence fA fB rest, idScanStep_confidence]
    cases hc : (match alGet fA f, alGet fB f with
        | some a, some b => a ≠ [] && b ≠ [] && a = b
        | _, _ => false) with
    | true =>
      simp only [List.any_cons, hc, Bool.true_or,
        show (true = true) = True from by simp, if_true]
      split <;> simp_all <;> omega
    | false =>
      simp only [List.any_cons, hc, Bool.false_or,
        show (false = true) = False from by simp, if_false]

/-- The conflict list after the whole unique-ID loop is empty iff it started
    empty and no configured field carries differing non-empty values. -/
theorem idScan_conflicts_nil (fA fB : List (Str × Str)) :
    ∀ (fields : List Str) (st0 : IdScanState),
      (fields.foldl (idScanStep fA fB) st0).conflicts = [] ↔
        (st0.conflicts = [] ∧ fields.any (fun f =>
          match alGet fA f, alGet fB f with
          | some a, some b => a ≠ [] && b ≠ [] && a ≠ b
          | _, _ => false) = false)
  | [], st0 => by simp
  | f :: rest, st0 => by
    rw [List.foldl_cons, idScan_conflicts_nil fA fB rest, idScanStep_conflicts_nil]
    simp only [List.any_cons, Bool.or_eq_false_iff]
    tauto

/-- Claim C2: whenever some configured unique-ID field carries differing
    non-empty values on the two records, `scoreMatch` reports a conflict in
    the lowest-confidence tier (Investigate), and its confidence is exactly
    `max(ID-loop confidence, 50)` — no name-based scoring contributes. -/
theorem C2_conflict_precedence (recordA recordB : SRec) (config : FieldConfig)
    (f : Str) (va vb : Str)
    (hf : f ∈ config.uniqueIdFields)
    (ha : alGet recordA.fields f = some va) (hb : alGet recordB.fields f = some vb)
    (hna : va ≠ []) (hnb : vb ≠ []) (hne : va ≠ vb) :
    (scoreMatch recordA recordB config).isConflict = true ∧
    (scoreMatch recordA recordB config).tier = MATCH_TIERS.INVESTIGATE ∧
    (scoreMatch recordA recordB config).confidence =
      max (idConfidence recordA recordB config) 50 := by
  have hany : config.uniqueIdFields.any (fun f =>
      match alGet recordA.fields f, alGet recordB.fields f with
      | some a, some b => a ≠ [] && b ≠ [] && a ≠ b
      | _, _ => false) = true :=
    List.any_eq_true.mpr ⟨f, hf, by simp [ha, hb, hna, hnb, hne]⟩
  have hconf_ne : (config.uniqueIdFields.foldl
      (idScanStep recordA.fields recordB.fields) ⟨0, [], []⟩).conflicts ≠ [] := by
    rw [Ne, idScan_conflicts_nil]
    rintro ⟨-, h2⟩
    rw [hany] at h2
    exact Bool.noConfusion h2
  have hconf : (config.uniqueIdFields.foldl
      (idScanStep recordA.fields recordB.fields) ⟨0, [], []⟩).confidence =
      idConfidence recordA recordB config := by
    rw [idScan_confidence, idConfidence]
    split <;> rfl
  simp only [scoreMatch, if_pos hconf_ne, hconf]
  exact ⟨trivial, trivial, trivial⟩

/-- Witness for C2: conflicting PPIDs, identical names. -/
theorem C2_witness :
    (scoreMatch ⟨str "r1", [(str "PPID", str "X1"), (str "Client Name", str "Jane Doe")]⟩
      ⟨str "r2", [(str "PPID", str "X2"), (str "Client Name", str "Jane Doe")]⟩
      DEFAULT_FIELD_CONFIG).isConflict = true ∧
    (scoreMatch ⟨str "r1", [(str "PPID", str "X1"), (str "Client Name", str "Jane Doe")]⟩
      ⟨str "r2", [(str "PPID", str "X2"), (str "Client Name", str "Jane Doe")]⟩
      DEFAULT_FIELD_CONFIG).tier = MATCH_TIERS.INVESTIGATE ∧
    (scoreMatch ⟨str "r1", [(str "PPID", str "X1"), (str "Client Name", str "Jane Doe")]⟩
      ⟨str "r2", [(str "PPID", str "X2"), (str "Client Name", str "Jane Doe")]⟩
      DEFAULT_FIELD_CONFIG).confidence =
      max (idConfidence ⟨str "r1", [(str "PPID", str "X1"), (str "Client Name", str "Jane Doe")]⟩
        ⟨str "r2", [(str "PPID", str "X2"), (str "Client Name", str "Jane Doe")]⟩
        DEFAULT_FIELD_CONFIG) 50 :=
  C2_conflict_precedence _ _ DEFAULT_FIELD_CONFIG (str "PPID") (str "X1") (str "X2")
    (by decide) (by rfl) (by rfl) (by decide) (by decide) (by decide)

/-- The per-field conflict test is symmetric in the two records. -/
theorem idFieldNe_symm (A B : SRec) :
    (fun f => match alGet A.fields f, alGet B.fields f with
      | some a, some b => a ≠ [] && b ≠ [] && a ≠ b
      | _, _ => false) =
    (fun f => match alGet B.fields f, alGet A.fields f with
      | some a, some b => a ≠ [] && b ≠ [] && a ≠ b
      | _, _ => false) := by
  funext f
  rcases alGet A.fields f with _ | va <;> rcases alGet B.fields f with _ | vb <;>
    try rfl
  by_cases h1 : va = [] <;> by_cases h2 : vb = [] <;> by_cases h3 : va = vb <;>
    simp [h1, h2, h3, ne_comm]

/-- The per-field exact-match test is symmetric in the two records. -/
theorem idFieldEq_symm (A B : SRec) :
    (fun f => match alGet A.fields f, alGet B.fields f with
      | some a, some b => a ≠ [] && b ≠ [] && a = b
      | _, _ => false) =
    (fun f => match alGet B.fields f, alGet A.fields f with
      | some a, some b => a ≠ [] && b ≠ [] && a = b
      | _, _ => false) := by
  funext f
  rcases alGet A.fields f with _ | va <;> rcases alGet B.fields f with _ | vb <;>
    try rfl
  by_cases h1 : va = [] <;> by_cases h2 : vb = [] <;> by_cases h3 : va = vb <;>
    simp [h1, h2, h3, eq_comm]

/-- The ID-loop confidence of a fresh scan equals `idConfidence`. -/
theorem idScan_confidence_zero (A B : SRec) (config : FieldConfig) :
    (config.uniqueIdFields.foldl (idScanStep A.fields B.fields)
      ⟨0, [], []⟩).confidence = idConfidence A B config := by
  rw [idScan_confidence, idConfidence]
  split <;> rfl

theorem idConfidence_symm (A B : SRec) (config : FieldConfig) :
    idConfidence A B config = idConfidence B A config := by
  unfold idConfidence
  rw [idFieldEq_symm]

/-- With an empty conflict list, every late branch of `scoreMatch` reports
    `isConflict = false`. -/
theorem scoreMatch_isConflict_false (A B : SRec) (config : FieldConfig)
    (h : (config.uniqueIdFields.foldl (idScanStep A.fields B.fields)
      ⟨0, [], []⟩).conflicts = []) :
    (scoreMatch A B config).isConflict = false := by
  have h' : ¬ (config.uniqueIdFields.foldl (idScanStep A.fields B.fields)
      ⟨0, [], []⟩).conflicts ≠ [] := by simpa using h
  simp only [scoreMatch, if_neg h']
  simp only [apply_ite MatchResult.isConflict, ite_self]

/-- Claim C10 as amended: `scoreMatch` is symmetric in its `isConflict`
    output, and in the conflict case the confidence and tier are symmetric as
    well (in general, confidence and tier are not symmetric — the
    shared-parts name rule is order-sensitive; see the counterexample). -/
theorem C10_amended_isConflict_symmetric (A B : SRec) (config : FieldConfig) :
    (scoreMatch A B config).isConflict = (scoreMatch B A config).isConflict ∧
    ((scoreMatch A B config).isConflict = true →
      (scoreMatch A B config).confidence = (scoreMatch B A config).confidence ∧
      (scoreMatch A B config).tier = (scoreMatch B A config).tier) := by
  by_cases hAB : (config.uniqueIdFields.foldl (idScanStep A.fields B.fields)
      ⟨0, [], []⟩).conflicts = []
  · have hBA : (config.uniqueIdFields.foldl (idScanStep B.fields A.fields)
        ⟨0, [], []⟩).conflicts = [] := by
      rw [idScan_conflicts_nil] at hAB ⊢
      rw [← idFieldNe_symm]
      exact hAB
    have f1 := scoreMatch_isConflict_false A B config hAB
    have f2 := scoreMatch_isConflict_false B A config hBA
    refine ⟨f1.trans f2.symm, fun htrue => absurd (f1 ▸ htrue) (by decide)⟩
  · have hBA : ¬ (config.uniqueIdFields.foldl (idScanStep B.fields A.fields)
        ⟨0, [], []⟩).conflicts = [] := by
      rw [idScan_conflicts_nil] at hAB ⊢
      rw [← idFieldNe_symm]
      exact hAB
    have hAB' : (config.uniqueIdFields.foldl (idScanStep A.fields B.fields)
        ⟨0, [], []⟩).conflicts ≠ [] := hAB
    have hBA' : (config.uniqueIdFields.foldl (idScanStep B.fields A.fields)
        ⟨0, [], []⟩).conflicts ≠ [] := hBA
    simp only [scoreMatch, if_pos hAB', if_pos hBA', idScan_confidence_zero]
    exact ⟨trivial, fun _ => ⟨by rw [idConfidence_symm], trivial⟩⟩

set_option maxRecDepth 10000 in
/-- Counterexample to claim C10: `scoreMatch` is not symmetric in confidence
    and tier.  With `Client Name` values "a a" and "a", the shared-parts rule
    of `areNamesSimilar` counts the duplicated token twice in one direction
    only: scoring gives 85 / Strong one way and 70 / Possible the other. -/
theorem C10_counterexample :
    (scoreMatch ⟨str "rX", [(str "Client Name", str "a a")]⟩
      ⟨str "rY", [(str "Client Name", str "a")]⟩ DEFAULT_FIELD_CONFIG).confidence = 85 ∧
    (scoreMatch ⟨str "rX", [(str "Client Name", str "a a")]⟩
      ⟨str "rY", [(str "Client Name", str "a")]⟩ DEFAULT_FIELD_CONFIG).tier =
      MATCH_TIERS.STRONG ∧
    (scoreMatch ⟨str "rY", [(str "Client Name", str "a")]⟩
      ⟨str "rX", [(str "Client Name", str "a a")]⟩ DEFAULT_FIELD_CONFIG).confidence = 70 ∧
    (scoreMatch ⟨str "rY", [(str "Client Name", str "a")]⟩
      ⟨str "rX", [(str "Client Name", str "a a")]⟩ DEFAULT_FIELD_CONFIG).tier =
      MATCH_TIERS.POSSIBLE ∧
    (scoreMatch ⟨str "rX", [(str "Client Name", str "a a")]⟩
        ⟨str "rY", [(str "Client Name", str "a")]⟩ DEFAULT_FIELD_CONFIG).confidence ≠
      (scoreMatch ⟨str "rY", [(str "Client Name", str "a")]⟩
        ⟨str "rX", [(str "Client Name", str "a a")]⟩ DEFAULT_FIELD_CONFIG).confidence :=
  ⟨rfl, rfl, rfl, rfl, by decide⟩

/-- The character of a decimal digit is a digit character carrying its
    value. -/
theorem digitChar_spec (k : Nat) (hk : k < 10) :
    isDigitCh (Char.ofNat ('0'.toNat + k)) = true ∧
    (Char.ofNat ('0'.toNat + k)).toNat - '0'.toNat = k := by
  interval_cases k <;> exact ⟨by decide, by decide⟩

/-- Digit characters of `natDigitsRev` are digits. -/
theorem natDigitsRev_digits : ∀ (fuel n : Nat), ∀ c ∈ natDigitsRev fuel n,
    isDigitCh c = true := by
  intro fuel
  induction fuel with
  | zero => intro n c hc; simp [natDigitsRev] at hc
  | succ f ih =>
    intro n c hc
    rw [natDigitsRev] at hc
    by_cases hn : n = 0
    · simp [hn] at hc
    · rw [if_neg hn] at hc
      rcases List.mem_cons.mp hc with h | h
      · subst h
        exact (digitChar_spec (n % 10) (Nat.mod_lt _ (by omega))).1
      · exact ih _ c h

/-- `natDigitsRev` is fuel-independent once the fuel covers the number. -/
theorem natDigitsRev_fuel : ∀ (f1 f2 n : Nat), n ≤ f1 → n ≤ f2 →
    natDigitsRev f1 n = natDigitsRev f2 n := by
  intro f1
  induction f1 with
  | zero =>
    intro f2 n h1 h2
    interval_cases n
    cases f2 <;> simp [natDigitsRev]
  | succ f ih =>
    intro f2 n h1 h2
    by_cases hn : n = 0
    · subst hn
      cases f2 <;> simp [natDigitsRev]
    · obtain ⟨f2', rfl⟩ : ∃ k, f2 = k + 1 := ⟨f2 - 1, by omega⟩
      rw [natDigitsRev, natDigitsRev, if_neg hn, if_neg hn]
      rw [ih f2' (n / 10) (by omega) (by omega)]

/-- Nonemptiness of the digit run for a positive number. -/
theorem natDigitsRev_ne_nil (f n : Nat) (hn : 0 < n) (hf : n ≤ f) :
    natDigitsRev f n ≠ [] := by
  obtain ⟨f', rfl⟩ : ∃ k, f = k + 1 := ⟨f - 1, by omega⟩
  rw [natDigitsRev, if_neg (by omega)]
  simp

/-- `digitsToNat` over a most-significant-first digit list with one more
    digit appended. -/
theorem digitsToNat_append (ds : Str) (c : Char) :
    digitsToNat (ds ++ [c]) = digitsToNat ds * 10 + (c.toNat - '0'.toNat) := by
  simp [digitsToNat, List.foldl_append]

/-- The printed digits of `n` evaluate back to `n`. -/
theorem digitsToNat_natDigitsRev : ∀ (n f : Nat), n ≤ f →
    digitsToNat (natDigitsRev f n).reverse = n := by
  intro n
  induction n using Nat.strong_induction_on with
  | _ n ih =>
    intro f hf
    by_cases hn : n = 0
    · subst hn
      cases f <;> simp [natDigitsRev, digitsToNat]
    · obtain ⟨f', rfl⟩ : ∃ k, f = k + 1 := ⟨f - 1, by omega⟩
      rw [natDigitsRev, if_neg hn, List.reverse_cons, digitsToNat_append]
      have hrec : digitsToNat (natDigitsRev f' (n / 10)).reverse = n / 10 :=
        ih (n / 10) (by omega) f' (by omega)
      rw [hrec, (digitChar_spec (n % 10) (Nat.mod_lt _ (by omega))).2]
      omega

theorem digit_ne_minus {c : Char} (h : isDigitCh c = true) : c ≠ '-' := by
  intro heq
  subst heq
  exact absurd h (by decide)

theorem takeDigits_nondigit {c : Char} {t : Str} (h : isDigitCh c = false) :
    takeDigits (c :: t) = ([], c :: t) := by
  simp [takeDigits, h]

theorem takeDigits_delim {cs : Str} (h : numDelimB cs = true) :
    takeDigits cs = ([], cs) := by
  match cs with
  | [] => rfl
  | c :: t =>
    simp only [numDelimB, Bool.not_eq_true'] at h
    exact takeDigits_nondigit h

/-- `takeDigits` consumes exactly a digit run that is followed by a
    non-extending remainder. -/
theorem takeDigits_run : ∀ (ds : Str), (∀ c ∈ ds, isDigitCh c = true) →
    ∀ (rest : Str), takeDigits rest = ([], rest) →
    takeDigits (ds ++ rest) = (ds, rest) := by
  intro ds
  induction ds with
  | nil => intro _ rest hr; simpa using hr
  | cons c t ih =>
    intro hds rest hr
    have hc : isDigitCh c = true := hds c (by simp)
    have ht := ih (fun x hx => hds x (by simp [hx])) rest hr
    simp [takeDigits, hc, ht]

/-- `parseNum` on input that does not start with a minus sign. -/
theorem parseNum_not_neg {c : Char} {t : Str} (h : c ≠ '-') :
    parseNum (c :: t) =
      (match takeDigits (c :: t) with
       | ([], _) => none
       | (ds, rest) => some (.num (digitsToNat ds : Int), rest)) := by
  rw [parseNum.eq_def]
  split
  · rename_i r heq
    exact absurd (List.cons.inj heq).1 h
  · rename_i hne
    rfl

theorem parseNum_neg (t : Str) :
    parseNum ('-' :: t) =
      (match takeDigits t with
       | ([], _) => none
       | (ds, rest) => some (.num (-(digitsToNat ds : Int)), rest)) := rfl

/-- The number codec round trip: parsing a printed integer recovers it when
    the remainder cannot extend the digits. -/
theorem parseNum_roundtrip (i : Int) (rest : Str) (hr : numDelimB rest = true) :
    parseNum (intToStr i ++ rest) = some (.num i, rest) := by
  have hstop : takeDigits rest = ([], rest) := takeDigits_delim hr
  by_cases hneg : i < 0
  · have hpos : 0 < i.natAbs := by omega
    have hprint : intToStr i = '-' :: (natDigitsRev i.natAbs i.natAbs).reverse := by
      rw [intToStr, if_pos hneg, natToStr, if_neg (by omega)]
    rw [hprint, List.cons_append, parseNum_neg]
    have hds : takeDigits ((natDigitsRev i.natAbs i.natAbs).reverse ++ rest) =
        ((natDigitsRev i.natAbs i.natAbs).reverse, rest) :=
      takeDigits_run _ (fun c hc => natDigitsRev_digits _ _ c (List.mem_reverse.mp hc)) _ hstop
    rw [hds]
    have hnonnil : (natDigitsRev i.natAbs i.natAbs).reverse ≠ [] := by
      simp only [ne_eq, List.reverse_eq_nil_iff]
      exact natDigitsRev_ne_nil _ _ hpos le_rfl
    match hd : (natDigitsRev i.natAbs i.natAbs).reverse, hnonnil with
    | c :: ds, _ =>
      simp only []
      have hval : digitsToNat (c :: ds) = i.natAbs := hd ▸ digitsToNat_natDigitsRev _ _ le_rfl
      rw [hval, show -((i.natAbs : Int)) = i from by omega]
  · have hnn : 0 ≤ i := by omega
    by_cases hzero : i = 0
    · subst hzero
      have hprint : intToStr 0 = ['0'] := rfl
      rw [hprint, List.singleton_append]
      have hds : takeDigits ('0' :: rest) = (['0'], rest) := by
        have := takeDigits_run ['0'] (by intro c hc; simp at hc; subst hc; decide) _ hstop
        simpa using this
      rw [parseNum_not_neg (by decide), hds]
      rfl
    · have hpos : 0 < i.natAbs := by omega
      have hprint : intToStr i = (natDigitsRev i.natAbs i.natAbs).reverse := by
        rw [intToStr, if_neg (by omega), natToStr, if_neg (by omega)]
      have hnonnil : (natDigitsRev i.natAbs i.natAbs).reverse ≠ [] := by
        simp only [ne_eq, List.reverse_eq_nil_iff]
        exact natDigitsRev_ne_nil _ _ hpos le_rfl
      match hd : (natDigitsRev i.natAbs i.natAbs).reverse, hnonnil with
      | c :: ds, _ =>
        have hcdig : isDigitCh c = true := by
          have : c ∈ (natDigitsRev i.natAbs i.natAbs).reverse := by rw [hd]; simp
          exact natDigitsRev_digits _ _ c (List.mem_reverse.mp this)
        rw [hprint, hd, List.cons_append, parseNum_not_neg (digit_ne_minus hcdig)]
        have hds : takeDigits (c :: (ds ++ rest)) = (c :: ds, rest) := by
          have := takeDigits_run (c :: ds)
            (by rw [← hd]; exact fun x hx => natDigitsRev_digits _ _ x (List.mem_reverse.mp hx))
            _ hstop
          rw [List.cons_append] at this
          exact this
        rw [hds]
        simp only []
        have hval : digitsToNat (c :: ds) = i.natAbs := hd ▸ digitsToNat_natDigitsRev _ _ le_rfl
        rw [hval, show ((i.natAbs : Int)) = i from by omega]

theorem hexVal_hexDigit (d : Nat) (h : d < 16) : hexVal (hexDigit d) = some d := by
  interval_cases d <;> decide

/-- Parsing one escaped character undoes that character's escaping. -/
theorem parseStrBody_escape (c : Char) (acc rest : Str) :
    parseStrBody acc (escapeChar c ++ rest) = parseStrBody (c :: acc) rest := by
  by_cases h1 : c = '"'
  · subst h1; rfl
  by_cases h2 : c = '\\'
  · subst h2; rfl
  by_cases h3 : c = Char.ofNat 8
  · subst h3; simp [escapeChar]; rfl
  by_cases h4 : c = Char.ofNat 12
  · subst h4; simp [escapeChar]; rfl
  by_cases h5 : c = '\n'
  · subst h5; simp [escapeChar]; rfl
  by_cases h6 : c = '\r'
  · subst h6; simp [escapeChar]; rfl
  by_cases h7 : c = '\t'
  · subst h7; simp [escapeChar]; rfl
  by_cases h8 : c.toNat < 32
  · have hesc : escapeChar c =
        ['\\', 'u', '0', '0', hexDigit (c.toNat / 16), hexDigit (c.toNat % 16)] := by
      rw [escapeChar]
      simp [h1, h2, h3, h4, h5, h6, h7, h8]
    rw [hesc]
    show (match hexVal '0', hexVal '0', hexVal (hexDigit (c.toNat / 16)),
        hexVal (hexDigit (c.toNat % 16)) with
      | some va, some vb, some vc, some vd =>
        parseStrBody (Char.ofNat (((va * 16 + vb) * 16 + vc) * 16 + vd) :: acc) rest
      | _, _, _, _ => none) = parseStrBody (c :: acc) rest
    rw [show hexVal '0' = some 0 from rfl,
      hexVal_hexDigit (c.toNat / 16) (by omega), hexVal_hexDigit (c.toNat % 16) (by omega)]
    simp only []
    rw [show ((0 * 16 + 0) * 16 + c.toNat / 16) * 16 + c.toNat % 16 = c.toNat from by omega]
    rw [Char.ofNat_toNat]
  · have hesc : escapeChar c = [c] := by
      rw [escapeChar]
      simp [h1, h2, h3, h4, h5, h6, h7, h8]
    rw [hesc, List.singleton_append, parseStrBody.eq_def]
    split
    · rename_i heq
      exact absurd heq (by simp)
    · rename_i heq
      exact absurd (List.cons.inj heq).1 h1
    · rename_i esc heq
      exact absurd (List.cons.inj heq).1 h2
    · rename_i c' rest' heq
      obtain ⟨hc, hrest⟩ := List.cons.inj heq
      subst hc
      subst hrest
      rw [if_neg h8]

/-- Parsing an escaped string body stops exactly at the closing quote. -/
theorem parseStrBody_escStr : ∀ (s acc rest : Str),
    parseStrBody acc (escapeStr s ++ ('"' :: rest)) = some (acc.reverse ++ s, rest) := by
  intro s
  induction s with
  | nil => intro acc rest; simp [escapeStr, parseStrBody]
  | cons c cs ih =>
    intro acc rest
    have hesc : escapeStr (c :: cs) = escapeChar c ++ escapeStr cs := by
      simp [escapeStr]
    rw [hesc, List.append_assoc, parseStrBody_escape, ih]
    simp

/-- The printed string literal parses back (at the `parseStrBody` level,
    after the opening quote has been consumed). -/
theorem parseStrLit_roundtrip (s rest : Str) :
    parseStrBody [] (escapeStr s ++ ('"' :: rest)) = some (s, rest) := by
  rw [parseStrBody_escStr]
  simp

/-- `skipJsonWs` drops a whitespace head. -/
theorem skipJsonWs_ws_cons {c : Char} (t : Str) (h : isJsonWs c = true) :
    skipJsonWs (c :: t) = skipJsonWs t := by
  simp [skipJsonWs, h]

/-- `skipJsonWs` is the identity on a string whose head is not whitespace. -/
theorem skipJsonWs_nonws {c : Char} (t : Str) (h : isJsonWs c = false) :
    skipJsonWs (c :: t) = c :: t := by
  simp [skipJsonWs, h]

/-- Printed whitespace blocks are transparent to `skipJsonWs`. -/
theorem skipJsonWs_nlIndent (gap depth : Nat) (x : Str) :
    skipJsonWs (nlIndent gap depth ++ x) = skipJsonWs x := by
  rw [nlIndent]
  by_cases h : gap = 0
  · simp [h]
  · rw [if_neg h, List.cons_append, skipJsonWs_ws_cons _ (by decide)]
    induction gap * depth with
    | zero => simp
    | succ n ih =>
      rw [List.replicate_succ, List.cons_append, skipJsonWs_ws_cons _ (by decide)]
      exact ih

theorem skipJsonWs_idem (cs : Str) : skipJsonWs (skipJsonWs cs) = skipJsonWs cs := by
  induction cs with
  | nil => rfl
  | cons c t ih =>
    by_cases hc : isJsonWs c
    · rw [skipJsonWs_ws_cons _ hc]; exact ih
    · rw [skipJsonWs_nonws _ (by simpa using hc), skipJsonWs_nonws _ (by simpa using hc)]

/-- Leading whitespace never changes a parse. -/
theorem parseVal_skip (fuel : Nat) (cs : Str) :
    parseVal fuel (skipJsonWs cs) = parseVal fuel cs := by
  cases fuel with
  | zero => rfl
  | succ f =>
    rw [parseVal, parseVal, skipJsonWs_idem]

/-- A digit character is not whitespace, a digit-run delimiter, or a JSON
    structural character. -/
theorem digit_not_special {c : Char} (h : isDigitCh c = true) :
    isJsonWs c = false ∧ c ≠ ']' ∧ c ≠ chRB ∧ c ≠ ',' ∧ c ≠ ':' ∧
    c ≠ 'n' ∧ c ≠ 't' ∧ c ≠ 'f' ∧ c ≠ '"' ∧ c ≠ '[' ∧ c ≠ chLB := by
  simp only [isDigitCh, Bool.and_eq_true, decide_eq_true_eq] at h
  obtain ⟨h1, h2⟩ := h
  refine ⟨?_, ?_, ?_, ?_, ?_, ?_, ?_, ?_, ?_, ?_, ?_⟩
  · simp only [isJsonWs, Bool.or_eq_false_iff, decide_eq_false_iff_not]
    repeat' constructor
    all_goals (intro h; subst h; exact absurd h1 (by decide))
  · intro h; subst h; exact absurd h2 (by decide)
  · intro h; subst h; exact absurd h2 (by decide)
  · intro h; subst h; exact absurd h1 (by decide)
  · intro h; subst h; exact absurd h2 (by decide)
  · intro h; subst h; exact absurd h2 (by decide)
  · intro h; subst h; exact absurd h2 (by decide)
  · intro h; subst h; exact absurd h2 (by decide)
  · intro h; subst h; exact absurd h1 (by decide)
  · intro h; subst h; exact absurd h2 (by decide)
  · intro h; subst h; exact absurd h2 (by decide)

/-- Every printed JSON value begins with a character that is not whitespace
    and closes no array or object. -/
theorem printVal_head (g d : Nat) (j : Json) :
    ∃ c t, printVal g d j = c :: t ∧ isJsonWs c = false ∧ c ≠ ']' ∧ c ≠ chRB := by
  cases j with
  | null => refine ⟨'n', _, rfl, ?_, ?_, ?_⟩ <;> decide
  | bool b =>
    cases b with
    | true => refine ⟨'t', _, rfl, ?_, ?_, ?_⟩ <;> decide
    | false => refine ⟨'f', _, rfl, ?_, ?_, ?_⟩ <;> decide
  | jstr s => refine ⟨'"', _, rfl, ?_, ?_, ?_⟩ <;> decide
  | arr es =>
    cases es with
    | nil => refine ⟨'[', _, rfl, ?_, ?_, ?_⟩ <;> decide
    | cons h t => refine ⟨'[', _, rfl, ?_, ?_, ?_⟩ <;> decide
  | obj ms =>
    cases ms with
    | nil => refine ⟨chLB, _, rfl, ?_, ?_, ?_⟩ <;> decide
    | cons k v t => refine ⟨chLB, _, rfl, ?_, ?_, ?_⟩ <;> decide
  | num n =>
    by_cases hneg : n < 0
    · refine ⟨'-', natToStr n.natAbs, ?_, by decide, by decide, by decide⟩
      simp [printVal, intToStr, hneg]
    · have hprint : printVal g d (.num n) = natToStr n.natAbs := by
        simp [printVal, intToStr, hneg]
      by_cases hz : n.natAbs = 0
      · exact ⟨'0', [], by rw [hprint, natToStr, if_pos hz], by decide, by decide, by decide⟩
      · have hnn : (natDigitsRev n.natAbs n.natAbs).reverse ≠ [] := by
          simp only [ne_eq, List.reverse_eq_nil_iff]
          exact natDigitsRev_ne_nil _ _ (by omega) le_rfl
        match hd : (natDigitsRev n.natAbs n.natAbs).reverse, hnn with
        | c :: t, _ =>
          have hcdig : isDigitCh c = true := by
            have : c ∈ (natDigitsRev n.natAbs n.natAbs).reverse := by rw [hd]; simp
            exact natDigitsRev_digits _ _ c (List.mem_reverse.mp this)
          obtain ⟨hw, hb1, hb2, -⟩ := digit_not_special hcdig
          exact ⟨c, t, by rw [hprint, natToStr, if_neg hz, hd], hw, hb1, hb2⟩

/-- Dispatch of `parseVal` to the number parser for a sign-or-digit head. -/
theorem parseVal_dispatch_num (f : Nat) (c : Char) (t : Str)
    (hn : c ≠ 'n') (ht : c ≠ 't') (hf : c ≠ 'f') (hq : c ≠ '"')
    (hbk : c ≠ '[') (hbc : c ≠ chLB) (hws : isJsonWs c = false)
    (hdig : (c = '-' || isDigitCh c) = true) :
    parseVal (f + 1) (c :: t) = parseNum (c :: t) := by
  rw [parseVal, skipJsonWs_nonws _ hws]
  split
  · rename_i r heq; exact absurd (List.cons.inj heq).1 hn
  · rename_i r heq; exact absurd (List.cons.inj heq).1 ht
  · rename_i r heq; exact absurd (List.cons.inj heq).1 hf
  · rename_i r heq; exact absurd (List.cons.inj heq).1 hq
  · rename_i r heq; exact absurd (List.cons.inj heq).1 hbk
  · rename_i c' r heq
    obtain ⟨hc, hr⟩ := List.cons.inj heq
    subst hc; subst hr
    rw [if_neg hbc, if_pos hdig]
  · rename_i heq; exact absurd heq (by simp)

theorem printVal_length_pos (g d : Nat) (j : Json) : 0 < (printVal g d j).length := by
  obtain ⟨c, t, heq, -⟩ := printVal_head g d j
  simp [heq]

theorem nlIndent_ws (g d : Nat) : ∀ c ∈ nlIndent g d, isJsonWs c = true := by
  intro c hc
  rw [nlIndent] at hc
  by_cases h : g = 0
  · simp [h] at hc
  · rw [if_neg h] at hc
    rcases List.mem_cons.mp hc with h' | h'
    · subst h'; decide
    · rw [List.eq_of_mem_replicate h']; decide

theorem skipJsonWs_append_ws : ∀ (w : Str), (∀ c ∈ w, isJsonWs c = true) →
    ∀ (x : Str), skipJsonWs (w ++ x) = skipJsonWs x := by
  intro w
  induction w with
  | nil => intro _ x; rfl
  | cons c t ih =>
    intro hw x
    rw [List.cons_append, skipJsonWs_ws_cons _ (hw c (by simp))]
    exact ih (fun d hd => hw d (by simp [hd])) x

theorem parseVal_ws (f : Nat) (w : Str) (hw : ∀ c ∈ w, isJsonWs c = true) (x : Str) :
    parseVal f (w ++ x) = parseVal f x := by
  rw [← parseVal_skip f (w ++ x), skipJsonWs_append_ws w hw x, parseVal_skip]

theorem parseElems_stripNl (f g d : Nat) (x : Str) :
    parseElems f (nlIndent g d ++ x) = parseElems f x := by
  cases f with
  | zero => rfl
  | succ f => rw [parseElems, parseElems, parseVal_ws f _ (nlIndent_ws g d)]

theorem parseMembers_stripNl (f g d : Nat) (x : Str) :
    parseMembers f (nlIndent g d ++ x) = parseMembers f x := by
  cases f with
  | zero => rfl
  | succ f =>
    rw [parseMembers, parseMembers, skipJsonWs_append_ws _ (nlIndent_ws g d)]

theorem numDelimB_nlIndent {c : Char} (g d : Nat) (r : Str) (hc : isDigitCh c = false) :
    numDelimB (nlIndent g d ++ (c :: r)) = true := by
  rw [nlIndent]
  by_cases h : g = 0
  · simp [h, numDelimB, hc]
  · rw [if_neg h, List.cons_append]
    rfl

/-- Printed integers begin with a sign or a digit. -/
theorem intToStr_head (n : Int) :
    ∃ c t, intToStr n = c :: t ∧ (c = '-' ∨ isDigitCh c = true) := by
  by_cases hneg : n < 0
  · exact ⟨'-', natToStr n.natAbs, by rw [intToStr, if_pos hneg], Or.inl rfl⟩
  · have hi : intToStr n = natToStr n.natAbs := by rw [intToStr, if_neg hneg]
    by_cases hz : n.natAbs = 0
    · exact ⟨'0', [], by rw [hi, natToStr, if_pos hz], Or.inr (by decide)⟩
    · have hnn : (natDigitsRev n.natAbs n.natAbs).reverse ≠ [] := by
        simp only [ne_eq, List.reverse_eq_nil_iff]
        exact natDigitsRev_ne_nil _ _ (by omega) le_rfl
      match hd : (natDigitsRev n.natAbs n.natAbs).reverse, hnn with
      | c :: t, _ =>
        have hcdig : isDigitCh c = true := by
          have : c ∈ (natDigitsRev n.natAbs n.natAbs).reverse := by rw [hd]; simp
          exact natDigitsRev_digits _ _ c (List.mem_reverse.mp this)
        exact ⟨c, t, by rw [hi, natToStr, if_neg hz, hd], Or.inr hcdig⟩

theorem colonSep_length_pos (g : Nat) : 1 ≤ (colonSep g).length := by
  rw [colonSep]; split <;> simp

theorem colonSep_cons (g : Nat) :
    colonSep g = ':' :: (if g = 0 then [] else [' ']) := by
  rw [colonSep]; split <;> rfl

theorem colonTail_ws (g : Nat) :
    ∀ c ∈ (if g = 0 then ([] : Str) else [' ']), isJsonWs c = true := by
  split
  · intro c hc; simp at hc
  · intro c hc
    simp at hc
    subst hc
    decide

theorem printItemsRest_cons_length (g d : Nat) (h : Json) (t : JsonList) :
    (printItemsRest g d (.cons h t)).length =
      1 + (nlIndent g d).length +
        ((printVal g d h).length + (printItemsRest g d t).length) := by
  simp only [printItemsRest, List.length_cons, List.length_append]
  omega

theorem printMembersRest_cons_length (g d : Nat) (k : Str) (v : Json) (t : JsonObj) :
    (printMembersRest g d (.cons k v t)).length =
      1 + (nlIndent g d).length + (printStrLit k).length + (colonSep g).length +
        (printVal g d v).length + (printMembersRest g d t).length := by
  simp only [printMembersRest, List.length_cons, List.length_append]
  omega

theorem printVal_arr_cons_length (g d : Nat) (h : Json) (t : JsonList) :
    (printVal g d (.arr (.cons h t))).length =
      2 + (nlIndent g d).length + (nlIndent g (d + 1)).length +
        (printVal g (d + 1) h).length + (printItemsRest g (d + 1) t).length := by
  simp only [printVal, printItems, List.length_cons, List.length_append, List.length_nil]
  omega

theorem printVal_obj_cons_length (g d : Nat) (k : Str) (v : Json) (t : JsonObj) :
    (printVal g d (.obj (.cons k v t))).length =
      2 + (nlIndent g d).length + (nlIndent g (d + 1)).length + (printStrLit k).length +
        (colonSep g).length + (printVal g (d + 1) v).length +
        (printMembersRest g (d + 1) t).length := by
  simp only [printVal, printMembers, List.length_cons, List.length_append, List.length_nil]
  omega

/-- Delimiters that follow an element in a printed array never extend a
    number. -/
theorem numDelimB_itemsRest (g d dd : Nat) (t : JsonList) (rest : Str) :
    numDelimB (printItemsRest g d t ++ (nlIndent g dd ++ (']' :: rest))) = true := by
  cases t with
  | nil => exact numDelimB_nlIndent g dd rest (by decide)
  | cons h t => rfl

/-- Delimiters that follow a value in a printed object never extend a
    number. -/
theorem numDelimB_membersRest (g d dd : Nat) (t : JsonObj) (rest : Str) :
    numDelimB (printMembersRest g d t ++ (nlIndent g dd ++ (chRB :: rest))) = true := by
  cases t with
  | nil => exact numDelimB_nlIndent g dd rest (by decide)
  | cons k v t => rfl

/-- Unfolding of the string-literal branch of the value parser. -/
theorem parseVal_str_branch (f : Nat) (r : Str) :
    parseVal (f + 1) ('"' :: r) =
      (match parseStrBody [] r with
       | some (s, rest) => some (.jstr s, rest)
       | none => none) := rfl

/-- Unfolding of the array branch of the value parser. -/
theorem parseVal_arr_branch (f : Nat) (r : Str) :
    parseVal (f + 1) ('[' :: r) =
      (match skipJsonWs r with
       | ']' :: rest => some (.arr .nil, rest)
       | r' =>
         match parseElems f r' with
         | some (es, rest) => some (.arr es, rest)
         | none => none) := rfl

/-- Unfolding of the object branch of the value parser. -/
theorem parseVal_obj_branch (f : Nat) (r : Str) :
    parseVal (f + 1) (chLB :: r) =
      (match skipJsonWs r with
       | d :: rest =>
         if d = chRB then some (.obj .nil, rest)
         else
           match parseMembers f (d :: rest) with
           | some (ms, rest') => some (.obj ms, rest')
           | none => none
       | [] => none) := rfl

/-- Unfolding of the member parser at a quote-headed input. -/
theorem parseMembers_key_branch (f : Nat) (r : Str) :
    parseMembers (f + 1) ('"' :: r) =
      (match parseStrBody [] r with
       | none => none
       | some (k, r1) =>
         match skipJsonWs r1 with
         | ':' :: r2 =>
           match parseVal f r2 with
           | none => none
           | some (v, r3) =>
             match skipJsonWs r3 with
             | ',' :: r4 =>
               match parseMembers f r4 with
               | some (ms, rest) => some (.cons k v ms, rest)
               | none => none
             | d :: r4 => if d = chRB then some (.cons k v .nil, r4) else none
             | [] => none
         | _ => none) := rfl

/-- A head other than a closing bracket routes the array body to the element
    parser. -/
theorem parseVal_arr_go (f : Nat) (c : Char) (t0 : Str) (hc : c ≠ ']') :
    (match c :: t0 with
     | ']' :: rest => some (Json.arr .nil, rest)
     | r' =>
       match parseElems f r' with
       | some (es, rest) => some (.arr es, rest)
       | none => none) =
      (match parseElems f (c :: t0) with
       | some (es, rest) => some (.arr es, rest)
       | none => none) := by
  split
  · rename_i rest heq
    exact absurd (List.cons.inj heq).1 hc
  · rfl

/-- Round trip of the JSON codec, proved by induction on fuel: with enough
    fuel a printed value parses back to itself (and printed element and
    member lists parse back up to their closing bracket), leaving exactly
    the trailing input, provided the remainder cannot extend a number. -/
theorem rt_all : ∀ f : Nat,
    (∀ (j : Json) (g d : Nat) (rest : Str), (printVal g d j).length < f →
      numDelimB rest = true → parseVal f (printVal g d j ++ rest) = some (j, rest)) ∧
    (∀ (h : Json) (t : JsonList) (g d dd : Nat) (rest : Str),
      (printVal g d h).length + (printItemsRest g d t).length + 1 < f →
      parseElems f (printVal g d h ++ (printItemsRest g d t ++
        (nlIndent g dd ++ (']' :: rest)))) = some (.cons h t, rest)) ∧
    (∀ (k : Str) (v : Json) (t : JsonObj) (g d dd : Nat) (rest : Str),
      (printStrLit k).length + (printVal g d v).length +
          (printMembersRest g d t).length + 1 < f →
      parseMembers f (printStrLit k ++ (colonSep g ++ (printVal g d v ++
        (printMembersRest g d t ++ (nlIndent g dd ++ (chRB :: rest)))))) =
        some (.cons k v t, rest)) := by
  intro f
  induction f with
  | zero =>
    refine ⟨?_, ?_, ?_⟩
    · intro j g d rest h1 _
      exact absurd h1 (by omega)
    · intro h t g d dd rest h1
      exact absurd h1 (by omega)
    · intro k v t g d dd rest h1
      exact absurd h1 (by omega)
  | succ f ih =>
    obtain ⟨ihv, ihe, ihm⟩ := ih
    refine ⟨?_, ?_, ?_⟩
    · intro j g d rest h1 h2
      cases j with
      | null => rfl
      | bool b =>
        cases b with
        | true => rfl
        | false => rfl
      | num n =>
        obtain ⟨c, t0, heq, hc⟩ := intToStr_head n
        have hpn : printVal g d (.num n) = intToStr n := rfl
        rw [hpn, heq, List.cons_append]
        have hdisp : parseVal (f + 1) (c :: (t0 ++ rest)) = parseNum (c :: (t0 ++ rest)) := by
          rcases hc with hm | hd
          · subst hm
            exact parseVal_dispatch_num f '-' _ (by decide) (by decide) (by decide) (by decide)
              (by decide) (by decide) (by decide) (by decide)
          · obtain ⟨hw, -, -, -, -, hn, ht, hf, hq, hbk, hbc⟩ := digit_not_special hd
            exact parseVal_dispatch_num f c _ hn ht hf hq hbk hbc hw (by simp [hd])
        rw [hdisp, ← List.cons_append, ← heq]
        exact parseNum_roundtrip n rest h2
      | jstr s =>
        have he : printVal g d (.jstr s) ++ rest = '"' :: (escapeStr s ++ ('"' :: rest)) := by
          simp [printVal, printStrLit]
        rw [he, parseVal_str_branch]
        simp only [parseStrLit_roundtrip]
      | arr es =>
        cases es with
        | nil => rfl
        | cons h t =>
          rw [printVal_arr_cons_length] at h1
          obtain ⟨c, t0, hpc, hw, hcb, -⟩ := printVal_head g (d + 1) h
          have he : printVal g d (.arr (.cons h t)) ++ rest =
              '[' :: (nlIndent g (d + 1) ++ (printVal g (d + 1) h ++
                (printItemsRest g (d + 1) t ++ (nlIndent g d ++ (']' :: rest))))) := by
            simp [printVal, printItems]
          rw [he, parseVal_arr_branch, skipJsonWs_append_ws _ (nlIndent_ws g (d + 1)), hpc,
            List.cons_append, skipJsonWs_nonws _ hw]
          split
          · rename_i rest' heq
            exact absurd (List.cons.inj heq).1 hcb
          · rw [← List.cons_append, ← hpc]
            simp only [ihe h t g (d + 1) d rest (by omega)]
      | obj ms =>
        cases ms with
        | nil => rfl
        | cons k v t =>
          rw [printVal_obj_cons_length] at h1
          have he : printVal g d (.obj (.cons k v t)) ++ rest =
              chLB :: (nlIndent g (d + 1) ++ (printStrLit k ++ (colonSep g ++
                (printVal g (d + 1) v ++ (printMembersRest g (d + 1) t ++
                  (nlIndent g d ++ (chRB :: rest))))))) := by
            simp [printVal, printMembers]
          rw [he, parseVal_obj_branch, skipJsonWs_append_ws _ (nlIndent_ws g (d + 1))]
          have hps : printStrLit k ++ (colonSep g ++ (printVal g (d + 1) v ++
              (printMembersRest g (d + 1) t ++ (nlIndent g d ++ (chRB :: rest))))) =
              '"' :: ((escapeStr k ++ ['"']) ++ (colonSep g ++ (printVal g (d + 1) v ++
                (printMembersRest g (d + 1) t ++ (nlIndent g d ++ (chRB :: rest)))))) := rfl
          rw [hps, skipJsonWs_nonws _ (by decide)]
          simp only []
          rw [if_neg (by decide : ¬ ('"' : Char) = chRB), ← hps]
          simp only [ihm k v t g (d + 1) d rest (by omega)]
    · intro h t g d dd rest h1
      have hlh := printVal_length_pos g d h
      rw [parseElems]
      simp only [ihv h g d (printItemsRest g d t ++ (nlIndent g dd ++ (']' :: rest)))
        (by omega) (numDelimB_itemsRest g d dd t rest)]
      cases t with
      | nil =>
        simp only [printItemsRest, List.nil_append]
        rw [skipJsonWs_append_ws _ (nlIndent_ws g dd), skipJsonWs_nonws _ (by decide)]
        rfl
      | cons h2 t2 =>
        rw [printItemsRest_cons_length] at h1
        simp only [printItemsRest, List.cons_append]
        rw [skipJsonWs_nonws _ (by decide)]
        simp only []
        rw [List.append_assoc, parseElems_stripNl, List.append_assoc]
        simp only [ihe h2 t2 g d dd rest (by omega)]
    · intro k v t g d dd rest h1
      have hlv := printVal_length_pos g d v
      have hcs := colonSep_length_pos g
      have hcons : printStrLit k ++ (colonSep g ++ (printVal g d v ++ (printMembersRest g d t ++
          (nlIndent g dd ++ (chRB :: rest))))) =
          '"' :: ((escapeStr k ++ ['"']) ++ (colonSep g ++ (printVal g d v ++
            (printMembersRest g d t ++ (nlIndent g dd ++ (chRB :: rest)))))) := rfl
      rw [hcons, parseMembers_key_branch, List.append_assoc, List.singleton_append]
      simp only [parseStrLit_roundtrip]
      rw [colonSep_cons, List.cons_append, skipJsonWs_nonws _ (by decide)]
      simp only []
      rw [parseVal_ws f _ (colonTail_ws g)]
      simp only [ihv v g d _ (by omega) (numDelimB_membersRest g d dd t rest)]
      cases t with
      | nil =>
        simp only [printMembersRest, List.nil_append]
        rw [skipJsonWs_append_ws _ (nlIndent_ws g dd), skipJsonWs_nonws _ (by decide)]
        rfl
      | cons k2 v2 t2 =>
        rw [printMembersRest_cons_length] at h1
        simp only [printMembersRest, List.cons_append]
        rw [skipJsonWs_nonws _ (by decide)]
        simp only []
        rw [List.append_assoc, parseMembers_stripNl]
        simp only [List.append_assoc]
        simp only [ihm k2 v2 t2 g d dd rest (by omega)]

/-- Whole-value form of the codec round trip. -/
theorem printVal_roundtrip (j : Json) (g d f : Nat) (rest : Str)
    (h1 : (printVal g d j).length < f) (h2 : numDelimB rest = true) :
    parseVal f (printVal g d j ++ rest) = some (j, rest) :=
  (rt_all f).1 j g d rest h1 h2

/-- The parser undoes the printer on every value the program writes. -/
theorem jsonParse_printVal (g d : Nat) (j : Json) :
    jsonParse (printVal g d j) = some j := by
  have h := (rt_all ((printVal g d j).length + 1)).1 j g d [] (by omega) rfl
  rw [List.append_nil] at h
  unfold jsonParse
  simp only [h]
  rfl

/-- The printer is injective: values that stringify identically are equal. -/
theorem printVal_inj (g d g' d' : Nat) (j j' : Json)
    (h : printVal g d j = printVal g' d' j') : j = j' := by
  have h1 := jsonParse_printVal g d j
  have h2 := jsonParse_printVal g' d' j'
  rw [h, h2] at h1
  exact (Option.some.inj h1).symm

theorem alGet_alSet_self [DecidableEq κ] (l : List (κ × ν)) (k : κ) (v : ν) :
    alGet (alSet l k v) k = some v := by
  induction l with
  | nil => simp [alSet, alGet]
  | cons p t ih =>
    obtain ⟨a, b⟩ := p
    by_cases h : k = a
    · subst h
      simp [alSet, alGet]
    · simp [alSet, alGet, h, ih]

theorem alGet_alSet_ne [DecidableEq κ] (l : List (κ × ν)) (k k' : κ) (v : ν)
    (h : k' ≠ k) : alGet (alSet l k v) k' = alGet l k' := by
  induction l with
  | nil => simp [alSet, alGet, h]
  | cons p t ih =>
    obtain ⟨a, b⟩ := p
    by_cases hk : k = a
    · subst hk
      simp [alSet, alGet, h]
    · by_cases ha : k' = a
      · subst ha
        simp [alSet, alGet, hk]
      · simp [alSet, alGet, hk, ha, ih]

/-- Reading a key written by a keyed fold of writes returns that key's
    computed value. -/
theorem alGet_foldl_alSet [DecidableEq κ] (g : κ → ν) (keys : List κ) :
    ∀ (acc : List (κ × ν)) (f : κ), (f ∈ keys ∨ alGet acc f = some (g f)) →
      alGet (keys.foldl (fun res k => alSet res k (g k)) acc) f = some (g f) := by
  induction keys with
  | nil =>
    intro acc f h
    rcases h with h | h
    · simp at h
    · simpa using h
  | cons k ks ih =>
    intro acc f h
    rw [List.foldl_cons]
    apply ih
    by_cases hf : f ∈ ks
    · exact Or.inl hf
    · right
      rcases h with h | h
      · rcases List.mem_cons.mp h with h | h
        · subst h
          exact alGet_alSet_self acc f (g f)
        · exact absurd h hf
      · by_cases hfk : f = k
        · subst hfk
          exact alGet_alSet_self acc f (g f)
        · rw [alGet_alSet_ne acc k f (g k) hfk]
          exact h

theorem setAdd_mem [DecidableEq α] (x y : α) (l : List α) :
    y ∈ setAdd x l ↔ y ∈ l ∨ y = x := by
  rw [setAdd]
  split
  · rename_i h
    refine ⟨Or.inl, ?_⟩
    rintro (hy | hy)
    · exact hy
    · exact hy ▸ h
  · simp

theorem foldl_setAdd_mem [DecidableEq α] (xs : List α) :
    ∀ (acc : List α) (y : α),
      y ∈ xs.foldl (fun a s => setAdd s a) acc ↔ y ∈ acc ∨ y ∈ xs := by
  induction xs with
  | nil =>
    intro acc y
    simp
  | cons x t ih =>
    intro acc y
    rw [List.foldl_cons, ih, setAdd_mem]
    constructor
    · rintro ((h | h) | h)
      · exact Or.inl h
      · exact Or.inr (by simp [h])
      · exact Or.inr (by simp [h])
    · rintro (h | h)
      · exact Or.inl (Or.inl h)
      · rcases List.mem_cons.mp h with h | h
        · exact Or.inl (Or.inr h)
        · exact Or.inr h

theorem foldl_setAdd_const [DecidableEq α] (a : α) : ∀ (xs : List α),
    (∀ x ∈ xs, x = a) → xs.foldl (fun acc s => setAdd s acc) [a] = [a] := by
  intro xs
  induction xs with
  | nil => intro _; rfl
  | cons x t ih =>
    intro h
    rw [List.foldl_cons, h x (by simp), show setAdd a [a] = [a] from by simp [setAdd]]
    exact ih (fun y hy => h y (by simp [hy]))

/-- Deduplicating a run of equal elements yields that one element. -/
theorem foldl_setAdd_all_eq [DecidableEq α] (xs : List α) (a : α) (hne : xs ≠ [])
    (hall : ∀ x ∈ xs, x = a) : xs.foldl (fun acc s => setAdd s acc) [] = [a] := by
  cases xs with
  | nil => exact absurd rfl hne
  | cons x t =>
    rw [List.foldl_cons, show setAdd x [] = [x] from by simp [setAdd], hall x (by simp)]
    exact foldl_setAdd_const a t (fun y hy => hall y (by simp [hy]))

theorem toList_ofList (l : List Json) : (JsonList.ofList l).toList = l := by
  induction l with
  | nil => rfl
  | cons x t ih => simp [JsonList.ofList, JsonList.toList, ih]

theorem jsonToValue_valueToJson (v : Value) : jsonToValue (valueToJson v) = v := by
  cases v with
  | null => rfl
  | vstr s => rfl
  | vnum n => rfl
  | vbool b => cases b <;> rfl
  | vlist l =>
    simp [valueToJson, jsonToValue, toList_ofList, List.map_map, Function.comp_def]

/-- The JSON encoding of field values is injective. -/
theorem valueToJson_inj (v w : Value) (h : valueToJson v = valueToJson w) : v = w := by
  have h2 := congrArg jsonToValue h
  rwa [jsonToValue_valueToJson, jsonToValue_valueToJson] at h2

/-- Distinct field values stringify differently, so the distinct-value count
    of the source is faithful. -/
theorem stringifyValue_some_inj (v w : Value)
    (h : stringifyValue (some v) = stringifyValue (some w)) : v = w :=
  valueToJson_inj v w (printVal_inj 0 0 0 0 _ _ h)

theorem headI_mem_self [Inhabited α] (l : List α) (h : l ≠ []) : l.headI ∈ l := by
  cases l with
  | nil => exact absurd rfl h
  | cons x t => simp [List.headI]

/-- Claim C6: for a field that is neither computed, excluded, a link field,
    nor a concatenate field, `computeFieldResolutions` resolves it to
    strategy `auto` with `include=false` when every source value is empty,
    to strategy `auto` carrying the single shared value with `include=true`
    when exactly one distinct non-empty value occurs across the survivor and
    all subsumed records, and to strategy `manual` with `needsDecision=true`
    and `include=true` when two or more distinct non-empty values occur. -/
theorem C6_plain_field_resolution (survivor : REntry) (toMerge : List REntry)
    (schema : MSchema) (config : ResolutionConfig) (f : Str)
    (hc : f ∉ schema.computedFields) (he : f ∉ config.excludeFields)
    (hl1 : f ∉ config.linkFields) (hl2 : f ∉ schema.linkFields)
    (hcat : f ∉ config.concatenateFields)
    (hmem : f ∈ survivor.record.fields.map Prod.fst ++
      (toMerge.map (fun m => m.record.fields.map Prod.fst)).flatten) :
    ∃ r : FieldResolution,
      alGet (computeFieldResolutions survivor toMerge schema config) f = some r ∧
      (nonEmptySources survivor toMerge f = [] →
        r.strategy = RESOLUTION_STRATEGIES.AUTO ∧ r.include' = false ∧
        r.needsDecision = false) ∧
      (nonEmptySources survivor toMerge f ≠ [] →
        (∀ v ∈ nonEmptySources survivor toMerge f,
          ∀ w ∈ nonEmptySources survivor toMerge f, v = w) →
        r.strategy = RESOLUTION_STRATEGIES.AUTO ∧
        r.value = (nonEmptySources survivor toMerge f).headI ∧
        r.include' = true ∧ r.needsDecision = false) ∧
      ((∃ v ∈ nonEmptySources survivor toMerge f,
          ∃ w ∈ nonEmptySources survivor toMerge f, v ≠ w) →
        r.strategy = RESOLUTION_STRATEGIES.MANUAL ∧ r.needsDecision = true ∧
        r.include' = true) := by
  refine ⟨resolveOneField survivor toMerge schema config f, ?_, ?_, ?_, ?_⟩
  · simp only [computeFieldResolutions]
    exact alGet_foldl_alSet (resolveOneField survivor toMerge schema config) _ [] f
      (Or.inl ((foldl_setAdd_mem _ _ _).mpr (Or.inr hmem)))
  · intro h0
    simp only [nonEmptySources, fieldSources] at h0
    simp [resolveOneField, hc, he, hl1, hl2, hcat, h0]
  · intro hne hall
    have huniq : ((nonEmptySources survivor toMerge f).map stringifyValue).foldl
        (fun acc s => setAdd s acc) [] =
        [stringifyValue (nonEmptySources survivor toMerge f).headI] := by
      apply foldl_setAdd_all_eq
      · simpa using hne
      · intro x hx
        obtain ⟨v, hv, hxv⟩ := List.mem_map.mp hx
        rw [← hxv, hall v hv _ (headI_mem_self _ hne)]
    simp only [nonEmptySources, fieldSources] at hne huniq ⊢
    simp [resolveOneField, hc, he, hl1, hl2, hcat, hne, huniq]
  · intro hx
    obtain ⟨v, hv, w, hw, hvw⟩ := hx
    have hne2 : nonEmptySources survivor toMerge f ≠ [] := List.ne_nil_of_mem hv
    have hlen : (((nonEmptySources survivor toMerge f).map stringifyValue).foldl
        (fun acc s => setAdd s acc) []).length ≠ 1 := by
      intro hl
      obtain ⟨a, ha⟩ := List.length_eq_one.mp hl
      have h1 : stringifyValue v ∈ ((nonEmptySources survivor toMerge f).map
          stringifyValue).foldl (fun acc s => setAdd s acc) [] :=
        (foldl_setAdd_mem _ _ _).mpr (Or.inr (List.mem_map_of_mem _ hv))
      have h2 : stringifyValue w ∈ ((nonEmptySources survivor toMerge f).map
          stringifyValue).foldl (fun acc s => setAdd s acc) [] :=
        (foldl_setAdd_mem _ _ _).mpr (Or.inr (List.mem_map_of_mem _ hw))
      rw [ha, List.mem_singleton] at h1 h2
      have hvf := List.of_mem_filter
        (show v ∈ (fieldSources survivor toMerge f).filter (fun x => !isEmptyV x) from hv)
      have hwf := List.of_mem_filter
        (show w ∈ (fieldSources survivor toMerge f).filter (fun x => !isEmptyV x) from hw)
      rcases v with _ | a'
      · simp [isEmptyV] at hvf
      rcases w with _ | b'
      · simp [isEmptyV] at hwf
      have hab : a' = b' := stringifyValue_some_inj a' b' (h1.trans h2.symm)
      exact hvw (by rw [hab])
    simp only [nonEmptySources, fieldSources] at hne2 hlen
    simp [resolveOneField, hc, he, hl1, hl2, hcat, hne2, hlen]

theorem C6_witness :
    ∃ r : FieldResolution,
      alGet (computeFieldResolutions
        ⟨⟨str "rs", [(str "Email", Value.vstr [])]⟩, str "Survivor"⟩
        [⟨⟨str "rm", [(str "Email", Value.vstr (str "a@b.com"))]⟩, str "Merged"⟩]
        ⟨[], []⟩ ⟨[], [], [], []⟩) (str "Email") = some r ∧
      (nonEmptySources ⟨⟨str "rs", [(str "Email", Value.vstr [])]⟩, str "Survivor"⟩
        [⟨⟨str "rm", [(str "Email", Value.vstr (str "a@b.com"))]⟩, str "Merged"⟩]
        (str "Email") = [] →
        r.strategy = RESOLUTION_STRATEGIES.AUTO ∧ r.include' = false ∧
        r.needsDecision = false) ∧
      (nonEmptySources ⟨⟨str "rs", [(str "Email", Value.vstr [])]⟩, str "Survivor"⟩
        [⟨⟨str "rm", [(str "Email", Value.vstr (str "a@b.com"))]⟩, str "Merged"⟩]
        (str "Email") ≠ [] →
        (∀ v ∈ nonEmptySources ⟨⟨str "rs", [(str "Email", Value.vstr [])]⟩, str "Survivor"⟩
          [⟨⟨str "rm", [(str "Email", Value.vstr (str "a@b.com"))]⟩, str "Merged"⟩]
          (str "Email"),
          ∀ w ∈ nonEmptySources ⟨⟨str "rs", [(str "Email", Value.vstr [])]⟩, str "Survivor"⟩
            [⟨⟨str "rm", [(str "Email", Value.vstr (str "a@b.com"))]⟩, str "Merged"⟩]
            (str "Email"), v = w) →
        r.strategy = RESOLUTION_STRATEGIES.AUTO ∧
        r.value = (nonEmptySources ⟨⟨str "rs", [(str "Email", Value.vstr [])]⟩, str "Survivor"⟩
          [⟨⟨str "rm", [(str "Email", Value.vstr (str "a@b.com"))]⟩, str "Merged"⟩]
          (str "Email")).headI ∧
        r.include' = true ∧ r.needsDecision = false) ∧
      ((∃ v ∈ nonEmptySources ⟨⟨str "rs", [(str "Email", Value.vstr [])]⟩, str "Survivor"⟩
          [⟨⟨str "rm", [(str "Email", Value.vstr (str "a@b.com"))]⟩, str "Merged"⟩]
          (str "Email"),
        ∃ w ∈ nonEmptySources ⟨⟨str "rs", [(str "Email", Value.vstr [])]⟩, str "Survivor"⟩
          [⟨⟨str "rm", [(str "Email", Value.vstr (str "a@b.com"))]⟩, str "Merged"⟩]
          (str "Email"), v ≠ w) →
        r.strategy = RESOLUTION_STRATEGIES.MANUAL ∧ r.needsDecision = true ∧
        r.include' = true) :=
  C6_plain_field_resolution _ _ _ _ _ (by decide) (by decide) (by decide) (by decide)
    (by decide) (by decide)

theorem foldl_preserve {α β : Type _} (P : β → Prop) (f : β → α → β)
    (hstep : ∀ b a, P b → P (f b a)) : ∀ (l : List α) (b : β), P b → P (l.foldl f b) := by
  intro l
  induction l with
  | nil => intro b hb; exact hb
  | cons x t ih => intro b hb; exact ih (f b x) (hstep b x hb)

theorem alSet_keys_mem [DecidableEq κ] (l : List (κ × ν)) (k : κ) (v : ν) (a : κ) :
    a ∈ (alSet l k v).map Prod.fst ↔ a ∈ l.map Prod.fst ∨ a = k := by
  induction l with
  | nil => simp [alSet]
  | cons p t ih =>
    obtain ⟨b, c⟩ := p
    by_cases h : k = b
    · subst h
      rw [show alSet ((k, c) :: t) k v = (k, v) :: t from by rw [alSet, if_pos rfl]]
      simp only [List.map_cons, List.mem_cons]
      tauto
    · rw [show alSet ((b, c) :: t) k v = (b, c) :: alSet t k v from by
        rw [alSet, if_neg h]]
      simp only [List.map_cons, List.mem_cons, ih]
      tauto

theorem alSet_keys_nodup [DecidableEq κ] (l : List (κ × ν)) (k : κ) (v : ν)
    (h : (l.map Prod.fst).Nodup) : ((alSet l k v).map Prod.fst).Nodup := by
  induction l with
  | nil => simp [alSet]
  | cons p t ih =>
    obtain ⟨b, c⟩ := p
    simp only [List.map_cons, List.nodup_cons] at h
    by_cases hk : k = b
    · subst hk
      rw [show alSet ((k, c) :: t) k v = (k, v) :: t from by rw [alSet, if_pos rfl]]
      simp only [List.map_cons, List.nodup_cons]
      exact h
    · rw [show alSet ((b, c) :: t) k v = (b, c) :: alSet t k v from by
        rw [alSet, if_neg hk]]
      simp only [List.map_cons, List.nodup_cons]
      refine ⟨?_, ih h.2⟩
      intro hb
      rcases (alSet_keys_mem t k v b).mp hb with hb | hb
      · exact h.1 hb
      · exact hk hb.symm

theorem alSet_mem_self [DecidableEq κ] (l : List (κ × ν)) (k : κ) (v : ν) :
    (k, v) ∈ alSet l k v := by
  induction l with
  | nil => simp [alSet]
  | cons p t ih =>
    obtain ⟨b, c⟩ := p
    by_cases h : k = b
    · subst h
      rw [show alSet ((k, c) :: t) k v = (k, v) :: t from by rw [alSet, if_pos rfl]]
      simp
    · rw [show alSet ((b, c) :: t) k v = (b, c) :: alSet t k v from by
        rw [alSet, if_neg h]]
      simp [ih]

theorem alGet_filter_ne [DecidableEq κ] (l : List (κ × ν)) (k k' : κ) (h : k ≠ k') :
    alGet (l.filter (fun f => f.1 ≠ k')) k = alGet l k := by
  induction l with
  | nil => rfl
  | cons p t ih =>
    obtain ⟨b, c⟩ := p
    by_cases hb : b = k'
    · subst hb
      simp only [List.filter_cons]
      rw [show (decide ((b, c).1 ≠ b)) = false from by simp, if_neg (by simp), ih,
        alGet, if_neg h]
    · simp only [List.filter_cons]
      rw [show (decide ((b, c).1 ≠ k')) = true from by simp [hb], if_pos rfl]
      by_cases hk : k = b
      · subst hk
        rw [alGet, if_pos rfl, alGet, if_pos rfl]
      · rw [alGet, if_neg hk, alGet, if_neg hk, ih]

theorem alGet_applyUpdateFields_not_key (updates : List (Str × Option Value)) :
    ∀ (fields : List (Str × Value)) (k : Str), k ∉ updates.map Prod.fst →
      alGet (applyUpdateFields fields updates) k = alGet fields k := by
  induction updates with
  | nil => intro fields k _; rfl
  | cons u t ih =>
    intro fields k hk
    obtain ⟨uk, ov⟩ := u
    simp only [List.map_cons, List.mem_cons, not_or] at hk
    cases ov with
    | some v =>
      rw [show applyUpdateFields fields ((uk, some v) :: t) =
        applyUpdateFields (alSet fields uk v) t from rfl]
      rw [ih (alSet fields uk v) k hk.2, alGet_alSet_ne fields uk k v hk.1]
    | none =>
      rw [show applyUpdateFields fields ((uk, none) :: t) =
        applyUpdateFields (fields.filter (fun f => f.1 ≠ uk)) t from rfl]
      rw [ih _ k hk.2, alGet_filter_ne fields k uk hk.1]

theorem alGet_applyUpdateFields_of_mem (updates : List (Str × Option Value)) :
    ∀ (fields : List (Str × Value)) (k : Str) (v : Value),
      (updates.map Prod.fst).Nodup → (k, some v) ∈ updates →
      alGet (applyUpdateFields fields updates) k = some v := by
  induction updates with
  | nil =>
    intro fields k v _ hmem
    simp at hmem
  | cons u t ih =>
    intro fields k v hnod hmem
    obtain ⟨uk, ov⟩ := u
    simp only [List.map_cons, List.nodup_cons] at hnod
    rcases List.mem_cons.mp hmem with hmem | hmem
    · obtain ⟨hk, hv⟩ := Prod.mk.inj hmem
      subst hk
      rw [← hv]
      rw [show applyUpdateFields fields ((k, some v) :: t) =
        applyUpdateFields (alSet fields k v) t from rfl]
      rw [alGet_applyUpdateFields_not_key t _ k hnod.1, alGet_alSet_self]
    · have hstep : ∀ f0, applyUpdateFields f0 ((uk, ov) :: t) =
          applyUpdateFields (match ov with
            | some w => alSet f0 uk w
            | none => f0.filter (fun f => f.1 ≠ uk)) t := by
        intro f0
        cases ov <;> rfl
      rw [hstep]
      exact ih _ k v hnod.2 hmem

theorem JsonObj_toList_ofList (l : List (Str × Json)) : (JsonObj.ofList l).toList = l := by
  induction l with
  | nil => rfl
  | cons p t ih =>
    obtain ⟨k, v⟩ := p
    simp [JsonObj.ofList, JsonObj.toList, ih]

/-- A freshly printed history blob parses back to the same entry list. -/
theorem parseDedupeHistory_printed (l : List Json) :
    parseDedupeHistory (some (printVal 2 0 (.arr (JsonList.ofList l)))) = l := by
  have hne : printVal 2 0 (.arr (JsonList.ofList l)) ≠ [] := by
    have := printVal_length_pos 2 0 (.arr (JsonList.ofList l))
    intro h
    rw [h] at this
    simp at this
  rw [parseDedupeHistory, if_neg hne]
  simp only [jsonParse_printVal, toList_ofList]

theorem filter_map_fst {α β γ : Type _} (f : β → γ) (p : α → Bool) (l : List (α × β)) :
    (l.map (fun kv => (kv.1, f kv.2))).filter (fun kv => p kv.1) =
      (l.filter (fun kv => p kv.1)).map (fun kv => (kv.1, f kv.2)) := by
  induction l with
  | nil => rfl
  | cons x t ih =>
    by_cases h : p x.1
    · simp [List.filter_cons, h, ih]
    · simp [List.filter_cons, h, ih]

/-- Appending a matching entry to a history in which the merge id is absent
    makes the scan find exactly that entry. -/
theorem findMergeEvent_append_found (mergeId : Str) (o : JsonObj) (h0 : List Json)
    (hnone : findMergeEvent mergeId h0 = .ok none)
    (hj : jsonObjGet o (str "merge_id") = some (.jstr mergeId)) :
    findMergeEvent mergeId (h0 ++ [Json.obj o]) = .ok (some (Json.obj o)) := by
  induction h0 with
  | nil =>
    simp only [List.nil_append]
    rw [show findMergeEvent mergeId [Json.obj o] =
        (match jsonObjGet o (str "merge_id") with
         | some (.jstr s) =>
           if s = mergeId then Except.ok (some (Json.obj o))
           else findMergeEvent mergeId []
         | _ => findMergeEvent mergeId []) from rfl]
    simp only [hj]
    rw [if_pos trivial]
  | cons h t ih =>
    cases h with
    | null =>
      rw [show findMergeEvent mergeId (Json.null :: t) =
        .error (str "TypeError: cannot read merge_id of null") from rfl] at hnone
      exact absurd hnone (by simp)
    | arr es =>
      rw [List.cons_append,
        show findMergeEvent mergeId (Json.arr es :: (t ++ [Json.obj o])) =
          findMergeEvent mergeId (t ++ [Json.obj o]) from rfl]
      rw [show findMergeEvent mergeId (Json.arr es :: t) =
        findMergeEvent mergeId t from rfl] at hnone
      exact ih hnone
    | jstr s =>
      rw [List.cons_append,
        show findMergeEvent mergeId (Json.jstr s :: (t ++ [Json.obj o])) =
          findMergeEvent mergeId (t ++ [Json.obj o]) from rfl]
      rw [show findMergeEvent mergeId (Json.jstr s :: t) =
        findMergeEvent mergeId t from rfl] at hnone
      exact ih hnone
    | num n =>
      rw [List.cons_append,
        show findMergeEvent mergeId (Json.num n :: (t ++ [Json.obj o])) =
          findMergeEvent mergeId (t ++ [Json.obj o]) from rfl]
      rw [show findMergeEvent mergeId (Json.num n :: t) =
        findMergeEvent mergeId t from rfl] at hnone
      exact ih hnone
    | bool b =>
      rw [List.cons_append,
        show findMergeEvent mergeId (Json.bool b :: (t ++ [Json.obj o])) =
          findMergeEvent mergeId (t ++ [Json.obj o]) from rfl]
      rw [show findMergeEvent mergeId (Json.bool b :: t) =
        findMergeEvent mergeId t from rfl] at hnone
      exact ih hnone
    | obj oo =>
      rw [List.cons_append,
        show findMergeEvent mergeId (Json.obj oo :: (t ++ [Json.obj o])) =
          (match jsonObjGet oo (str "merge_id") with
           | some (.jstr s) =>
             if s = mergeId then Except.ok (some (Json.obj oo))
             else findMergeEvent mergeId (t ++ [Json.obj o])
           | _ => findMergeEvent mergeId (t ++ [Json.obj o])) from rfl]
      rw [show findMergeEvent mergeId (Json.obj oo :: t) =
          (match jsonObjGet oo (str "merge_id") with
           | some (.jstr s) =>
             if s = mergeId then Except.ok (some (Json.obj oo))
             else findMergeEvent mergeId t
           | _ => findMergeEvent mergeId t) from rfl] at hnone
      rcases hoo : jsonObjGet oo (str "merge_id") with _ | jv
      · simp only [hoo] at hnone ⊢
        exact ih hnone
      · cases jv with
        | jstr s =>
          simp only [hoo] at hnone ⊢
          by_cases hs : s = mergeId
          · rw [if_pos hs] at hnone
            exact absurd hnone (by simp)
          · rw [if_neg hs] at hnone ⊢
            exact ih hnone
        | null =>
          simp only [hoo] at hnone ⊢
          exact ih hnone
        | arr es =>
          simp only [hoo] at hnone ⊢
          exact ih hnone
        | num n =>
          simp only [hoo] at hnone ⊢
          exact ih hnone
        | bool b =>
          simp only [hoo] at hnone ⊢
          exact ih hnone
        | obj o2 =>
          simp only [hoo] at hnone ⊢
          exact ih hnone

theorem findMergeEvent_append_found2 (mergeId : Str) (j : Json) (h0 : List Json)
    (hnone : findMergeEvent mergeId h0 = .ok none)
    (hj : jsonGetProp j (str "merge_id") = some (.jstr mergeId)) :
    findMergeEvent mergeId (h0 ++ [j]) = .ok (some j) := by
  cases j with
  | obj o => exact findMergeEvent_append_found mergeId o h0 hnone (by simpa [jsonGetProp] using hj)
  | null => simp [jsonGetProp] at hj
  | bool b => simp [jsonGetProp] at hj
  | num n => simp [jsonGetProp] at hj
  | jstr s => simp [jsonGetProp] at hj
  | arr es => simp [jsonGetProp] at hj

/-- Recreating records from printed snapshots restores each subsumed record's
    non-computed fields. -/
theorem mapM_recreate (schema : MSchema) : ∀ (ms : List HistoryMergedRecord),
    (ms.map mergedRecordToJson).mapM (recreateFromSnapshot schema) =
      .ok (ms.map (fun m =>
        { originalId := some (.jstr m.original_record_id),
          fields := (m.field_snapshot.map (fun kv => (kv.1, valueToJson kv.2))).filter
            (fun kv => kv.1 ∉ schema.computedFields),
          linkedRecords := some (.obj (JsonObj.ofList
            (m.linked_records.map (fun kv => (kv.1, strListToJson kv.2))))) })) := by
  intro ms
  induction ms with
  | nil => rfl
  | cons m t ih =>
    rw [List.map_cons, List.mapM_cons, ih]
    rw [show recreateFromSnapshot schema (mergedRecordToJson m) = Except.ok
      { originalId := some (.jstr m.original_record_id),
        fields := (JsonObj.ofList (m.field_snapshot.map (fun kv =>
          (kv.1, valueToJson kv.2)))).toList.filter
          (fun kv => kv.1 ∉ schema.computedFields),
        linkedRecords := some (.obj (JsonObj.ofList
          (m.linked_records.map (fun kv => (kv.1, strListToJson kv.2))))) } from rfl]
    rw [JsonObj_toList_ofList]
    rfl

/-- The unmerge builder succeeds on a survivor whose history ends with the
    merge entry being undone, and its outputs are determined entry-wise. -/
theorem buildUnmergePayload_ok (sv : MRec) (mergeId : Str) (schema : MSchema)
    (freshId ts2 : Str) (H0 : List Json) (e : HistoryEntry)
    (hh : histFieldOf sv.fields =
      some (printVal 2 0 (.arr (JsonList.ofList (H0 ++ [historyEntryToJson e])))))
    (hmid : e.merge_id = mergeId)
    (hfresh : findMergeEvent mergeId H0 = .ok none) :
    buildUnmergePayload sv mergeId schema freshId ts2 = Except.ok
      { unmergeId := strReplaceFirst (str "mrg_") (str "unmrg_") freshId,
        mergeEvent := historyEntryToJson e,
        recordsToCreate := e.merged_records.map (fun m =>
          { originalId := some (.jstr m.original_record_id),
            fields := (m.field_snapshot.map (fun kv => (kv.1, valueToJson kv.2))).filter
              (fun kv => kv.1 ∉ schema.computedFields),
            linkedRecords := some (.obj (JsonObj.ofList
              (m.linked_records.map (fun kv => (kv.1, strListToJson kv.2))))) }),
        survivorUpdates := [(str "dedupe_history", Value.vstr (printVal 2 0 (Json.arr
          (JsonList.ofList ((H0 ++ [historyEntryToJson e]) ++ [unmergeEntryToJson
            { merge_id := strReplaceFirst (str "mrg_") (str "unmrg_") freshId,
              timestamp := ts2,
              action := str "unmerge",
              original_merge_id := mergeId,
              survivor_record_id := sv.id,
              restored_records := e.merged_records.map
                (fun m => some (.jstr m.original_record_id)),
              performed_by := str "user",
              notes := str "Unmerge of " ++ mergeId }])))))],
        unmergeHistoryEntry :=
          { merge_id := strReplaceFirst (str "mrg_") (str "unmrg_") freshId,
            timestamp := ts2,
            action := str "unmerge",
            original_merge_id := mergeId,
            survivor_record_id := sv.id,
            restored_records := e.merged_records.map
              (fun m => some (.jstr m.original_record_id)),
            performed_by := str "user",
            notes := str "Unmerge of " ++ mergeId } } := by
  have hje : jsonGetProp (historyEntryToJson e) (str "merge_id") = some (.jstr mergeId) := by
    rw [show jsonGetProp (historyEntryToJson e) (str "merge_id") =
      some (.jstr e.merge_id) from rfl, hmid]
  unfold buildUnmergePayload
  simp only [hh, parseDedupeHistory_printed,
    findMergeEvent_append_found2 mergeId (historyEntryToJson e) H0 hfresh hje]
  show (do
      let recordsToCreate ←
        ((JsonList.ofList (e.merged_records.map mergedRecordToJson)).toList).mapM
          (recreateFromSnapshot schema)
      let uhe : UnmergeHistoryEntry := {
        merge_id := strReplaceFirst (str "mrg_") (str "unmrg_") freshId,
        timestamp := ts2,
        action := str "unmerge",
        original_merge_id := mergeId,
        survivor_record_id := sv.id,
        restored_records :=
          ((JsonList.ofList (e.merged_records.map mergedRecordToJson)).toList).map
            (fun m => jsonGetProp m (str "original_record_id")),
        performed_by := str "user",
        notes := str "Unmerge of " ++ mergeId }
      Except.ok {
        unmergeId := strReplaceFirst (str "mrg_") (str "unmrg_") freshId,
        mergeEvent := historyEntryToJson e,
        recordsToCreate := recordsToCreate,
        survivorUpdates := [(str "dedupe_history", Value.vstr (printVal 2 0 (Json.arr
          (JsonList.ofList ((H0 ++ [historyEntryToJson e]) ++ [unmergeEntryToJson uhe])))))],
        unmergeHistoryEntry := uhe } : Except Str UnmergePayload) = _
  simp only [toList_ofList, List.map_map]
  rw [mapM_recreate schema e.merged_records]
  simp only [show ((fun m => jsonGetProp m (str "original_record_id")) ∘ mergedRecordToJson) =
    (fun m : HistoryMergedRecord => some (Json.jstr m.original_record_id)) from rfl]
  rfl

/-- Applying a merge payload's field updates to the survivor stores exactly
    the printed history: the prior entries plus the new merge entry. -/
theorem mergePayload_history_written (S : REntry) (toMerge : List REntry)
    (fds : List (Str × FieldResolution)) (schema : MSchema) (options : MergeOptions)
    (mergeId ts : Str) :
    histFieldOf (applyUpdateFields S.record.fields
      (buildMergePayload S toMerge fds schema options mergeId ts).updateFields) =
      some (printVal 2 0 (.arr (JsonList.ofList
        (parseDedupeHistory (histFieldOf S.record.fields) ++
          [historyEntryToJson
            (buildMergePayload S toMerge fds schema options mergeId ts).historyEntry])))) := by
  have hUF : (buildMergePayload S toMerge fds schema options mergeId ts).updateFields =
      alSet (fds.foldl (fun uf fd =>
        if !fd.2.include' then uf
        else if fd.1 ∈ schema.computedFields then uf
        else if fd.1 ∈ DEFAULT_RESOLUTION_CONFIG.excludeFields then uf
        else alSet uf fd.1 fd.2.value) []) (str "dedupe_history")
        (some (.vstr (printVal 2 0 (.arr (JsonList.ofList
          (parseDedupeHistory (histFieldOf S.record.fields) ++
            [historyEntryToJson
              (buildMergePayload S toMerge fds schema options mergeId ts).historyEntry])))))) :=
    rfl
  rw [hUF]
  have hnodup : ((alSet (fds.foldl (fun uf fd =>
      if !fd.2.include' then uf
      else if fd.1 ∈ schema.computedFields then uf
      else if fd.1 ∈ DEFAULT_RESOLUTION_CONFIG.excludeFields then uf
      else alSet uf fd.1 fd.2.value) []) (str "dedupe_history")
      (some (.vstr (printVal 2 0 (.arr (JsonList.ofList
        (parseDedupeHistory (histFieldOf S.record.fields) ++
          [historyEntryToJson
            (buildMergePayload S toMerge fds schema options mergeId ts).historyEntry]))))))).map
      Prod.fst).Nodup := by
    apply alSet_keys_nodup
    have hstep : ∀ (b : List (Str × Option Value)) (a : Str × FieldResolution),
        ((b.map Prod.fst).Nodup) →
        ((((if !a.2.include' then b
            else if a.1 ∈ schema.computedFields then b
            else if a.1 ∈ DEFAULT_RESOLUTION_CONFIG.excludeFields then b
            else alSet b a.1 a.2.value) : List (Str × Option Value)).map Prod.fst).Nodup) := by
      intro b a hb
      repeat' split
      all_goals first
        | exact hb
        | exact alSet_keys_nodup _ _ _ hb
    exact foldl_preserve (fun l => (l.map Prod.fst).Nodup) _ hstep fds [] (by simp)
  have halget := alGet_applyUpdateFields_of_mem _ S.record.fields (str "dedupe_history")
    (.vstr (printVal 2 0 (.arr (JsonList.ofList
      (parseDedupeHistory (histFieldOf S.record.fields) ++
        [historyEntryToJson
          (buildMergePayload S toMerge fds schema options mergeId ts).historyEntry])))))
    hnodup (alSet_mem_self _ _ _)
  conv_lhs => rw [histFieldOf.eq_def]
  simp only [halget]

/-- Claim C3: merging record M into survivor S and then unmerging with that
    merge's id succeeds, recreates M's non-computed fields exactly (as their
    JSON snapshots), and leaves the survivor's history equal to the prior
    history plus the unmodified merge entry plus a new unmerge entry whose
    original merge id references the merge being undone. -/
theorem C3_merge_unmerge_roundtrip (S M : REntry)
    (fieldDecisions : List (Str × FieldResolution)) (schema : MSchema)
    (options : MergeOptions) (mergeId ts freshId ts2 : Str)
    (hfresh : findMergeEvent mergeId
      (parseDedupeHistory (histFieldOf S.record.fields)) = Except.ok none) :
    ∃ u : UnmergePayload,
      buildUnmergePayload
        ⟨S.record.id, applyUpdateFields S.record.fields
          (buildMergePayload S [M] fieldDecisions schema options mergeId ts).updateFields⟩
        mergeId schema freshId ts2 = Except.ok u ∧
      (∃ rr : RecreateRecord, u.recordsToCreate = [rr] ∧
        rr.fields = (M.record.fields.filter
          (fun kv => kv.1 ∉ schema.computedFields)).map
          (fun kv => (kv.1, valueToJson kv.2)) ∧
        rr.originalId = some (.jstr M.record.id)) ∧
      (∃ s : Str, u.survivorUpdates = [(str "dedupe_history", Value.vstr s)] ∧
        parseDedupeHistory (some s) =
          parseDedupeHistory (histFieldOf S.record.fields) ++
            [historyEntryToJson
              (buildMergePayload S [M] fieldDecisions schema options mergeId ts).historyEntry,
             unmergeEntryToJson u.unmergeHistoryEntry]) ∧
      u.unmergeHistoryEntry.original_merge_id = mergeId ∧
      u.unmergeHistoryEntry.action = str "unmerge" ∧
      (buildMergePayload S [M] fieldDecisions schema options mergeId ts).historyEntry.action =
        str "merge" := by
  have hok := buildUnmergePayload_ok
    ⟨S.record.id, applyUpdateFields S.record.fields
      (buildMergePayload S [M] fieldDecisions schema options mergeId ts).updateFields⟩
    mergeId schema freshId ts2
    (parseDedupeHistory (histFieldOf S.record.fields))
    (buildMergePayload S [M] fieldDecisions schema options mergeId ts).historyEntry
    (mergePayload_history_written S [M] fieldDecisions schema options mergeId ts)
    rfl hfresh
  refine ⟨_, hok, ?_, ?_, rfl, rfl, rfl⟩
  · refine ⟨_, rfl, ?_, rfl⟩
    exact filter_map_fst valueToJson (fun a => decide (a ∉ schema.computedFields))
      M.record.fields
  · refine ⟨_, rfl, ?_⟩
    rw [parseDedupeHistory_printed, List.append_assoc]
    rfl

theorem C3_witness :
    ∃ u : UnmergePayload,
      buildUnmergePayload
        ⟨str "s1", applyUpdateFields [(str "Name", Value.vstr (str "A"))]
          (buildMergePayload ⟨⟨str "s1", [(str "Name", Value.vstr (str "A"))]⟩, str "A"⟩
            [⟨⟨str "m1", [(str "Email", Value.vstr (str "xy"))]⟩, str "B"⟩]
            [] ⟨[], []⟩ ⟨none, [], none, none⟩ (str "mrg_1") (str "T1")).updateFields⟩
        (str "mrg_1") ⟨[], []⟩ (str "mrg_2") (str "T2") = Except.ok u ∧
      (∃ rr : RecreateRecord, u.recordsToCreate = [rr] ∧
        rr.fields = ([(str "Email", Value.vstr (str "xy"))].filter
          (fun kv => kv.1 ∉ (⟨[], []⟩ : MSchema).computedFields)).map
          (fun kv => (kv.1, valueToJson kv.2)) ∧
        rr.originalId = some (.jstr (str "m1"))) ∧
      (∃ s : Str, u.survivorUpdates = [(str "dedupe_history", Value.vstr s)] ∧
        parseDedupeHistory (some s) =
          parseDedupeHistory (histFieldOf [(str "Name", Value.vstr (str "A"))]) ++
            [historyEntryToJson
              (buildMergePayload ⟨⟨str "s1", [(str "Name", Value.vstr (str "A"))]⟩, str "A"⟩
                [⟨⟨str "m1", [(str "Email", Value.vstr (str "xy"))]⟩, str "B"⟩]
                [] ⟨[], []⟩ ⟨none, [], none, none⟩ (str "mrg_1") (str "T1")).historyEntry,
             unmergeEntryToJson u.unmergeHistoryEntry]) ∧
      u.unmergeHistoryEntry.original_merge_id = str "mrg_1" ∧
      u.unmergeHistoryEntry.action = str "unmerge" ∧
      (buildMergePayload ⟨⟨str "s1", [(str "Name", Value.vstr (str "A"))]⟩, str "A"⟩
        [⟨⟨str "m1", [(str "Email", Value.vstr (str "xy"))]⟩, str "B"⟩]
        [] ⟨[], []⟩ ⟨none, [], none, none⟩ (str "mrg_1") (str "T1")).historyEntry.action =
        str "merge" :=
  C3_merge_unmerge_roundtrip
    ⟨⟨str "s1", [(str "Name", Value.vstr (str "A"))]⟩, str "A"⟩
    ⟨⟨str "m1", [(str "Email", Value.vstr (str "xy"))]⟩, str "B"⟩
    [] ⟨[], []⟩ ⟨none, [], none, none⟩ (str "mrg_1") (str "T1") (str "mrg_2") (str "T2")
    (by rfl)

theorem alGet_append [DecidableEq κ] (l1 l2 : List (κ × ν)) (k : κ) :
    alGet (l1 ++ l2) k =
      (match alGet l1 k with
       | some v => some v
       | none => alGet l2 k) := by
  induction l1 with
  | nil => rfl
  | cons p t ih =>
    obtain ⟨a, b⟩ := p
    by_cases h : k = a
    · rw [List.cons_append, alGet, if_pos h, alGet, if_pos h]
    · rw [List.cons_append, alGet, if_neg h, alGet, if_neg h, ih]

theorem alGet_mem [DecidableEq κ] : ∀ (l : List (κ × ν)) (k : κ) (v : ν),
    alGet l k = some v → (k, v) ∈ l := by
  intro l
  induction l with
  | nil =>
    intro k v h
    exact absurd h (by simp [alGet])
  | cons p t ih =>
    intro k v h
    obtain ⟨a, b⟩ := p
    rw [alGet] at h
    by_cases hk : k = a
    · rw [if_pos hk] at h
      subst hk
      injection h with h
      simp [h]
    · rw [if_neg hk] at h
      exact List.mem_cons_of_mem _ (ih k v h)

theorem alSet_mem_sub [DecidableEq κ] : ∀ (l : List (κ × ν)) (k : κ) (v : ν) (p : κ × ν),
    p ∈ alSet l k v → p ∈ l ∨ p = (k, v) := by
  intro l
  induction l with
  | nil =>
    intro k v p hp
    simp [alSet] at hp
    exact Or.inr hp
  | cons q t ih =>
    intro k v p hp
    obtain ⟨a, b⟩ := q
    by_cases hk : k = a
    · subst hk
      rw [show alSet ((k, b) :: t) k v = (k, v) :: t from by rw [alSet, if_pos rfl]] at hp
      rcases List.mem_cons.mp hp with hp | hp
      · exact Or.inr hp
      · exact Or.inl (List.mem_cons_of_mem _ hp)
    · rw [show alSet ((a, b) :: t) k v = (a, b) :: alSet t k v from by
        rw [alSet, if_neg hk]] at hp
      rcases List.mem_cons.mp hp with hp | hp
      · exact Or.inl (by simp [hp])
      · rcases ih k v p hp with hp | hp
        · exact Or.inl (List.mem_cons_of_mem _ hp)
        · exact Or.inr hp

theorem alGet_alSet_isSome [DecidableEq κ] (l : List (κ × ν)) (k k' : κ) (v : ν) :
    (alGet (alSet l k v) k').isSome = true →
      (alGet l k').isSome = true ∨ k' = k := by
  intro h
  by_cases hk : k' = k
  · exact Or.inr hk
  · rw [alGet_alSet_ne l k k' v hk] at h
    exact Or.inl h

theorem foldl_alSet_not_mem [DecidableEq κ] {α : Type _} (f : α → κ) (ks : ν) :
    ∀ (l : List α) (m0 : List (κ × ν)) (x : κ), x ∉ l.map f →
      alGet (l.foldl (fun m r => alSet m (f r) ks) m0) x = alGet m0 x := by
  intro l
  induction l with
  | nil => intro m0 x _; rfl
  | cons r t ih =>
    intro m0 x hx
    simp only [List.map_cons, List.mem_cons, not_or] at hx
    rw [List.foldl_cons, ih _ x hx.2, alGet_alSet_ne _ _ _ _ hx.1]

theorem foldl_alSet_mem [DecidableEq κ] {α : Type _} (f : α → κ) (ks : ν) :
    ∀ (l : List α) (m0 : List (κ × ν)) (x : κ), x ∈ l.map f →
      alGet (l.foldl (fun m r => alSet m (f r) ks) m0) x = some ks := by
  intro l
  induction l with
  | nil =>
    intro m0 x hx
    simp at hx
  | cons r t ih =>
    intro m0 x hx
    rw [List.foldl_cons]
    by_cases ht : x ∈ t.map f
    · exact ih _ x ht
    · rcases List.mem_cons.mp hx with hx | hx
      · rw [foldl_alSet_not_mem f ks t _ x ht, hx, alGet_alSet_self]
      · exact absurd hx ht

theorem foldl_alSet_values [DecidableEq κ] {α : Type _} (f : α → κ) (ks : ν) :
    ∀ (l : List α) (m0 : List (κ × ν)) (x : κ) (k : ν),
      alGet (l.foldl (fun m r => alSet m (f r) ks) m0) x = some k →
      k = ks ∨ alGet m0 x = some k := by
  intro l m0 x k h
  by_cases hx : x ∈ l.map f
  · rw [foldl_alSet_mem f ks l m0 x hx] at h
    exact Or.inl (Option.some.inj h).symm
  · rw [foldl_alSet_not_mem f ks l m0 x hx] at h
    exact Or.inr h

theorem pushIfNewId_ids (acc : List RecEntry) (r : RecEntry) (y : Str) :
    y ∈ (pushIfNewId acc r).map (fun s => s.record.id) ↔
      y ∈ acc.map (fun s => s.record.id) ∨ y = r.record.id := by
  rw [pushIfNewId]
  split
  · rename_i h
    simp only [List.any_eq_true, decide_eq_true_eq] at h
    obtain ⟨sr, hsr, hid⟩ := h
    constructor
    · exact Or.inl
    · rintro (hy | hy)
      · exact hy
      · rw [hy, ← hid]
        exact List.mem_map_of_mem _ hsr
  · simp

theorem foldl_pushIfNewId_ids : ∀ (l acc : List RecEntry) (y : Str),
    (y ∈ (l.foldl pushIfNewId acc).map (fun s => s.record.id) ↔
      y ∈ acc.map (fun s => s.record.id) ∨ y ∈ l.map (fun s => s.record.id)) := by
  intro l
  induction l with
  | nil =>
    intro acc y
    simp
  | cons r t ih =>
    intro acc y
    rw [List.foldl_cons, ih, pushIfNewId_ids]
    simp only [List.map_cons, List.mem_cons]
    tauto

theorem pushIfNewId_ne_nil (acc : List RecEntry) (r : RecEntry) (h : acc ≠ []) :
    pushIfNewId acc r ≠ [] := by
  rw [pushIfNewId]
  split
  · exact h
  · simp

theorem dedupRecords_ne_nil (rs : List RecEntry) (h : rs ≠ []) : dedupRecords rs ≠ [] := by
  cases rs with
  | nil => exact absurd rfl h
  | cons r t =>
    rw [dedupRecords, List.foldl_cons, show pushIfNewId [] r = [r] from rfl]
    exact foldl_preserve (fun l => l ≠ []) _ (fun b a hb => pushIfNewId_ne_nil b a hb)
      t [r] (by simp)

theorem conn_mono (cs l : List Candidate) (x y : Str) (h : Conn cs x y) :
    Conn (cs ++ l) x y := by
  induction h with
  | edge hc hl => exact Conn.edge (List.mem_append_left _ hc) hl
  | trans h1 h2 ih1 ih2 => exact Conn.trans ih1 ih2

theorem conn_symm (cs : List Candidate) (x y : Str) (h : Conn cs x y) : Conn cs y x := by
  induction h with
  | edge hc hl =>
    refine Conn.edge hc ?_
    rcases hl with ⟨h1, h2⟩ | ⟨h1, h2⟩
    · exact Or.inr ⟨h1, h2⟩
    · exact Or.inl ⟨h1, h2⟩
  | trans h1 h2 ih1 ih2 => exact Conn.trans ih2 ih1

theorem conn_nil (x y : Str) : ¬ Conn [] x y := by
  intro h
  induction h with
  | edge hc _ => simp at hc
  | trans _ _ ih1 _ => exact ih1

theorem connEq_trans (cs : List Candidate) (x y z : Str)
    (h1 : Conn cs x y ∨ x = y) (h2 : Conn cs y z ∨ y = z) :
    Conn cs x z ∨ x = z := by
  rcases h1 with h1 | h1
  · rcases h2 with h2 | h2
    · exact Or.inl (Conn.trans h1 h2)
    · subst h2
      exact Or.inl h1
  · subst h1
    exact h2

theorem alGet_alSet2 [DecidableEq κ] (m : List (κ × ν)) (a b : κ) (v : ν) (z : κ) :
    alGet (alSet (alSet m a v) b v) z =
      if z = b then some v else if z = a then some v else alGet m z := by
  by_cases hzb : z = b
  · subst hzb
    rw [alGet_alSet_self, if_pos rfl]
  · rw [alGet_alSet_ne _ _ _ _ hzb, if_neg hzb]
    by_cases hza : z = a
    · subst hza
      rw [alGet_alSet_self, if_pos rfl]
    · rw [alGet_alSet_ne _ _ _ _ hza, if_neg hza]

theorem GInv_nil : GInv ⟨[], [], [], 0⟩ [] := by
  refine ⟨?_, ?_, ?_, ?_, ?_, ?_, ?_, ?_, ?_⟩
  · intro x k hx
    exact absurd hx (by simp [alGet])
  · intro k g hk _
    simp at hk
  · intro x y k hx _
    exact absurd hx (by simp [alGet])
  · intro x y hconn
    exact absurd hconn (conn_nil x y)
  · exact List.nodup_nil
  · intro k hk
    simp at hk
  · intro k hk
    simp [alGet] at hk
  · intro x k hx
    exact absurd hx (by simp [alGet])
  · intro k g hg
    exact absurd hg (by simp [alGet])

/-- Unfolded form of the grouping invariant on explicit state components. -/
theorem GInv_def (store : List (Nat × MGroup)) (live : List Nat)
    (memb : List (Str × Nat)) (nextKey : Nat) (cs : List Candidate) :
    GInv ⟨store, live, memb, nextKey⟩ cs ↔
      ((∀ x k, alGet memb x = some k →
        k ∈ live ∧ ∃ g, alGet store k = some g ∧ x ∈ groupIds g) ∧
       (∀ k g, k ∈ live → alGet store k = some g →
        ∀ x, x ∈ groupIds g → alGet memb x = some k) ∧
       (∀ x y k, alGet memb x = some k → alGet memb y = some k →
        Conn cs x y ∨ x = y) ∧
       (∀ x y, Conn cs x y → ∃ k, alGet memb x = some k ∧ alGet memb y = some k) ∧
       live.Nodup ∧
       (∀ k, k ∈ live → k < nextKey) ∧
       (∀ k, (alGet store k).isSome = true → k < nextKey) ∧
       (∀ x k, alGet memb x = some k → k < nextKey) ∧
       (∀ k g, alGet store k = some g → g.records ≠ [])) := Iff.rfl

theorem GInv_step_NN (store : List (Nat × MGroup)) (live : List Nat)
    (memb : List (Str × Nat)) (nextKey : Nat) (cs : List Candidate) (c : Candidate)
    (hS : alGet memb c.survivor.record.id = none)
    (hM : alGet memb c.merged.record.id = none)
    (h : GInv ⟨store, live, memb, nextKey⟩ cs) :
    GInv ⟨store ++ [(nextKey,
        { gid := str "group_" ++ natToStr live.length,
          records := [c.survivor, c.merged], matchList := [c],
          bestTier := c.tier, highestConfidence := c.confidence })],
      live ++ [nextKey],
      alSet (alSet memb c.survivor.record.id nextKey) c.merged.record.id nextKey,
      nextKey + 1⟩ (cs ++ [c]) := by
  rw [GInv_def] at h
  obtain ⟨I1, I2, I3, I4, I5, I6, I7, I8, I9⟩ := h
  have hmemb : ∀ (z : Str) (k : Nat),
      alGet (alSet (alSet memb c.survivor.record.id nextKey)
        c.merged.record.id nextKey) z = some k →
      ((z = c.merged.record.id ∨ z = c.survivor.record.id) ∧ k = nextKey) ∨
      (z ≠ c.merged.record.id ∧ z ≠ c.survivor.record.id ∧ alGet memb z = some k) := by
    intro z k hz
    rw [alGet_alSet2] at hz
    by_cases hzm : z = c.merged.record.id
    · rw [if_pos hzm] at hz
      exact Or.inl ⟨Or.inl hzm, (Option.some.inj hz).symm⟩
    · rw [if_neg hzm] at hz
      by_cases hzs : z = c.survivor.record.id
      · rw [if_pos hzs] at hz
        exact Or.inl ⟨Or.inr hzs, (Option.some.inj hz).symm⟩
      · rw [if_neg hzs] at hz
        exact Or.inr ⟨hzm, hzs, hz⟩
  have hmembN : ∀ z, (z = c.merged.record.id ∨ z = c.survivor.record.id) →
      alGet (alSet (alSet memb c.survivor.record.id nextKey)
        c.merged.record.id nextKey) z = some nextKey := by
    intro z hz
    rw [alGet_alSet2]
    by_cases hzm : z = c.merged.record.id
    · rw [if_pos hzm]
    · rw [if_neg hzm]
      rcases hz with hz | hz
      · exact absurd hz hzm
      · rw [if_pos hz]
  have hmembO : ∀ z, z ≠ c.merged.record.id → z ≠ c.survivor.record.id →
      alGet (alSet (alSet memb c.survivor.record.id nextKey)
        c.merged.record.id nextKey) z = alGet memb z := by
    intro z h1 h2
    rw [alGet_alSet2, if_neg h1, if_neg h2]
  have hsnone : alGet store nextKey = none := by
    rcases hsk : alGet store nextKey with _ | g0
    · rfl
    · exact absurd (I7 nextKey (by rw [hsk]; rfl)) (by omega)
  have hstoreNew : ∀ gn : MGroup, alGet (store ++ [(nextKey, gn)]) nextKey = some gn := by
    intro gn
    rw [alGet_append, hsnone]
    simp only []
    rw [alGet, if_pos rfl]
  have hstoreOld : ∀ (gn : MGroup) (k : Nat), k ≠ nextKey →
      alGet (store ++ [(nextKey, gn)]) k = alGet store k := by
    intro gn k hk
    rw [alGet_append]
    rcases hsk : alGet store k with _ | g0
    · simp only []
      rw [alGet, if_neg hk]
      rfl
    · rfl
  rw [GInv_def]
  refine ⟨?_, ?_, ?_, ?_, ?_, ?_, ?_, ?_, ?_⟩
  · -- consistency of membership entries
    intro x k hx
    rcases hmemb x k hx with ⟨hxv, rfl⟩ | ⟨h1, h2, h3⟩
    · refine ⟨by simp, ?_⟩
      refine ⟨_, hstoreNew _, ?_⟩
      rcases hxv with hxv | hxv
      · simp [groupIds, hxv]
      · simp [groupIds, hxv]
    · obtain ⟨hk, g, hg, hxg⟩ := I1 x k h3
      have hkne : k ≠ nextKey := by
        have := I6 k hk
        omega
      exact ⟨by simp [hk], g, by rw [hstoreOld _ k hkne]; exact hg, hxg⟩
  · -- members of every live group map back to its key
    intro k g hk hg x hxg
    rcases List.mem_append.mp hk with hk | hk
    · have hkne : k ≠ nextKey := by
        have := I6 k hk
        omega
      rw [hstoreOld _ k hkne] at hg
      have hx := I2 k g hk hg x hxg
      have hxm : x ≠ c.merged.record.id := by
        intro he
        rw [he, hM] at hx
        exact absurd hx (by simp)
      have hxs : x ≠ c.survivor.record.id := by
        intro he
        rw [he, hS] at hx
        exact absurd hx (by simp)
      rw [hmembO x hxm hxs]
      exact hx
    · have hk : k = nextKey := by simpa using hk
      subst hk
      rw [hstoreNew] at hg
      injection hg with hg
      rw [← hg] at hxg
      have hx2 : x = c.survivor.record.id ∨ x = c.merged.record.id := by
        simpa [groupIds] using hxg
      exact hmembN x hx2.symm
  · -- shared key implies connection
    intro x y k hx hy
    rcases hmemb x k hx with ⟨hxv, hke⟩ | ⟨hx1, hx2, hx3⟩
    · rcases hmemb y k hy with ⟨hyv, _⟩ | ⟨hy1, hy2, hy3⟩
      · rcases hxv with hxv | hxv <;> rcases hyv with hyv | hyv
        · exact Or.inr (hxv.trans hyv.symm)
        · exact Or.inl (@Conn.edge (cs ++ [c]) c x y
            (List.mem_append_right _ (by simp)) (Or.inr ⟨hyv.symm, hxv.symm⟩))
        · exact Or.inl (@Conn.edge (cs ++ [c]) c x y
            (List.mem_append_right _ (by simp)) (Or.inl ⟨hxv.symm, hyv.symm⟩))
        · exact Or.inr (hxv.trans hyv.symm)
      · exact absurd (I8 y nextKey (hke ▸ hy3)) (by omega)
    · rcases hmemb y k hy with ⟨hyv, hke⟩ | ⟨hy1, hy2, hy3⟩
      · exact absurd (I8 x nextKey (hke ▸ hx3)) (by omega)
      · rcases I3 x y k hx3 hy3 with hc | hc
        · exact Or.inl (conn_mono cs [c] x y hc)
        · exact Or.inr hc
  · -- connection implies shared key
    intro x y hconn
    induction hconn with
    | edge hc hl =>
      rename_i c' x' y'
      rcases List.mem_append.mp hc with hc | hc
      · obtain ⟨k, hx, hy⟩ := I4 x' y' (Conn.edge hc hl)
        have hxm : x' ≠ c.merged.record.id := by
          intro he
          rw [he, hM] at hx
          exact absurd hx (by simp)
        have hxs : x' ≠ c.survivor.record.id := by
          intro he
          rw [he, hS] at hx
          exact absurd hx (by simp)
        have hym : y' ≠ c.merged.record.id := by
          intro he
          rw [he, hM] at hy
          exact absurd hy (by simp)
        have hys : y' ≠ c.survivor.record.id := by
          intro he
          rw [he, hS] at hy
          exact absurd hy (by simp)
        refine ⟨k, ?_, ?_⟩
        · rw [hmembO x' hxm hxs]
          exact hx
        · rw [hmembO y' hym hys]
          exact hy
      · have hcc : c' = c := by simpa using hc
        subst hcc
        rcases hl with ⟨h1, h2⟩ | ⟨h1, h2⟩
        · exact ⟨nextKey, hmembN x' (Or.inr h1.symm), hmembN y' (Or.inl h2.symm)⟩
        · exact ⟨nextKey, hmembN x' (Or.inl h2.symm), hmembN y' (Or.inr h1.symm)⟩
    | trans h1 h2 ih1 ih2 =>
      obtain ⟨k1, hx1, hy1⟩ := ih1
      obtain ⟨k2, hy2, hz2⟩ := ih2
      rw [hy1] at hy2
      injection hy2 with hy2
      subst hy2
      exact ⟨k1, hx1, hz2⟩
  · -- live keys distinct
    simp only [List.nodup_append, List.nodup_cons, List.nodup_nil]
    refine ⟨I5, by simp, ?_⟩
    intro a ha hb
    have := I6 a ha
    simp at hb
    omega
  · -- live keys bounded
    intro k hk
    rcases List.mem_append.mp hk with hk | hk
    · have := I6 k hk
      omega
    · have hke : k = nextKey := by simpa using hk
      omega
  · -- store keys bounded
    intro k hk
    rw [alGet_append] at hk
    rcases hsk : alGet store k with _ | g0
    · rw [hsk] at hk
      simp only [] at hk
      by_cases hke : k = nextKey
      · omega
      · rw [alGet, if_neg hke] at hk
        exact absurd hk (by simp [alGet])
    · rw [hsk] at hk
      have := I7 k (by rw [hsk]; rfl)
      omega
  · -- membership values bounded
    intro x k hx
    rcases hmemb x k hx with ⟨_, hke⟩ | ⟨_, _, h3⟩
    · omega
    · have := I8 x k h3
      omega
  · -- stored groups non-empty
    intro k g hg
    by_cases hke : k = nextKey
    · subst hke
      rw [hstoreNew] at hg
      injection hg with hg
      rw [← hg]
      simp
    · rw [hstoreOld _ k hke] at hg
      exact I9 k g hg

theorem GInv_step_SN (store : List (Nat × MGroup)) (live : List Nat)
    (memb : List (Str × Nat)) (nextKey : Nat) (cs : List Candidate) (c : Candidate)
    (ks : Nat) (g : MGroup)
    (hS : alGet memb c.survivor.record.id = some ks)
    (hM : alGet memb c.merged.record.id = none)
    (hg : alGet store ks = some g)
    (h : GInv ⟨store, live, memb, nextKey⟩ cs) :
    GInv ⟨alSet store ks { g with records := g.records ++ [c.merged], matchList := g.matchList ++ [c], highestConfidence := max g.highestConfidence c.confidence, bestTier := if c.tier.tier < g.bestTier.tier then c.tier else g.bestTier },
      live,
      alSet memb c.merged.record.id ks,
      nextKey⟩ (cs ++ [c]) := by
  rw [GInv_def] at h
  obtain ⟨I1, I2, I3, I4, I5, I6, I7, I8, I9⟩ := h
  have hsm : c.survivor.record.id ≠ c.merged.record.id := by
    intro he
    rw [he, hM] at hS
    exact absurd hS (by simp)
  have hmemb : ∀ (z : Str) (k : Nat),
      alGet (alSet memb c.merged.record.id ks) z = some k →
      (z = c.merged.record.id ∧ k = ks) ∨
      (z ≠ c.merged.record.id ∧ alGet memb z = some k) := by
    intro z k hz
    by_cases hzm : z = c.merged.record.id
    · rw [hzm, alGet_alSet_self] at hz
      exact Or.inl ⟨hzm, (Option.some.inj hz).symm⟩
    · rw [alGet_alSet_ne _ _ _ _ hzm] at hz
      exact Or.inr ⟨hzm, hz⟩
  have hmembO : ∀ z, z ≠ c.merged.record.id →
      alGet (alSet memb c.merged.record.id ks) z = alGet memb z := by
    intro z h1
    rw [alGet_alSet_ne _ _ _ _ h1]
  obtain ⟨hksl, g0, hg0, hsidg⟩ := I1 c.survivor.record.id ks hS
  rw [hg] at hg0
  injection hg0 with hg0
  rw [← hg0] at hsidg
  refine ⟨?_, ?_, ?_, ?_, I5, I6, ?_, ?_, ?_⟩
  · intro x k hx
    rcases hmemb x k hx with ⟨hxm, rfl⟩ | ⟨hxm, hxo⟩
    · refine ⟨hksl, _, alGet_alSet_self _ _ _, ?_⟩
      simp [groupIds, hxm]
    · obtain ⟨hk, g2, hg2, hxg2⟩ := I1 x k hxo
      by_cases hke : k = ks
      · subst hke
        rw [hg] at hg2
        injection hg2 with hg2
        subst hg2
        refine ⟨hk, _, alGet_alSet_self _ _ _, ?_⟩
        simp only [groupIds, List.map_append]
        exact List.mem_append_left _ hxg2
      · exact ⟨hk, g2, by rw [alGet_alSet_ne _ _ _ _ hke]; exact hg2, hxg2⟩
  · intro k g2 hk hg2 x hxg2
    by_cases hke : k = ks
    · subst hke
      rw [alGet_alSet_self] at hg2
      injection hg2 with hg2
      rw [← hg2] at hxg2
      simp only [groupIds, List.map_append] at hxg2
      rcases List.mem_append.mp hxg2 with hx | hx
      · have hmx := I2 k g hk hg x hx
        have hxm : x ≠ c.merged.record.id := by
          intro he
          rw [he, hM] at hmx
          exact absurd hmx (by simp)
        rw [hmembO x hxm]
        exact hmx
      · have hxm : x = c.merged.record.id := by simpa [groupIds] using hx
        rw [hxm, alGet_alSet_self]
    · rw [alGet_alSet_ne _ _ _ _ hke] at hg2
      have hmx := I2 k g2 hk hg2 x hxg2
      have hxm : x ≠ c.merged.record.id := by
        intro he
        rw [he, hM] at hmx
        exact absurd hmx (by simp)
      rw [hmembO x hxm]
      exact hmx
  · intro x y k hx hy
    have hedge : Conn (cs ++ [c]) c.merged.record.id c.survivor.record.id :=
      @Conn.edge (cs ++ [c]) c _ _ (List.mem_append_right _ (by simp))
        (Or.inr ⟨rfl, rfl⟩)
    rcases hmemb x k hx with ⟨hxm, hke⟩ | ⟨hxm, hxo⟩
    · rcases hmemb y k hy with ⟨hym, _⟩ | ⟨hym, hyo⟩
      · exact Or.inr (hxm.trans hym.symm)
      · have hyks : alGet memb y = some ks := hke ▸ hyo
        have hsy := I3 c.survivor.record.id y ks hS hyks
        refine connEq_trans _ _ _ _ (Or.inl (hxm ▸ hedge)) ?_
        rcases hsy with hsy | hsy
        · exact Or.inl (conn_mono cs [c] _ _ hsy)
        · exact Or.inr hsy
    · rcases hmemb y k hy with ⟨hym, hke⟩ | ⟨hym, hyo⟩
      · have hxks : alGet memb x = some ks := hke ▸ hxo
        have hsx := I3 c.survivor.record.id x ks hS hxks
        refine connEq_trans _ _ _ _ ?_ (Or.inl (hym ▸ (conn_symm _ _ _ hedge)))
        rcases hsx with hsx | hsx
        · exact Or.inl (conn_symm _ _ _ (conn_mono cs [c] _ _ hsx))
        · exact Or.inr hsx.symm
      · rcases I3 x y k hxo hyo with hc | hc
        · exact Or.inl (conn_mono cs [c] x y hc)
        · exact Or.inr hc
  · intro x y hconn
    induction hconn with
    | edge hc hl =>
      rename_i c' x' y'
      rcases List.mem_append.mp hc with hc | hc
      · obtain ⟨k, hx, hy⟩ := I4 x' y' (Conn.edge hc hl)
        have hxm : x' ≠ c.merged.record.id := by
          intro he
          rw [he, hM] at hx
          exact absurd hx (by simp)
        have hym : y' ≠ c.merged.record.id := by
          intro he
          rw [he, hM] at hy
          exact absurd hy (by simp)
        exact ⟨k, by rw [hmembO x' hxm]; exact hx, by rw [hmembO y' hym]; exact hy⟩
      · have hcc : c' = c := by simpa using hc
        subst hcc
        rcases hl with ⟨h1, h2⟩ | ⟨h1, h2⟩
        · refine ⟨ks, ?_, ?_⟩
          · rw [← h1, hmembO _ hsm]
            exact hS
          · rw [← h2, alGet_alSet_self]
        · refine ⟨ks, ?_, ?_⟩
          · rw [← h2, alGet_alSet_self]
          · rw [← h1, hmembO _ hsm]
            exact hS
    | trans h1 h2 ih1 ih2 =>
      obtain ⟨k1, hx1, hy1⟩ := ih1
      obtain ⟨k2, hy2, hz2⟩ := ih2
      rw [hy1] at hy2
      injection hy2 with hy2
      subst hy2
      exact ⟨k1, hx1, hz2⟩
  · intro k hk
    rcases alGet_alSet_isSome _ _ _ _ hk with hk | hk
    · exact I7 k hk
    · subst hk
      exact I7 k (by rw [hg]; rfl)
  · intro x k hx
    rcases hmemb x k hx with ⟨_, hke⟩ | ⟨_, hxo⟩
    · subst hke
      exact I8 _ _ hS
    · exact I8 x k hxo
  · intro k g2 hg2
    by_cases hke : k = ks
    · subst hke
      rw [alGet_alSet_self] at hg2
      injection hg2 with hg2
      rw [← hg2]
      simp
    · rw [alGet_alSet_ne _ _ _ _ hke] at hg2
      exact I9 k g2 hg2

theorem GInv_step_NS (store : List (Nat × MGroup)) (live : List Nat)
    (memb : List (Str × Nat)) (nextKey : Nat) (cs : List Candidate) (c : Candidate)
    (km : Nat) (g : MGroup)
    (hS : alGet memb c.survivor.record.id = none)
    (hM : alGet memb c.merged.record.id = some km)
    (hg : alGet store km = some g)
    (h : GInv ⟨store, live, memb, nextKey⟩ cs) :
    GInv ⟨alSet store km { g with records := g.records ++ [c.survivor], matchList := g.matchList ++ [c], highestConfidence := max g.highestConfidence c.confidence, bestTier := if c.tier.tier < g.bestTier.tier then c.tier else g.bestTier },
      live,
      alSet memb c.survivor.record.id km,
      nextKey⟩ (cs ++ [c]) := by
  rw [GInv_def] at h
  obtain ⟨I1, I2, I3, I4, I5, I6, I7, I8, I9⟩ := h
  have hsm : c.merged.record.id ≠ c.survivor.record.id := by
    intro he
    rw [he, hS] at hM
    exact absurd hM (by simp)
  have hmemb : ∀ (z : Str) (k : Nat),
      alGet (alSet memb c.survivor.record.id km) z = some k →
      (z = c.survivor.record.id ∧ k = km) ∨
      (z ≠ c.survivor.record.id ∧ alGet memb z = some k) := by
    intro z k hz
    by_cases hzm : z = c.survivor.record.id
    · rw [hzm, alGet_alSet_self] at hz
      exact Or.inl ⟨hzm, (Option.some.inj hz).symm⟩
    · rw [alGet_alSet_ne _ _ _ _ hzm] at hz
      exact Or.inr ⟨hzm, hz⟩
  have hmembO : ∀ z, z ≠ c.survivor.record.id →
      alGet (alSet memb c.survivor.record.id km) z = alGet memb z := by
    intro z h1
    rw [alGet_alSet_ne _ _ _ _ h1]
  obtain ⟨hkml, g0, hg0, hmidg⟩ := I1 c.merged.record.id km hM
  rw [hg] at hg0
  injection hg0 with hg0
  rw [← hg0] at hmidg
  refine ⟨?_, ?_, ?_, ?_, I5, I6, ?_, ?_, ?_⟩
  · intro x k hx
    rcases hmemb x k hx with ⟨hxm, rfl⟩ | ⟨hxm, hxo⟩
    · refine ⟨hkml, _, alGet_alSet_self _ _ _, ?_⟩
      simp [groupIds, hxm]
    · obtain ⟨hk, g2, hg2, hxg2⟩ := I1 x k hxo
      by_cases hke : k = km
      · subst hke
        rw [hg] at hg2
        injection hg2 with hg2
        subst hg2
        refine ⟨hk, _, alGet_alSet_self _ _ _, ?_⟩
        simp only [groupIds, List.map_append]
        exact List.mem_append_left _ hxg2
      · exact ⟨hk, g2, by rw [alGet_alSet_ne _ _ _ _ hke]; exact hg2, hxg2⟩
  · intro k g2 hk hg2 x hxg2
    by_cases hke : k = km
    · subst hke
      rw [alGet_alSet_self] at hg2
      injection hg2 with hg2
      rw [← hg2] at hxg2
      simp only [groupIds, List.map_append] at hxg2
      rcases List.mem_append.mp hxg2 with hx | hx
      · have hmx := I2 k g hk hg x hx
        have hxm : x ≠ c.survivor.record.id := by
          intro he
          rw [he, hS] at hmx
          exact absurd hmx (by simp)
        rw [hmembO x hxm]
        exact hmx
      · have hxm : x = c.survivor.record.id := by simpa [groupIds] using hx
        rw [hxm, alGet_alSet_self]
    · rw [alGet_alSet_ne _ _ _ _ hke] at hg2
      have hmx := I2 k g2 hk hg2 x hxg2
      have hxm : x ≠ c.survivor.record.id := by
        intro he
        rw [he, hS] at hmx
        exact absurd hmx (by simp)
      rw [hmembO x hxm]
      exact hmx
  · intro x y k hx hy
    have hedge : Conn (cs ++ [c]) c.survivor.record.id c.merged.record.id :=
      @Conn.edge (cs ++ [c]) c _ _ (List.mem_append_right _ (by simp))
        (Or.inl ⟨rfl, rfl⟩)
    rcases hmemb x k hx with ⟨hxm, hke⟩ | ⟨hxm, hxo⟩
    · rcases hmemb y k hy with ⟨hym, _⟩ | ⟨hym, hyo⟩
      · exact Or.inr (hxm.trans hym.symm)
      · have hyks : alGet memb y = some km := hke ▸ hyo
        have hsy := I3 c.merged.record.id y km hM hyks
        refine connEq_trans _ _ _ _ (Or.inl (hxm ▸ hedge)) ?_
        rcases hsy with hsy | hsy
        · exact Or.inl (conn_mono cs [c] _ _ hsy)
        · exact Or.inr hsy
    · rcases hmemb y k hy with ⟨hym, hke⟩ | ⟨hym, hyo⟩
      · have hxks : alGet memb x = some km := hke ▸ hxo
        have hsx := I3 c.merged.record.id x km hM hxks
        refine connEq_trans _ _ _ _ ?_ (Or.inl (hym ▸ (conn_symm _ _ _ hedge)))
        rcases hsx with hsx | hsx
        · exact Or.inl (conn_symm _ _ _ (conn_mono cs [c] _ _ hsx))
        · exact Or.inr hsx.symm
      · rcases I3 x y k hxo hyo with hc | hc
        · exact Or.inl (conn_mono cs [c] x y hc)
        · exact Or.inr hc
  · intro x y hconn
    induction hconn with
    | edge hc hl =>
      rename_i c' x' y'
      rcases List.mem_append.mp hc with hc | hc
      · obtain ⟨k, hx, hy⟩ := I4 x' y' (Conn.edge hc hl)
        have hxm : x' ≠ c.survivor.record.id := by
          intro he
          rw [he, hS] at hx
          exact absurd hx (by simp)
        have hym : y' ≠ c.survivor.record.id := by
          intro he
          rw [he, hS] at hy
          exact absurd hy (by simp)
        exact ⟨k, by rw [hmembO x' hxm]; exact hx, by rw [hmembO y' hym]; exact hy⟩
      · have hcc : c' = c := by simpa using hc
        subst hcc
        rcases hl with ⟨h1, h2⟩ | ⟨h1, h2⟩
        · refine ⟨km, ?_, ?_⟩
          · rw [← h1, alGet_alSet_self]
          · rw [← h2, hmembO _ hsm]
            exact hM
        · refine ⟨km, ?_, ?_⟩
          · rw [← h2, hmembO _ hsm]
            exact hM
          · rw [← h1, alGet_alSet_self]
    | trans h1 h2 ih1 ih2 =>
      obtain ⟨k1, hx1, hy1⟩ := ih1
      obtain ⟨k2, hy2, hz2⟩ := ih2
      rw [hy1] at hy2
      injection hy2 with hy2
      subst hy2
      exact ⟨k1, hx1, hz2⟩
  · intro k hk
    rcases alGet_alSet_isSome _ _ _ _ hk with hk | hk
    · exact I7 k hk
    · subst hk
      exact I7 k (by rw [hg]; rfl)
  · intro x k hx
    rcases hmemb x k hx with ⟨_, hke⟩ | ⟨_, hxo⟩
    · subst hke
      exact I8 _ _ hM
    · exact I8 x k hxo
  · intro k g2 hg2
    by_cases hke : k = km
    · subst hke
      rw [alGet_alSet_self] at hg2
      injection hg2 with hg2
      rw [← hg2]
      simp
    · rw [alGet_alSet_ne _ _ _ _ hke] at hg2
      exact I9 k g2 hg2

theorem GInv_step_SSeq (store : List (Nat × MGroup)) (live : List Nat)
    (memb : List (Str × Nat)) (nextKey : Nat) (cs : List Candidate) (c : Candidate)
    (ks : Nat) (g : MGroup)
    (hS : alGet memb c.survivor.record.id = some ks)
    (hM : alGet memb c.merged.record.id = some ks)
    (hg : alGet store ks = some g)
    (h : GInv ⟨store, live, memb, nextKey⟩ cs) :
    GInv ⟨alSet store ks { g with matchList := g.matchList ++ [c] },
      live, memb, nextKey⟩ (cs ++ [c]) := by
  rw [GInv_def] at h
  obtain ⟨I1, I2, I3, I4, I5, I6, I7, I8, I9⟩ := h
  refine ⟨?_, ?_, ?_, ?_, I5, I6, ?_, I8, ?_⟩
  · intro x k hx
    obtain ⟨hk, g2, hg2, hxg2⟩ := I1 x k hx
    by_cases hke : k = ks
    · subst hke
      rw [hg] at hg2
      injection hg2 with hg2
      subst hg2
      exact ⟨hk, _, alGet_alSet_self _ _ _, hxg2⟩
    · exact ⟨hk, g2, by rw [alGet_alSet_ne _ _ _ _ hke]; exact hg2, hxg2⟩
  · intro k g2 hk hg2 x hxg2
    by_cases hke : k = ks
    · subst hke
      rw [alGet_alSet_self] at hg2
      injection hg2 with hg2
      rw [← hg2] at hxg2
      exact I2 _ g hk hg x hxg2
    · rw [alGet_alSet_ne _ _ _ _ hke] at hg2
      exact I2 k g2 hk hg2 x hxg2
  · intro x y k hx hy
    rcases I3 x y k hx hy with hc | hc
    · exact Or.inl (conn_mono cs [c] x y hc)
    · exact Or.inr hc
  · intro x y hconn
    induction hconn with
    | edge hc hl =>
      rename_i c' x' y'
      rcases List.mem_append.mp hc with hc | hc
      · exact I4 x' y' (Conn.edge hc hl)
      · have hcc : c' = c := by simpa using hc
        subst hcc
        rcases hl with ⟨h1, h2⟩ | ⟨h1, h2⟩
        · exact ⟨ks, by rw [← h1]; exact hS, by rw [← h2]; exact hM⟩
        · exact ⟨ks, by rw [← h2]; exact hM, by rw [← h1]; exact hS⟩
    | trans h1 h2 ih1 ih2 =>
      obtain ⟨k1, hx1, hy1⟩ := ih1
      obtain ⟨k2, hy2, hz2⟩ := ih2
      rw [hy1] at hy2
      injection hy2 with hy2
      subst hy2
      exact ⟨k1, hx1, hz2⟩
  · intro k hk
    rcases alGet_alSet_isSome _ _ _ _ hk with hk | hk
    · exact I7 k hk
    · subst hk
      exact I7 k (by rw [hg]; rfl)
  · intro k g2 hg2
    by_cases hke : k = ks
    · subst hke
      rw [alGet_alSet_self] at hg2
      injection hg2 with hg2
      rw [← hg2]
      have := I9 _ g hg
      simpa using this
    · rw [alGet_alSet_ne _ _ _ _ hke] at hg2
      exact I9 k g2 hg2

theorem GInv_step_SSne (store : List (Nat × MGroup)) (live : List Nat)
    (memb : List (Str × Nat)) (nextKey : Nat) (cs : List Candidate) (c : Candidate)
    (ks km : Nat) (gs gm : MGroup)
    (hS : alGet memb c.survivor.record.id = some ks)
    (hM : alGet memb c.merged.record.id = some km)
    (hne : ks ≠ km)
    (hgs : alGet store ks = some gs)
    (hgm : alGet store km = some gm)
    (h : GInv ⟨store, live, memb, nextKey⟩ cs) :
    GInv ⟨alSet store ks { gs with records := gm.records.foldl pushIfNewId gs.records, matchList := gs.matchList ++ gm.matchList ++ [c], highestConfidence := max (max gs.highestConfidence gm.highestConfidence) c.confidence, bestTier := if gm.bestTier.tier < gs.bestTier.tier then gm.bestTier else gs.bestTier },
      live.erase km,
      gm.records.foldl (fun m r => alSet m r.record.id ks) memb,
      nextKey⟩ (cs ++ [c]) := by
  rw [GInv_def] at h
  obtain ⟨I1, I2, I3, I4, I5, I6, I7, I8, I9⟩ := h
  obtain ⟨hksl, g0, hg0, hsidg⟩ := I1 c.survivor.record.id ks hS
  rw [hgs] at hg0
  injection hg0 with hg0
  rw [← hg0] at hsidg
  obtain ⟨hkml, g1, hg1, hmidg⟩ := I1 c.merged.record.id km hM
  rw [hgm] at hg1
  injection hg1 with hg1
  rw [← hg1] at hmidg
  have hA : ∀ x, x ∈ groupIds gm ↔ alGet memb x = some km := by
    intro x
    constructor
    · intro hx
      exact I2 km gm hkml hgm x hx
    · intro hx
      obtain ⟨-, g2, hg2, hxg2⟩ := I1 x km hx
      rw [hgm] at hg2
      injection hg2 with hg2
      rw [← hg2] at hxg2
      exact hxg2
  have hAs : ∀ x, x ∈ groupIds gs ↔ alGet memb x = some ks := by
    intro x
    constructor
    · intro hx
      exact I2 ks gs hksl hgs x hx
    · intro hx
      obtain ⟨-, g2, hg2, hxg2⟩ := I1 x ks hx
      rw [hgs] at hg2
      injection hg2 with hg2
      rw [← hg2] at hxg2
      exact hxg2
  have hmembM : ∀ z, z ∈ groupIds gm →
      alGet (gm.records.foldl (fun m r => alSet m r.record.id ks) memb) z = some ks := by
    intro z hz
    exact foldl_alSet_mem (fun r => r.record.id) ks gm.records memb z
      (show z ∈ gm.records.map (fun r => r.record.id) from hz)
  have hmembO : ∀ z, z ∉ groupIds gm →
      alGet (gm.records.foldl (fun m r => alSet m r.record.id ks) memb) z = alGet memb z := by
    intro z hz
    exact foldl_alSet_not_mem (fun r => r.record.id) ks gm.records memb z
      (show z ∉ gm.records.map (fun r => r.record.id) from hz)
  have hmemb : ∀ (z : Str) (k : Nat),
      alGet (gm.records.foldl (fun m r => alSet m r.record.id ks) memb) z = some k →
      (z ∈ groupIds gm ∧ k = ks) ∨ (z ∉ groupIds gm ∧ alGet memb z = some k) := by
    intro z k hz
    by_cases hzm : z ∈ groupIds gm
    · rw [hmembM z hzm] at hz
      exact Or.inl ⟨hzm, (Option.some.inj hz).symm⟩
    · rw [hmembO z hzm] at hz
      exact Or.inr ⟨hzm, hz⟩
  have hids : ∀ x, (x ∈ groupIds { gs with records := gm.records.foldl pushIfNewId gs.records, matchList := gs.matchList ++ gm.matchList ++ [c], highestConfidence := max (max gs.highestConfidence gm.highestConfidence) c.confidence, bestTier := if gm.bestTier.tier < gs.bestTier.tier then gm.bestTier else gs.bestTier } ↔ x ∈ groupIds gs ∨ x ∈ groupIds gm) := by
    intro x
    show x ∈ (gm.records.foldl pushIfNewId gs.records).map (fun s => s.record.id) ↔ _
    rw [foldl_pushIfNewId_ids]
    exact Iff.rfl
  refine ⟨?_, ?_, ?_, ?_, I5.erase km, ?_, ?_, ?_, ?_⟩
  · intro x k hx
    rcases hmemb x k hx with ⟨hxm, rfl⟩ | ⟨hxm, hxo⟩
    · refine ⟨(List.mem_erase_of_ne hne).mpr hksl, _, alGet_alSet_self _ _ _, ?_⟩
      exact (hids x).mpr (Or.inr hxm)
    · obtain ⟨hk, g2, hg2, hxg2⟩ := I1 x k hxo
      have hknm : k ≠ km := by
        intro he
        subst he
        rw [hgm] at hg2
        injection hg2 with hg2
        rw [← hg2] at hxg2
        exact hxm hxg2
      by_cases hke : k = ks
      · subst hke
        rw [hgs] at hg2
        injection hg2 with hg2
        rw [← hg2] at hxg2
        exact ⟨(List.mem_erase_of_ne hknm).mpr hk, _, alGet_alSet_self _ _ _,
          (hids x).mpr (Or.inl hxg2)⟩
      · exact ⟨(List.mem_erase_of_ne hknm).mpr hk, g2,
          by rw [alGet_alSet_ne _ _ _ _ hke]; exact hg2, hxg2⟩
  · intro k g2 hk' hg2 x hxg2
    have hk : k ∈ live := List.mem_of_mem_erase hk'
    have hknm : k ≠ km := by
      intro he
      subst he
      exact I5.not_mem_erase hk'
    by_cases hke : k = ks
    · subst hke
      rw [alGet_alSet_self] at hg2
      injection hg2 with hg2
      rw [← hg2] at hxg2
      rcases (hids x).mp hxg2 with hx | hx
      · have hmx := I2 k gs hk hgs x hx
        have hxm : x ∉ groupIds gm := by
          intro he
          rw [(hA x).mp he] at hmx
          simp only [Option.some.injEq] at hmx
          omega
        rw [hmembO x hxm]
        exact hmx
      · exact hmembM x hx
    · rw [alGet_alSet_ne _ _ _ _ hke] at hg2
      have hmx := I2 k g2 hk hg2 x hxg2
      have hxm : x ∉ groupIds gm := by
        intro he
        rw [(hA x).mp he] at hmx
        simp only [Option.some.injEq] at hmx
        omega
      rw [hmembO x hxm]
      exact hmx
  · intro x y k hx hy
    have hedge : Conn (cs ++ [c]) c.merged.record.id c.survivor.record.id :=
      @Conn.edge (cs ++ [c]) c _ _ (List.mem_append_right _ (by simp))
        (Or.inr ⟨rfl, rfl⟩)
    have hchain : ∀ z, z ∈ groupIds gm → Conn (cs ++ [c]) z c.survivor.record.id ∨
        z = c.survivor.record.id := by
      intro z hz
      have h1 : Conn cs z c.merged.record.id ∨ z = c.merged.record.id :=
        I3 z c.merged.record.id km ((hA z).mp hz) hM
      refine connEq_trans _ _ _ _ ?_ (Or.inl hedge)
      rcases h1 with h1 | h1
      · exact Or.inl (conn_mono cs [c] _ _ h1)
      · exact Or.inr h1
    rcases hmemb x k hx with ⟨hxm, hke⟩ | ⟨hxm, hxo⟩
    · rcases hmemb y k hy with ⟨hym, _⟩ | ⟨hym, hyo⟩
      · have h1 : Conn cs x y ∨ x = y :=
          I3 x y km ((hA x).mp hxm) ((hA y).mp hym)
        rcases h1 with h1 | h1
        · exact Or.inl (conn_mono cs [c] x y h1)
        · exact Or.inr h1
      · have hyks : alGet memb y = some ks := hke ▸ hyo
        have h2 : Conn cs c.survivor.record.id y ∨ c.survivor.record.id = y :=
          I3 _ y ks hS hyks
        refine connEq_trans _ _ _ _ (hchain x hxm) ?_
        rcases h2 with h2 | h2
        · exact Or.inl (conn_mono cs [c] _ _ h2)
        · exact Or.inr h2
    · rcases hmemb y k hy with ⟨hym, hke⟩ | ⟨hym, hyo⟩
      · have hxks : alGet memb x = some ks := hke ▸ hxo
        have h2 : Conn cs c.survivor.record.id x ∨ c.survivor.record.id = x :=
          I3 _ x ks hS hxks
        have h3 : Conn (cs ++ [c]) y c.survivor.record.id ∨ y = c.survivor.record.id :=
          hchain y hym
        have h4 : Conn (cs ++ [c]) y x ∨ y = x := by
          refine connEq_trans _ _ _ _ h3 ?_
          rcases h2 with h2 | h2
          · exact Or.inl (conn_mono cs [c] _ _ h2)
          · exact Or.inr h2
        rcases h4 with h4 | h4
        · exact Or.inl (conn_symm _ _ _ h4)
        · exact Or.inr h4.symm
      · rcases I3 x y k hxo hyo with hc | hc
        · exact Or.inl (conn_mono cs [c] x y hc)
        · exact Or.inr hc
  · intro x y hconn
    induction hconn with
    | edge hc hl =>
      rename_i c' x' y'
      rcases List.mem_append.mp hc with hc | hc
      · obtain ⟨k, hx, hy⟩ := I4 x' y' (Conn.edge hc hl)
        by_cases hke : k = km
        · subst hke
          have hxg : x' ∈ groupIds gm := (hA x').mpr hx
          have hyg : y' ∈ groupIds gm := (hA y').mpr hy
          exact ⟨ks, hmembM x' hxg, hmembM y' hyg⟩
        · have hxg : x' ∉ groupIds gm := by
            intro he
            rw [(hA x').mp he] at hx
            simp only [Option.some.injEq] at hx
            omega
          have hyg : y' ∉ groupIds gm := by
            intro he
            rw [(hA y').mp he] at hy
            simp only [Option.some.injEq] at hy
            omega
          exact ⟨k, by rw [hmembO x' hxg]; exact hx, by rw [hmembO y' hyg]; exact hy⟩
      · have hcc : c' = c := by simpa using hc
        rw [hcc] at hl
        have hsid : alGet (gm.records.foldl (fun m r => alSet m r.record.id ks) memb)
            c.survivor.record.id = some ks := by
          have hsg : c.survivor.record.id ∉ groupIds gm := by
            intro he
            rw [(hA _).mp he] at hS
            simp only [Option.some.injEq] at hS
            omega
          rw [hmembO _ hsg]
          exact hS
        have hmid : alGet (gm.records.foldl (fun m r => alSet m r.record.id ks) memb)
            c.merged.record.id = some ks := hmembM _ hmidg
        rcases hl with ⟨h1, h2⟩ | ⟨h1, h2⟩
        · exact ⟨ks, by rw [← h1]; exact hsid, by rw [← h2]; exact hmid⟩
        · exact ⟨ks, by rw [← h2]; exact hmid, by rw [← h1]; exact hsid⟩
    | trans h1 h2 ih1 ih2 =>
      obtain ⟨k1, hx1, hy1⟩ := ih1
      obtain ⟨k2, hy2, hz2⟩ := ih2
      rw [hy1] at hy2
      injection hy2 with hy2
      subst hy2
      exact ⟨k1, hx1, hz2⟩
  · intro k hk
    exact I6 k (List.mem_of_mem_erase hk)
  · intro k hk
    rcases alGet_alSet_isSome _ _ _ _ hk with hk | hk
    · exact I7 k hk
    · subst hk
      exact I7 k (by rw [hgs]; rfl)
  · intro x k hx
    rcases hmemb x k hx with ⟨-, hke⟩ | ⟨-, hxo⟩
    · subst hke
      exact I8 _ _ hS
    · exact I8 x k hxo
  · intro k g2 hg2
    by_cases hke : k = ks
    · subst hke
      rw [alGet_alSet_self] at hg2
      injection hg2 with hg2
      rw [← hg2]
      show gm.records.foldl pushIfNewId gs.records ≠ []
      exact foldl_preserve (fun l => l ≠ []) _ (fun b a hb => pushIfNewId_ne_nil b a hb)
        gm.records gs.records (I9 _ gs hgs)
    · rw [alGet_alSet_ne _ _ _ _ hke] at hg2
      exact I9 k g2 hg2

/-- The grouping loop maintains the invariant over the whole candidate list. -/
theorem GInv_fold (cs : List Candidate) :
    GInv (cs.foldl stepCandidate ⟨[], [], [], 0⟩) cs := by
  induction cs using List.reverseRecOn with
  | nil => exact GInv_nil
  | append_singleton cs c ih =>
    rw [List.foldl_append, List.foldl_cons, List.foldl_nil]
    rcases hst : cs.foldl stepCandidate ⟨[], [], [], 0⟩ with ⟨store, live, memb, nextKey⟩
    rw [hst] at ih
    rcases hS : alGet memb c.survivor.record.id with _ | ks <;>
      rcases hM : alGet memb c.merged.record.id with _ | km
    · rw [show stepCandidate ⟨store, live, memb, nextKey⟩ c =
        ⟨store ++ [(nextKey, { gid := str "group_" ++ natToStr live.length, records := [c.survivor, c.merged], matchList := [c], bestTier := c.tier, highestConfidence := c.confidence })], live ++ [nextKey], alSet (alSet memb c.survivor.record.id nextKey) c.merged.record.id nextKey, nextKey + 1⟩
        from by simp only [stepCandidate, hS, hM]]
      exact GInv_step_NN store live memb nextKey cs c hS hM ih
    · rcases hg : alGet store km with _ | g
      · obtain ⟨I1, -⟩ := (GInv_def store live memb nextKey cs).mp ih
        obtain ⟨-, g0, hg0, -⟩ := I1 c.merged.record.id km hM
        rw [hg] at hg0
        exact absurd hg0 (by simp)
      · rw [show stepCandidate ⟨store, live, memb, nextKey⟩ c =
          ⟨alSet store km { g with records := g.records ++ [c.survivor], matchList := g.matchList ++ [c], highestConfidence := max g.highestConfidence c.confidence, bestTier := if c.tier.tier < g.bestTier.tier then c.tier else g.bestTier }, live, alSet memb c.survivor.record.id km, nextKey⟩
          from by simp only [stepCandidate, hS, hM, hg]]
        exact GInv_step_NS store live memb nextKey cs c km g hS hM hg ih
    · rcases hg : alGet store ks with _ | g
      · obtain ⟨I1, -⟩ := (GInv_def store live memb nextKey cs).mp ih
        obtain ⟨-, g0, hg0, -⟩ := I1 c.survivor.record.id ks hS
        rw [hg] at hg0
        exact absurd hg0 (by simp)
      · rw [show stepCandidate ⟨store, live, memb, nextKey⟩ c =
          ⟨alSet store ks { g with records := g.records ++ [c.merged], matchList := g.matchList ++ [c], highestConfidence := max g.highestConfidence c.confidence, bestTier := if c.tier.tier < g.bestTier.tier then c.tier else g.bestTier }, live, alSet memb c.merged.record.id ks, nextKey⟩
          from by simp only [stepCandidate, hS, hM, hg]]
        exact GInv_step_SN store live memb nextKey cs c ks g hS hM hg ih
    · by_cases hke : ks = km
      · subst hke
        rcases hg : alGet store ks with _ | g
        · obtain ⟨I1, -⟩ := (GInv_def store live memb nextKey cs).mp ih
          obtain ⟨-, g0, hg0, -⟩ := I1 c.survivor.record.id ks hS
          rw [hg] at hg0
          exact absurd hg0 (by simp)
        · rw [show stepCandidate ⟨store, live, memb, nextKey⟩ c =
            ⟨alSet store ks { g with matchList := g.matchList ++ [c] }, live, memb, nextKey⟩
            from by simp only [stepCandidate, hS, hM, hg]; rw [if_pos trivial]]
          exact GInv_step_SSeq store live memb nextKey cs c ks g hS hM hg ih
      · rcases hgs : alGet store ks with _ | gs
        · obtain ⟨I1, -⟩ := (GInv_def store live memb nextKey cs).mp ih
          obtain ⟨-, g0, hg0, -⟩ := I1 c.survivor.record.id ks hS
          rw [hgs] at hg0
          exact absurd hg0 (by simp)
        · rcases hgm : alGet store km with _ | gm
          · obtain ⟨I1, -⟩ := (GInv_def store live memb nextKey cs).mp ih
            obtain ⟨-, g0, hg0, -⟩ := I1 c.merged.record.id km hM
            rw [hgm] at hg0
            exact absurd hg0 (by simp)
          · rw [show stepCandidate ⟨store, live, memb, nextKey⟩ c =
              ⟨alSet store ks { gs with records := gm.records.foldl pushIfNewId gs.records, matchList := gs.matchList ++ gm.matchList ++ [c], highestConfidence := max (max gs.highestConfidence gm.highestConfidence) c.confidence, bestTier := if gm.bestTier.tier < gs.bestTier.tier then gm.bestTier else gs.bestTier }, live.erase km, gm.records.foldl (fun m r => alSet m r.record.id ks) memb, nextKey⟩
              from by
                simp only [stepCandidate, hS, hM, hgs, hgm]
                rw [if_neg hke]]
            exact GInv_step_SSne store live memb nextKey cs c ks km gs gm hS hM hke hgs hgm ih

theorem insertBy_mem (le : α → α → Bool) (x y : α) : ∀ (l : List α),
    (y ∈ insertBy le x l ↔ y = x ∨ y ∈ l) := by
  intro l
  induction l with
  | nil => simp [insertBy]
  | cons z t ih =>
    rw [insertBy]
    split
    · simp
    · rw [List.mem_cons, ih]
      simp only [List.mem_cons]
      tauto

theorem sortBy_mem (le : α → α → Bool) (y : α) : ∀ (l : List α),
    (y ∈ sortBy le l ↔ y ∈ l) := by
  intro l
  induction l with
  | nil => simp [sortBy]
  | cons z t ih =>
    rw [sortBy, insertBy_mem, ih, List.mem_cons]

theorem map_mem_sortBy (le : α → α → Bool) (f : α → β) (x : β) (l : List α) :
    x ∈ (sortBy le l).map f ↔ x ∈ l.map f := by
  simp only [List.mem_map]
  constructor
  · rintro ⟨r, hr, hf⟩
    exact ⟨r, (sortBy_mem le r l).mp hr, hf⟩
  · rintro ⟨r, hr, hf⟩
    exact ⟨r, (sortBy_mem le r l).mpr hr, hf⟩

/-- The final election pass neither adds nor removes record ids. -/
theorem groupIds_finalize (g : MGroup) (x : Str) :
    x ∈ groupIds (finalizeGroup g) ↔ x ∈ groupIds g := by
  show x ∈ (sortBy byScoreDesc (dedupRecords g.records)).map (fun r => r.record.id) ↔ _
  rw [map_mem_sortBy]
  show x ∈ (g.records.foldl pushIfNewId []).map (fun r => r.record.id) ↔ _
  rw [foldl_pushIfNewId_ids]
  simp [groupIds]

/-- When exactly the group stored at one live key satisfies the predicate,
    filtering the output of the final pass returns that one group. -/
theorem filter_single_group (store : List (Nat × MGroup)) (p : MGroup → Bool)
    (k : Nat) (g : MGroup) : ∀ (live : List Nat), live.Nodup → k ∈ live →
    alGet store k = some g → p (finalizeGroup g) = true →
    (∀ k', k' ∈ live → k' ≠ k → ∀ g', alGet store k' = some g' →
      p (finalizeGroup g') = false) →
    ((live.filterMap (alGet store)).map finalizeGroup).filter p = [finalizeGroup g] := by
  intro live
  induction live with
  | nil =>
    intro _ hk
    simp at hk
  | cons a t ih =>
    intro hnd hk hg hp hother
    simp only [List.nodup_cons] at hnd
    by_cases hak : a = k
    · subst hak
      rw [List.filterMap_cons, hg]
      rw [List.map_cons, List.filter_cons, hp]
      have hrest : ((t.filterMap (alGet store)).map finalizeGroup).filter p = [] := by
        rw [List.filter_eq_nil_iff]
        intro G hG
        simp only [List.mem_map, List.mem_filterMap] at hG
        obtain ⟨g', ⟨k', hk', hg'⟩, hfin⟩ := hG
        have hk'ne : k' ≠ a := by
          intro he
          subst he
          exact hnd.1 hk'
        rw [← hfin]
        rw [hother k' (by simp [hk']) hk'ne g' hg']
        simp
      rw [hrest]
      rfl
    · have hkt : k ∈ t := by
        rcases List.mem_cons.mp hk with hk | hk
        · exact absurd hk.symm hak
        · exact hk
      rw [List.filterMap_cons]
      rcases hga : alGet store a with _ | ga
      · exact ih hnd.2 hkt hg hp
          (fun k' hk' hkne g' hg' => hother k' (by simp [hk']) hkne g' hg')
      · rw [List.map_cons, List.filter_cons,
          hother a (by simp) hak ga hga]
        simp only [Bool.false_eq_true, if_false]
        exact ih hnd.2 hkt hg hp
          (fun k' hk' hkne g' hg' => hother k' (by simp [hk']) hkne g' hg')

/-- Claim C4: with candidates linking A to B and B to C (and none linking A
    to C directly), `groupCandidates` returns one group containing A, B and
    C, and filtering the returned groups for any of the three ids yields
    exactly that group — no other group contains any of them. -/
theorem C4_transitive_grouping (cs : List Candidate) (A B C : Str)
    (cab cbc : Candidate)
    (habm : cab ∈ cs) (hab : candLinks cab A B)
    (hbcm : cbc ∈ cs) (hbc : candLinks cbc B C)
    (hnoAC : ∀ c ∈ cs, ¬ candLinks c A C) :
    ∃ G ∈ groupCandidates cs,
      A ∈ groupIds G ∧ B ∈ groupIds G ∧ C ∈ groupIds G ∧
      (groupCandidates cs).filter (fun G' =>
        decide (A ∈ groupIds G') || decide (B ∈ groupIds G') ||
          decide (C ∈ groupIds G')) = [G] := by
  have hinv := GInv_fold cs
  rcases hst : cs.foldl stepCandidate ⟨[], [], [], 0⟩ with ⟨store, live, memb, nextKey⟩
  rw [hst] at hinv
  obtain ⟨I1, I2, I3, I4, I5, I6, I7, I8, I9⟩ :=
    (GInv_def store live memb nextKey cs).mp hinv
  have hout : groupCandidates cs = (live.filterMap (alGet store)).map finalizeGroup := by
    simp only [groupCandidates, hst]
  obtain ⟨k1, hmA, hmB⟩ := I4 A B (Conn.edge habm hab)
  obtain ⟨k2, hmB2, hmC⟩ := I4 B C (Conn.edge hbcm hbc)
  rw [hmB] at hmB2
  injection hmB2 with hk12
  rw [← hk12] at hmC
  obtain ⟨hkl, gA, hgA, hAg⟩ := I1 A k1 hmA
  obtain ⟨-, gB, hgB, hBg⟩ := I1 B k1 hmB
  obtain ⟨-, gC, hgC, hCg⟩ := I1 C k1 hmC
  rw [hgA] at hgB hgC
  injection hgB with hgB
  injection hgC with hgC
  rw [← hgB] at hBg
  rw [← hgC] at hCg
  refine ⟨finalizeGroup gA, ?_, ?_, ?_, ?_, ?_⟩
  · rw [hout]
    exact List.mem_map_of_mem _ (List.mem_filterMap.mpr ⟨_, hkl, hgA⟩)
  · exact (groupIds_finalize gA A).mpr hAg
  · exact (groupIds_finalize gA B).mpr hBg
  · exact (groupIds_finalize gA C).mpr hCg
  · rw [hout]
    apply filter_single_group store _ k1 gA live I5 hkl hgA
    · simp only [Bool.or_eq_true, decide_eq_true_eq]
      exact Or.inl (Or.inl ((groupIds_finalize gA A).mpr hAg))
    · intro k' hk' hkne g' hg'
      by_contra hcon
      simp only [Bool.not_eq_false, Bool.or_eq_true, decide_eq_true_eq] at hcon
      rcases hcon with (h | h) | h
      · have h' := I2 k' g' hk' hg' A ((groupIds_finalize g' A).mp h)
        rw [hmA] at h'
        injection h' with h'
        exact hkne h'.symm
      · have h' := I2 k' g' hk' hg' B ((groupIds_finalize g' B).mp h)
        rw [hmB] at h'
        injection h' with h'
        exact hkne h'.symm
      · have h' := I2 k' g' hk' hg' C ((groupIds_finalize g' C).mp h)
        rw [hmC] at h'
        injection h' with h'
        exact hkne h'.symm

theorem C4_witness :
    ∃ G ∈ groupCandidates
      [⟨⟨⟨str "a", []⟩, 10, str "A"⟩, ⟨⟨str "b", []⟩, 20, str "B"⟩,
        MATCH_TIERS.STRONG, 85⟩,
       ⟨⟨⟨str "b", []⟩, 20, str "B"⟩, ⟨⟨str "c", []⟩, 5, str "C"⟩,
        MATCH_TIERS.STRONG, 85⟩],
      str "a" ∈ groupIds G ∧ str "b" ∈ groupIds G ∧ str "c" ∈ groupIds G ∧
      (groupCandidates
        [⟨⟨⟨str "a", []⟩, 10, str "A"⟩, ⟨⟨str "b", []⟩, 20, str "B"⟩,
          MATCH_TIERS.STRONG, 85⟩,
         ⟨⟨⟨str "b", []⟩, 20, str "B"⟩, ⟨⟨str "c", []⟩, 5, str "C"⟩,
          MATCH_TIERS.STRONG, 85⟩]).filter (fun G' =>
        decide (str "a" ∈ groupIds G') || decide (str "b" ∈ groupIds G') ||
          decide (str "c" ∈ groupIds G')) = [G] :=
  C4_transitive_grouping _ (str "a") (str "b") (str "c")
    ⟨⟨⟨str "a", []⟩, 10, str "A"⟩, ⟨⟨str "b", []⟩, 20, str "B"⟩,
      MATCH_TIERS.STRONG, 85⟩
    ⟨⟨⟨str "b", []⟩, 20, str "B"⟩, ⟨⟨str "c", []⟩, 5, str "C"⟩,
      MATCH_TIERS.STRONG, 85⟩
    (by decide) (Or.inl ⟨rfl, rfl⟩) (by decide) (Or.inl ⟨rfl, rfl⟩)
    (by
      intro c hc
      rcases List.mem_cons.mp hc with rfl | hc
      · intro hl
        unfold candLinks at hl
        rcases hl with ⟨h1, h2⟩ | ⟨h1, h2⟩
        · exact absurd h2 (by decide)
        · exact absurd h1 (by decide)
      · rcases List.mem_cons.mp hc with rfl | hc
        · intro hl
          unfold candLinks at hl
          rcases hl with ⟨h1, h2⟩ | ⟨h1, h2⟩
          · exact absurd h1 (by decide)
          · exact absurd h2 (by decide)
        · simp at hc)

theorem insertBy_perm (le : α → α → Bool) (x : α) : ∀ l : List α,
    List.Perm (insertBy le x l) (x :: l) := by
  intro l
  induction l with
  | nil => exact List.Perm.refl _
  | cons y ys ih =>
    rw [insertBy]
    split
    · exact List.Perm.refl _
    · exact (List.Perm.cons y ih).trans (List.Perm.swap x y ys)

theorem sortBy_perm (le : α → α → Bool) : ∀ l : List α, List.Perm (sortBy le l) l := by
  intro l
  induction l with
  | nil => exact List.Perm.refl _
  | cons x xs ih =>
    rw [sortBy]
    exact (insertBy_perm le x (sortBy le xs)).trans (List.Perm.cons x ih)

theorem insertBy_pairwise (le : α → α → Bool)
    (htot : ∀ a b, le a b = true ∨ le b a = true)
    (htrans : ∀ a b c, le a b = true → le b c = true → le a c = true)
    (x : α) : ∀ l : List α, l.Pairwise (fun a b => le a b = true) →
      (insertBy le x l).Pairwise (fun a b => le a b = true) := by
  intro l
  induction l with
  | nil =>
    intro _
    simp [insertBy]
  | cons y ys ih =>
    intro hp
    rw [List.pairwise_cons] at hp
    obtain ⟨hy, hys⟩ := hp
    rw [insertBy]
    split
    · rename_i hcond
      simp only [Bool.and_eq_true] at hcond
      rw [List.pairwise_cons]
      constructor
      · intro z hz
        rcases List.mem_cons.mp hz with hz | hz
        · rw [hz]
          exact hcond.1
        · exact htrans x y z hcond.1 (hy z hz)
      · rw [List.pairwise_cons]
        exact ⟨hy, hys⟩
    · rename_i hcond
      rw [List.pairwise_cons]
      constructor
      · intro z hz
        rcases (insertBy_mem le x z ys).mp hz with hz | hz
        · subst hz
          by_cases hyx : le y z = true
          · exact hyx
          · rcases htot z y with h | h
            · exfalso
              apply hcond
              have hyx2 : le y z = false := by
                cases hle : le y z
                · rfl
                · exact absurd hle hyx
              rw [h, hyx2]
              rfl
            · exact h
        · exact hy z hz
      · exact ih hys

theorem sortBy_pairwise (le : α → α → Bool)
    (htot : ∀ a b, le a b = true ∨ le b a = true)
    (htrans : ∀ a b c, le a b = true → le b c = true → le a c = true) :
    ∀ l : List α, (sortBy le l).Pairwise (fun a b => le a b = true) := by
  intro l
  induction l with
  | nil => simp [sortBy]
  | cons x xs ih =>
    rw [sortBy]
    exact insertBy_pairwise le htot htrans x (sortBy le xs) ih

theorem dedupRecords_nodup (rs : List RecEntry) :
    ((dedupRecords rs).map (fun r => r.record.id)).Nodup := by
  refine foldl_preserve (fun l => (l.map (fun r => r.record.id)).Nodup) pushIfNewId
    ?_ rs [] (by simp)
  intro acc r hacc
  rw [pushIfNewId]
  split
  · exact hacc
  · rename_i hany
    simp only [List.any_eq_true, decide_eq_true_eq, not_exists] at hany
    simp only [List.map_append, List.map_cons, List.map_nil]
    rw [List.nodup_append]
    refine ⟨hacc, by simp, ?_⟩
    intro a ha hb
    simp only [List.mem_cons, List.not_mem_nil, or_false] at hb
    obtain ⟨sr, hsr, hid⟩ := List.mem_map.mp ha
    exact (hany sr) ⟨hsr, by rw [hid, hb]⟩

/-- Claim C5: every group returned by `groupCandidates` has id-distinct
    records, its survivor is the head of the score-descending order — a
    member whose quality score is at least every member's score — and
    `toMerge` is exactly the remaining members. -/
theorem C5_group_election_invariants (candidates : List Candidate) (G : MGroup)
    (hG : G ∈ groupCandidates candidates) :
    ((G.records.map (fun r => r.record.id)).Nodup) ∧
    ∃ h, G.survivor = some h ∧ G.records = h :: G.toMerge ∧
      ∀ x ∈ G.records, x.score ≤ h.score := by
  have hinv := GInv_fold candidates
  rcases hst : candidates.foldl stepCandidate ⟨[], [], [], 0⟩ with
    ⟨store, live, memb, nextKey⟩
  rw [hst] at hinv
  obtain ⟨-, -, -, -, -, -, -, -, I9⟩ :=
    (GInv_def store live memb nextKey candidates).mp hinv
  have hout : groupCandidates candidates =
      (live.filterMap (alGet store)).map finalizeGroup := by
    simp only [groupCandidates, hst]
  rw [hout] at hG
  obtain ⟨g, hgmem, rfl⟩ := List.mem_map.mp hG
  obtain ⟨k, hk, hget⟩ := List.mem_filterMap.mp hgmem
  have hne := I9 k g hget
  have hdne := dedupRecords_ne_nil g.records hne
  have hlen := (sortBy_perm byScoreDesc (dedupRecords g.records)).length_eq
  have hsne : sortBy byScoreDesc (dedupRecords g.records) ≠ [] := by
    intro he
    rw [he] at hlen
    exact hdne (List.length_eq_zero.mp hlen.symm)
  have hnodup : ((sortBy byScoreDesc (dedupRecords g.records)).map
      (fun r => r.record.id)).Nodup := by
    have hperm := (sortBy_perm byScoreDesc (dedupRecords g.records)).map
      (fun r => r.record.id)
    exact (hperm.nodup_iff).mpr (dedupRecords_nodup g.records)
  have hpair := sortBy_pairwise byScoreDesc
    (by
      intro a b
      simp only [byScoreDesc, decide_eq_true_eq]
      omega)
    (by
      intro a b c
      simp only [byScoreDesc, decide_eq_true_eq]
      omega)
    (dedupRecords g.records)
  rcases hsrt : sortBy byScoreDesc (dedupRecords g.records) with _ | ⟨h, t⟩
  · exact absurd hsrt hsne
  · have hfin : finalizeGroup g =
        { g with records := h :: t, survivor := some h, toMerge := t } := by
      simp only [finalizeGroup, hsrt]
      rfl
    rw [hfin]
    rw [hsrt] at hnodup hpair
    refine ⟨hnodup, h, rfl, rfl, ?_⟩
    intro x hx
    rcases List.mem_cons.mp hx with hx | hx
    · rw [hx]
    · have hr := (List.pairwise_cons.mp hpair).1 x hx
      simp only [byScoreDesc, decide_eq_true_eq] at hr
      exact hr


theorem C5_witness :
    ((sampleGroup.records.map (fun r => r.record.id)).Nodup) ∧
    ∃ h, sampleGroup.survivor = some h ∧
      sampleGroup.records = h :: sampleGroup.toMerge ∧
      ∀ x ∈ sampleGroup.records, x.score ≤ h.score :=
  C5_group_election_invariants [sampleCand] sampleGroup (by decide)

/-! ### Character-level facts -/

theorem mem_toNat_ge {t : Str} (ht : t.all (fun d => 192 ≤ d.toNat) = true)
    {c : Char} (hm : c ∈ t) : 192 ≤ c.toNat := by
  simpa using List.all_eq_true.mp ht c hm

theorem stripAccent_of_lt (c : Char) (h : c.toNat < 192) : stripAccent c = c := by
  have h1 : c ∉ str "àáâãäå" := fun hm => absurd h (Nat.not_lt.mpr (mem_toNat_ge (by decide) hm))
  have h2 : c ∉ str "ÀÁÂÃÄÅ" := fun hm => absurd h (Nat.not_lt.mpr (mem_toNat_ge (by decide) hm))
  have h3 : c ∉ str "èéêë" := fun hm => absurd h (Nat.not_lt.mpr (mem_toNat_ge (by decide) hm))
  have h4 : c ∉ str "ÈÉÊË" := fun hm => absurd h (Nat.not_lt.mpr (mem_toNat_ge (by decide) hm))
  have h5 : c ∉ str "ìíîï" := fun hm => absurd h (Nat.not_lt.mpr (mem_toNat_ge (by decide) hm))
  have h6 : c ∉ str "ÌÍÎÏ" := fun hm => absurd h (Nat.not_lt.mpr (mem_toNat_ge (by decide) hm))
  have h7 : c ∉ str "òóôõö" := fun hm => absurd h (Nat.not_lt.mpr (mem_toNat_ge (by decide) hm))
  have h8 : c ∉ str "ÒÓÔÕÖ" := fun hm => absurd h (Nat.not_lt.mpr (mem_toNat_ge (by decide) hm))
  have h9 : c ∉ str "ùúûü" := fun hm => absurd h (Nat.not_lt.mpr (mem_toNat_ge (by decide) hm))
  have h10 : c ∉ str "ÙÚÛÜ" := fun hm => absurd h (Nat.not_lt.mpr (mem_toNat_ge (by decide) hm))
  have h11 : ¬(c = 'ñ') := fun hm => by subst hm; exact absurd h (by decide)
  have h12 : ¬(c = 'Ñ') := fun hm => by subst hm; exact absurd h (by decide)
  have h13 : ¬(c = 'ç') := fun hm => by subst hm; exact absurd h (by decide)
  have h14 : ¬(c = 'Ç') := fun hm => by subst hm; exact absurd h (by decide)
  have h15 : ¬(c = 'ý') := fun hm => by subst hm; exact absurd h (by decide)
  unfold stripAccent
  rw [if_neg h1, if_neg h2, if_neg h3, if_neg h4, if_neg h5, if_neg h6, if_neg h7, if_neg h8, if_neg h9, if_neg h10, if_neg h11, if_neg h12, if_neg h13, if_neg h14, if_neg h15]

theorem stripAccent_lt_or_fix (c : Char) :
    (stripAccent c).toNat < 192 ∨ stripAccent c = c := by
  unfold stripAccent
  by_cases h1 : c ∈ str "àáâãäå"
  · rw [if_pos h1]; exact Or.inl (by decide)
  rw [if_neg h1]
  by_cases h2 : c ∈ str "ÀÁÂÃÄÅ"
  · rw [if_pos h2]; exact Or.inl (by decide)
  rw [if_neg h2]
  by_cases h3 : c ∈ str "èéêë"
  · rw [if_pos h3]; exact Or.inl (by decide)
  rw [if_neg h3]
  by_cases h4 : c ∈ str "ÈÉÊË"
  · rw [if_pos h4]; exact Or.inl (by decide)
  rw [if_neg h4]
  by_cases h5 : c ∈ str "ìíîï"
  · rw [if_pos h5]; exact Or.inl (by decide)
  rw [if_neg h5]
  by_cases h6 : c ∈ str "ÌÍÎÏ"
  · rw [if_pos h6]; exact Or.inl (by decide)
  rw [if_neg h6]
  by_cases h7 : c ∈ str "òóôõö"
  · rw [if_pos h7]; exact Or.inl (by decide)
  rw [if_neg h7]
  by_cases h8 : c ∈ str "ÒÓÔÕÖ"
  · rw [if_pos h8]; exact Or.inl (by decide)
  rw [if_neg h8]
  by_cases h9 : c ∈ str "ùúûü"
  · rw [if_pos h9]; exact Or.inl (by decide)
  rw [if_neg h9]
  by_cases h10 : c ∈ str "ÙÚÛÜ"
  · rw [if_pos h10]; exact Or.inl (by decide)
  rw [if_neg h10]
  by_cases h11 : c = 'ñ'
  · rw [if_pos h11]; exact Or.inl (by decide)
  rw [if_neg h11]
  by_cases h12 : c = 'Ñ'
  · rw [if_pos h12]; exact Or.inl (by decide)
  rw [if_neg h12]
  by_cases h13 : c = 'ç'
  · rw [if_pos h13]; exact Or.inl (by decide)
  rw [if_neg h13]
  by_cases h14 : c = 'Ç'
  · rw [if_pos h14]; exact Or.inl (by decide)
  rw [if_neg h14]
  by_cases h15 : c = 'ý'
  · rw [if_pos h15]; exact Or.inl (by decide)
  rw [if_neg h15]
  exact Or.inr rfl

theorem lowerChar_fix (c : Char) (h : ¬(65 ≤ c.toNat ∧ c.toNat ≤ 90)) :
    lowerChar c = c := by
  unfold lowerChar
  rw [if_neg]
  intro hb
  rw [Bool.and_eq_true, decide_eq_true_eq, decide_eq_true_eq, Char.le_def, Char.le_def] at hb
  exact h ⟨hb.1, hb.2⟩

theorem lowerChar_upper (c : Char) (h1 : 65 ≤ c.toNat) (h2 : c.toNat ≤ 90) :
    lowerChar c = Char.ofNat (c.toNat + 32) := by
  unfold lowerChar
  rw [if_pos]
  rw [Bool.and_eq_true, decide_eq_true_eq, decide_eq_true_eq, Char.le_def, Char.le_def]
  exact ⟨h1, h2⟩

theorem clean_lower_of_lt (d : Char) (h : d.toNat < 192) :
    stripAccent (lowerChar d) = lowerChar d ∧ lowerChar (lowerChar d) = lowerChar d := by
  by_cases hu : 65 ≤ d.toNat ∧ d.toNat ≤ 90
  · rw [lowerChar_upper d hu.1 hu.2]
    obtain ⟨h1, h2⟩ := hu
    interval_cases hn : d.toNat <;> exact ⟨by decide, by decide⟩
  · rw [lowerChar_fix d hu]
    exact ⟨stripAccent_of_lt d h, lowerChar_fix d hu⟩

theorem clean_image (c : Char) :
    stripAccent (lowerChar (stripAccent c)) = lowerChar (stripAccent c) ∧
    lowerChar (lowerChar (stripAccent c)) = lowerChar (stripAccent c) := by
  rcases stripAccent_lt_or_fix c with h | h
  · exact clean_lower_of_lt _ h
  · rw [h]
    by_cases hlt : c.toNat < 192
    · exact clean_lower_of_lt c hlt
    · have hfix : lowerChar c = c := lowerChar_fix c (by omega)
      rw [hfix]
      exact ⟨h, hfix⟩

theorem lowerChar_eq_dot {c : Char} (h : lowerChar c = '.') : c = '.' := by
  by_cases hu : 65 ≤ c.toNat ∧ c.toNat ≤ 90
  · rw [lowerChar_upper c hu.1 hu.2] at h
    obtain ⟨h1, h2⟩ := hu
    interval_cases hn : c.toNat <;> exact absurd h (by decide)
  · rwa [lowerChar_fix c hu] at h

theorem lowerChar_eq_ntilde {c : Char} (h : lowerChar c = 'ñ') : c = 'ñ' := by
  by_cases hu : 65 ≤ c.toNat ∧ c.toNat ≤ 90
  · rw [lowerChar_upper c hu.1 hu.2] at h
    obtain ⟨h1, h2⟩ := hu
    interval_cases hn : c.toNat <;> exact absurd h (by decide)
  · rwa [lowerChar_fix c hu] at h

/-! ### Character tracking through the cleaning pipeline -/

theorem trimLeft_eq_dropWhile : ∀ s : Str, trimLeft s = s.dropWhile isJsSpace := by
  intro s
  induction s with
  | nil => rfl
  | cons c cs ih =>
    rw [trimLeft, List.dropWhile_cons]
    by_cases hc : isJsSpace c = true
    · rw [if_pos hc, if_pos hc]; exact ih
    · rw [if_neg hc, if_neg hc]

theorem mem_trimLeft {c : Char} : ∀ {s : Str}, c ∈ trimLeft s → c ∈ s := by
  intro s
  induction s with
  | nil => exact fun h => h
  | cons d ds ih =>
    intro h
    rw [trimLeft] at h
    by_cases hd : isJsSpace d = true
    · rw [if_pos hd] at h; exact List.mem_cons_of_mem _ (ih h)
    · rwa [if_neg hd] at h

theorem mem_jsTrim {c : Char} {s : Str} (h : c ∈ jsTrim s) : c ∈ s := by
  unfold jsTrim at h
  have h2 := mem_trimLeft h
  rw [List.mem_reverse] at h2
  have h3 := mem_trimLeft h2
  rwa [List.mem_reverse] at h3

theorem mem_collapseWsAux {c : Char} : ∀ {b : Bool} {s : Str},
    c ∈ collapseWsAux b s → c ∈ s ∨ c = ' ' := by
  intro b s
  induction s generalizing b with
  | nil => intro h; exact absurd h (List.not_mem_nil c)
  | cons d ds ih =>
    intro h
    rw [collapseWsAux] at h
    by_cases hd : isJsSpace d = true
    · rw [if_pos hd] at h
      rcases b with _ | _
      · rw [if_neg (by simp)] at h
        rcases List.mem_cons.mp h with h1 | h1
        · exact Or.inr h1
        · rcases ih h1 with h2 | h2
          · exact Or.inl (List.mem_cons_of_mem _ h2)
          · exact Or.inr h2
      · rw [if_pos rfl] at h
        rcases ih h with h2 | h2
        · exact Or.inl (List.mem_cons_of_mem _ h2)
        · exact Or.inr h2
    · rw [if_neg hd] at h
      rcases List.mem_cons.mp h with h1 | h1
      · exact Or.inl (h1 ▸ List.mem_cons_self _ _)
      · rcases ih h1 with h2 | h2
        · exact Or.inl (List.mem_cons_of_mem _ h2)
        · exact Or.inr h2

theorem mem_collapseWs {c : Char} {s : Str} (h : c ∈ collapseWs s) : c ∈ s ∨ c = ' ' :=
  mem_collapseWsAux h

theorem mem_replaceChars {p : Char → Bool} {r c : Char} {s : Str}
    (h : c ∈ replaceChars p r s) : (c ∈ s ∧ p c = false) ∨ c = r := by
  unfold replaceChars at h
  rw [List.mem_map] at h
  obtain ⟨d, hd, hc⟩ := h
  by_cases hp : p d = true
  · rw [if_pos hp] at hc; exact Or.inr hc.symm
  · rw [if_neg hp] at hc
    rw [← hc]
    exact Or.inl ⟨hd, by simpa using hp⟩

/-! ### Structure of `splitDrop` pieces -/

theorem splitDropAux_chars {sep : Char → Bool} : ∀ {s cur t : Str},
    (∀ c ∈ cur, sep c = false) → t ∈ splitDropAux sep cur s →
    t ≠ [] ∧ ∀ c ∈ t, (c ∈ cur ∨ c ∈ s) ∧ sep c = false := by
  intro s
  induction s with
  | nil =>
    intro cur t hcur ht
    rw [splitDropAux] at ht
    by_cases hc : cur = []
    · rw [if_pos hc] at ht
      exact absurd ht (List.not_mem_nil t)
    · rw [if_neg hc] at ht
      rcases List.mem_singleton.mp ht with rfl
      refine ⟨by simpa using hc, ?_⟩
      intro c hcr
      rw [List.mem_reverse] at hcr
      exact ⟨Or.inl hcr, hcur c hcr⟩
  | cons d ds ih =>
    intro cur t hcur ht
    rw [splitDropAux] at ht
    by_cases hsep : sep d = true
    · rw [if_pos hsep] at ht
      by_cases hc : cur = []
      · rw [if_pos hc] at ht
        obtain ⟨hne, hall⟩ := ih (by simp) ht
        refine ⟨hne, fun c hct => ?_⟩
        obtain ⟨hin, hs⟩ := hall c hct
        rcases hin with h1 | h1
        · exact absurd h1 (List.not_mem_nil c)
        · exact ⟨Or.inr (List.mem_cons_of_mem _ h1), hs⟩
      · rw [if_neg hc] at ht
        rcases List.mem_cons.mp ht with rfl | h1
        · refine ⟨by simpa using hc, fun c hct => ?_⟩
          rw [List.mem_reverse] at hct
          exact ⟨Or.inl hct, hcur c hct⟩
        · obtain ⟨hne, hall⟩ := ih (by simp) h1
          refine ⟨hne, fun c hct => ?_⟩
          obtain ⟨hin, hs⟩ := hall c hct
          rcases hin with h2 | h2
          · exact absurd h2 (List.not_mem_nil c)
          · exact ⟨Or.inr (List.mem_cons_of_mem _ h2), hs⟩
    · rw [if_neg hsep] at ht
      obtain ⟨hne, hall⟩ := @ih (d :: cur) t (fun c hc => by
        rcases List.mem_cons.mp hc with rfl | h1
        · simpa using hsep
        · exact hcur c h1) ht
      refine ⟨hne, fun c hct => ?_⟩
      obtain ⟨hin, hs⟩ := hall c hct
      rcases hin with h2 | h2
      · rcases List.mem_cons.mp h2 with rfl | h3
        · exact ⟨Or.inr (List.mem_cons_self _ _), hs⟩
        · exact ⟨Or.inl h3, hs⟩
      · exact ⟨Or.inr (List.mem_cons_of_mem _ h2), hs⟩

theorem splitDrop_chars {sep : Char → Bool} {s t : Str} (ht : t ∈ splitDrop sep s) :
    t ≠ [] ∧ ∀ c ∈ t, c ∈ s ∧ sep c = false := by
  obtain ⟨hne, hall⟩ := splitDropAux_chars (by simp) ht
  refine ⟨hne, fun c hct => ?_⟩
  obtain ⟨hin, hs⟩ := hall c hct
  rcases hin with h1 | h1
  · exact absurd h1 (List.not_mem_nil c)
  · exact ⟨h1, hs⟩

theorem splitDropAux_append_sep {sep : Char → Bool} {d : Char} (hd : sep d = true) :
    ∀ (a cur b : Str),
      splitDropAux sep cur (a ++ d :: b) =
        splitDropAux sep cur a ++ splitDrop sep b := by
  intro a
  induction a with
  | nil =>
    intro cur b
    rw [List.nil_append]
    conv_lhs => rw [splitDropAux]
    rw [if_pos hd]
    conv_rhs => rw [splitDropAux]
    by_cases hc : cur = []
    · rw [if_pos hc, if_pos hc, List.nil_append]; rfl
    · rw [if_neg hc, if_neg hc, List.cons_append, List.nil_append]; rfl
  | cons x xs ih =>
    intro cur b
    rw [List.cons_append, splitDropAux]
    by_cases hx : sep x = true
    · rw [if_pos hx]
      by_cases hc : cur = []
      · rw [if_pos hc, ih, splitDropAux, if_pos hx, if_pos hc]
      · rw [if_neg hc, ih, splitDropAux, if_pos hx, if_neg hc, List.cons_append]
    · rw [if_neg hx, ih, splitDropAux, if_neg hx]

theorem splitDrop_append_sep {sep : Char → Bool} {d : Char} (hd : sep d = true)
    (a b : Str) : splitDrop sep (a ++ d :: b) = splitDrop sep a ++ splitDrop sep b :=
  splitDropAux_append_sep hd a [] b

theorem splitDropAux_nonsep_run {sep : Char → Bool} :
    ∀ (t : Str), (∀ c ∈ t, sep c = false) → ∀ (cur r : Str),
      splitDropAux sep cur (t ++ r) = splitDropAux sep (t.reverse ++ cur) r := by
  intro t
  induction t with
  | nil => intro _ cur r; rw [List.nil_append, List.reverse_nil, List.nil_append]
  | cons x xs ih =>
    intro ht cur r
    rw [List.cons_append, splitDropAux, if_neg (by simpa using ht x (List.mem_cons_self _ _)),
      ih (fun c hc => ht c (List.mem_cons_of_mem _ hc)), List.reverse_cons, List.append_assoc,
      List.singleton_append]

theorem splitDrop_all_nonsep {sep : Char → Bool} {t : Str}
    (ht : ∀ c ∈ t, sep c = false) (hne : t ≠ []) : splitDrop sep t = [t] := by
  have h := splitDropAux_nonsep_run t ht [] []
  rw [List.append_nil] at h
  unfold splitDrop
  rw [h, splitDropAux, List.append_nil, if_neg (by simpa using hne), List.reverse_reverse]

theorem dropWhile_head_not {p : Char → Bool} : ∀ {l : Str} {d : Char} {t : Str},
    l.dropWhile p = d :: t → p d = false := by
  intro l
  induction l with
  | nil => intro d t h; exact absurd h (by simp)
  | cons c cs ih =>
    intro d t h
    rw [List.dropWhile_cons] at h
    by_cases hc : p c = true
    · rw [if_pos hc] at h; exact ih h
    · rw [if_neg hc] at h
      obtain ⟨rfl, -⟩ := List.cons.inj h
      simpa using hc

/-! ### Word runs -/

theorem wordRuns_cons_nonword {c : Char} (hc : isWordChar c = false) (s : Str) :
    wordRuns (c :: s) = wordRuns s := by
  unfold wordRuns splitDrop
  rw [splitDropAux, if_pos (by simp [hc]), if_pos rfl]

theorem wordRuns_append_nonword {d : Char} (hd : isWordChar d = false) (a b : Str) :
    wordRuns (a ++ d :: b) = wordRuns a ++ wordRuns b :=
  splitDrop_append_sep (by simp [hd]) a b

theorem wordRuns_all_word {t : Str} (ht : ∀ c ∈ t, isWordChar c = true) (hne : t ≠ []) :
    wordRuns t = [t] :=
  splitDrop_all_nonsep (fun c hc => by simp [ht c hc]) hne

theorem wordRuns_word_decomp {c : Char} {cs : Str} (hc : isWordChar c = true) :
    wordRuns (c :: cs) =
      (c :: cs).takeWhile isWordChar :: wordRuns ((c :: cs).dropWhile isWordChar) := by
  have hsplit : (c :: cs).takeWhile isWordChar ++ (c :: cs).dropWhile isWordChar = c :: cs :=
    List.takeWhile_append_dropWhile isWordChar (c :: cs)
  have htw : ∀ x ∈ (c :: cs).takeWhile isWordChar, isWordChar x = true :=
    fun x hx => List.mem_takeWhile_imp hx
  have hne : (c :: cs).takeWhile isWordChar ≠ [] := by
    rw [List.takeWhile_cons, if_pos hc]
    simp
  rcases hdr : (c :: cs).dropWhile isWordChar with _ | ⟨d, t⟩
  · rw [hdr, List.append_nil] at hsplit
    conv_lhs => rw [← hsplit]
    rw [wordRuns_all_word htw hne]
    rfl
  · have hd : isWordChar d = false := dropWhile_head_not hdr
    conv_lhs => rw [← hsplit, hdr]
    rw [wordRuns_append_nonword hd, wordRuns_all_word htw hne, wordRuns_cons_nonword hd]
    rfl

/-! ### Decomposition of split pieces inside the original string -/

theorem splitDropAux_decomp {sep : Char → Bool} : ∀ {s cur t : Str},
    t ∈ splitDropAux sep cur s →
    (∃ u b, t = cur.reverse ++ u ∧ s = u ++ b ∧
      (b = [] ∨ ∃ e t2, b = e :: t2 ∧ sep e = true)) ∨
    (∃ a d b, s = a ++ d :: (t ++ b) ∧ sep d = true ∧
      (b = [] ∨ ∃ e t2, b = e :: t2 ∧ sep e = true)) := by
  intro s
  induction s with
  | nil =>
    intro cur t ht
    rw [splitDropAux] at ht
    by_cases hc : cur = []
    · rw [if_pos hc] at ht
      exact absurd ht (List.not_mem_nil t)
    · rw [if_neg hc] at ht
      rcases List.mem_singleton.mp ht with rfl
      exact Or.inl ⟨[], [], (List.append_nil _).symm, rfl, Or.inl rfl⟩
  | cons c cs ih =>
    intro cur t ht
    rw [splitDropAux] at ht
    by_cases hsep : sep c = true
    · rw [if_pos hsep] at ht
      by_cases hc : cur = []
      · rw [if_pos hc] at ht
        rcases ih ht with ⟨u, b, htu, hsu, hb⟩ | ⟨a, d, b, hsa, hd, hb⟩
        · rw [List.reverse_nil, List.nil_append] at htu
          exact Or.inr ⟨[], c, b, by rw [List.nil_append, hsu, htu], hsep, hb⟩
        · exact Or.inr ⟨c :: a, d, b, by rw [hsa, List.cons_append], hd, hb⟩
      · rw [if_neg hc] at ht
        rcases List.mem_cons.mp ht with rfl | h1
        · exact Or.inl ⟨[], c :: cs, (List.append_nil _).symm, rfl,
            Or.inr ⟨c, cs, rfl, hsep⟩⟩
        · rcases ih h1 with ⟨u, b, htu, hsu, hb⟩ | ⟨a, d, b, hsa, hd, hb⟩
          · rw [List.reverse_nil, List.nil_append] at htu
            exact Or.inr ⟨[], c, b, by rw [List.nil_append, hsu, htu], hsep, hb⟩
          · exact Or.inr ⟨c :: a, d, b, by rw [hsa, List.cons_append], hd, hb⟩
    · rw [if_neg hsep] at ht
      rcases ih ht with ⟨u, b, htu, hsu, hb⟩ | ⟨a, d, b, hsa, hd, hb⟩
      · refine Or.inl ⟨c :: u, b, ?_, by rw [hsu, List.cons_append], hb⟩
        rw [htu, List.reverse_cons, List.append_assoc, List.singleton_append]
      · exact Or.inr ⟨c :: a, d, b, by rw [hsa, List.cons_append], hd, hb⟩

theorem runs_of_token_mem {sep : Char → Bool}
    (hsep : ∀ c, sep c = true → isWordChar c = false)
    {s t : Str} (ht : t ∈ splitDrop sep s) {w : Str} (hw : w ∈ wordRuns t) :
    w ∈ wordRuns s := by
  have hsub : ∀ (b : Str), (b = [] ∨ ∃ e t2, b = e :: t2 ∧ sep e = true) →
      w ∈ wordRuns (t ++ b) := by
    intro b hb
    rcases hb with rfl | ⟨e, t2, rfl, he⟩
    · rwa [List.append_nil]
    · rw [wordRuns_append_nonword (hsep e he)]
      exact List.mem_append_left _ hw
  rcases splitDropAux_decomp ht with ⟨u, b, htu, hsu, hb⟩ | ⟨a, d, b, hsa, hd, hb⟩
  · rw [List.reverse_nil, List.nil_append] at htu
    rw [hsu, ← htu]
    exact hsub b hb
  · rw [hsa, wordRuns_append_nonword (hsep d hd)]
    exact List.mem_append_right _ (hsub b hb)

/-! ### `joinWith` facts -/

theorem wordRuns_joinWith : ∀ ts : List Str,
    wordRuns (joinWith (str " ") ts) = (ts.map wordRuns).flatten := by
  intro ts
  induction ts with
  | nil => rfl
  | cons t rest ih =>
    rcases rest with _ | ⟨t2, rest2⟩
    · show wordRuns t = wordRuns t ++ []
      rw [List.append_nil]
    · show wordRuns (t ++ str " " ++ joinWith (str " ") (t2 :: rest2)) = _
      rw [List.append_assoc]
      rw [show str " " ++ joinWith (str " ") (t2 :: rest2) =
        ' ' :: joinWith (str " ") (t2 :: rest2) from rfl]
      rw [wordRuns_append_nonword (by decide), ih]
      rfl

theorem joinWith_ne_nil {t : Str} (ht : t ≠ []) (ts : List Str) :
    joinWith (str " ") (t :: ts) ≠ [] := by
  rcases ts with _ | ⟨t2, rest⟩
  · exact ht
  · show t ++ str " " ++ joinWith (str " ") (t2 :: rest) ≠ []
    rcases t with _ | ⟨c, cs⟩
    · exact absurd rfl ht
    · simp

theorem mem_joinWith {c : Char} : ∀ {ts : List Str},
    c ∈ joinWith (str " ") ts → (∃ t ∈ ts, c ∈ t) ∨ c = ' ' := by
  intro ts
  induction ts with
  | nil => intro h; exact absurd h (List.not_mem_nil c)
  | cons t rest ih =>
    intro h
    rcases rest with _ | ⟨t2, rest2⟩
    · exact Or.inl ⟨t, List.mem_cons_self _ _, h⟩
    · rw [show joinWith (str " ") (t :: t2 :: rest2) =
        t ++ (' ' :: joinWith (str " ") (t2 :: rest2)) from by
          rw [show joinWith (str " ") (t :: t2 :: rest2) =
            t ++ str " " ++ joinWith (str " ") (t2 :: rest2) from rfl,
            List.append_assoc]
          rfl] at h
      rcases List.mem_append.mp h with h1 | h1
      · exact Or.inl ⟨t, List.mem_cons_self _ _, h1⟩
      · rcases List.mem_cons.mp h1 with h2 | h2
        · exact Or.inr h2
        · rcases ih h2 with ⟨t3, ht3, hc3⟩ | h3
          · exact Or.inl ⟨t3, List.mem_cons_of_mem _ ht3, hc3⟩
          · exact Or.inr h3

/-! ### The cleaning pipeline fixes a joined token list -/

theorem getLast_mem_of_ne : ∀ {l : Str}, l ≠ [] → ∃ d, l.getLast? = some d ∧ d ∈ l := by
  intro l
  induction l with
  | nil => intro h; exact absurd rfl h
  | cons c cs ih =>
    intro _
    rcases cs with _ | ⟨c2, cs2⟩
    · exact ⟨c, rfl, List.mem_singleton.mpr rfl⟩
    · obtain ⟨d, hd, hdm⟩ := ih (by simp)
      exact ⟨d, by rw [List.getLast?_cons_cons]; exact hd, List.mem_cons_of_mem _ hdm⟩

theorem getLast_append_right {l2 : Str} (h : l2 ≠ []) : ∀ l1 : Str,
    (l1 ++ l2).getLast? = l2.getLast? := by
  intro l1
  induction l1 with
  | nil => rfl
  | cons c cs ih =>
    rw [List.cons_append]
    rcases hcc : cs ++ l2 with _ | ⟨e, es⟩
    · rcases l2 with _ | ⟨x, xs⟩
      · exact absurd rfl h
      · rcases cs with _ | _ <;> simp at hcc
    · rw [List.getLast?_cons_cons, ← hcc, ih]

theorem trimLeft_eq_self {s : Str} (h : ∀ x, s.head? = some x → isJsSpace x = false) :
    trimLeft s = s := by
  rcases s with _ | ⟨c, cs⟩
  · rfl
  · rw [trimLeft, if_neg]
    rw [h c rfl]
    simp

theorem joinWith_head {t : Str} (ts : List Str) :
    t ≠ [] → (joinWith (str " ") (t :: ts)).head? = t.head? := by
  intro ht
  rcases ts with _ | ⟨t2, rest⟩
  · rfl
  · rw [show joinWith (str " ") (t :: t2 :: rest) =
      t ++ str " " ++ joinWith (str " ") (t2 :: rest) from rfl, List.append_assoc]
    rcases t with _ | ⟨c, cs⟩
    · exact absurd rfl ht
    · rfl

theorem joinWith_getLast : ∀ (ts : List Str), ts ≠ [] → (∀ t ∈ ts, t ≠ []) →
    ∃ tl ∈ ts, (joinWith (str " ") ts).getLast? = tl.getLast? := by
  intro ts
  induction ts with
  | nil => intro h _; exact absurd rfl h
  | cons t rest ih =>
    intro _ hall
    rcases rest with _ | ⟨t2, rest2⟩
    · exact ⟨t, List.mem_cons_self _ _, rfl⟩
    · obtain ⟨tl, htl, hlast⟩ := ih (by simp) (fun x hx => hall x (List.mem_cons_of_mem _ hx))
      refine ⟨tl, List.mem_cons_of_mem _ htl, ?_⟩
      have hjne : joinWith (str " ") (t2 :: rest2) ≠ [] :=
        joinWith_ne_nil (hall t2 (by simp)) rest2
      rw [show joinWith (str " ") (t :: t2 :: rest2) =
        t ++ str " " ++ joinWith (str " ") (t2 :: rest2) from rfl, List.append_assoc,
        getLast_append_right (by simp [hjne]) t, getLast_append_right hjne (str " "), hlast]

theorem jsTrim_join (ts : List Str)
    (h : ∀ t ∈ ts, t ≠ [] ∧ ∀ c ∈ t, isJsSpace c = false) :
    jsTrim (joinWith (str " ") ts) = joinWith (str " ") ts := by
  rcases ts with _ | ⟨t, rest⟩
  · rfl
  · have hne : joinWith (str " ") (t :: rest) ≠ [] :=
      joinWith_ne_nil (h t (by simp)).1 rest
    obtain ⟨tl, htl, hlast⟩ := joinWith_getLast (t :: rest) (by simp)
      (fun x hx => (h x hx).1)
    obtain ⟨d, hd, hdm⟩ := getLast_mem_of_ne (h tl htl).1
    have heq1 : trimLeft (List.reverse (joinWith (str " ") (t :: rest))) =
        List.reverse (joinWith (str " ") (t :: rest)) :=
      trimLeft_eq_self (fun x hx => by
        rw [List.head?_reverse, hlast, hd] at hx
        obtain rfl := Option.some.inj hx
        exact (h tl htl).2 d hdm)
    unfold jsTrim
    rw [heq1, List.reverse_reverse]
    exact trimLeft_eq_self (fun x hx => by
      rw [joinWith_head rest (h t (by simp)).1] at hx
      rcases t with _ | ⟨c, cs⟩
      · exact absurd rfl (h _ (by simp)).1
      · obtain rfl := Option.some.inj hx
        exact (h (c :: cs) (by simp)).2 c (by simp))

theorem collapseWsAux_nonspace_run : ∀ (t : Str), t ≠ [] →
    (∀ c ∈ t, isJsSpace c = false) → ∀ (b : Bool) (r : Str),
    collapseWsAux b (t ++ r) = t ++ collapseWsAux false r := by
  intro t
  induction t with
  | nil => intro h; exact absurd rfl h
  | cons c cs ih =>
    intro _ hall b r
    rw [List.cons_append, collapseWsAux, if_neg (by
      rw [hall c (List.mem_cons_self _ _)]; simp)]
    rcases cs with _ | ⟨c2, cs2⟩
    · rfl
    · rw [ih (by simp) (fun x hx => hall x (List.mem_cons_of_mem _ hx)) false r]
      rfl

theorem collapseWsAux_join : ∀ (ts : List Str),
    (∀ t ∈ ts, t ≠ [] ∧ ∀ c ∈ t, isJsSpace c = false) → ∀ b : Bool,
    collapseWsAux b (joinWith (str " ") ts) = joinWith (str " ") ts := by
  intro ts
  induction ts with
  | nil => intro _ b; rfl
  | cons t rest ih =>
    intro h b
    rcases rest with _ | ⟨t2, rest2⟩
    · show collapseWsAux b t = t
      have hp := collapseWsAux_nonspace_run t (h t (by simp)).1 (h t (by simp)).2 b []
      rw [List.append_nil] at hp
      rw [hp, show collapseWsAux false ([] : Str) = [] from rfl, List.append_nil]
    · rw [show joinWith (str " ") (t :: t2 :: rest2) =
        t ++ (' ' :: joinWith (str " ") (t2 :: rest2)) from by
          rw [show joinWith (str " ") (t :: t2 :: rest2) =
            t ++ str " " ++ joinWith (str " ") (t2 :: rest2) from rfl,
            List.append_assoc]
          rfl]
      rw [collapseWsAux_nonspace_run t (h t (by simp)).1 (h t (by simp)).2 b _]
      rw [collapseWsAux, if_pos (by decide), if_neg (by simp)]
      rw [ih (fun x hx => h x (List.mem_cons_of_mem _ hx)) true]

theorem collapseWs_join (ts : List Str)
    (h : ∀ t ∈ ts, t ≠ [] ∧ ∀ c ∈ t, isJsSpace c = false) :
    collapseWs (joinWith (str " ") ts) = joinWith (str " ") ts :=
  collapseWsAux_join ts h false

theorem splitDrop_joinWith {sep : Char → Bool} (hsp : sep ' ' = true) :
    ∀ ts : List Str, (∀ t ∈ ts, t ≠ [] ∧ ∀ c ∈ t, sep c = false) →
      splitDrop sep (joinWith (str " ") ts) = ts := by
  intro ts
  induction ts with
  | nil => intro _; rfl
  | cons t rest ih =>
    intro h
    rcases rest with _ | ⟨t2, rest2⟩
    · exact splitDrop_all_nonsep (h t (by simp)).2 (h t (by simp)).1
    · rw [show joinWith (str " ") (t :: t2 :: rest2) =
        t ++ (' ' :: joinWith (str " ") (t2 :: rest2)) from by
          rw [show joinWith (str " ") (t :: t2 :: rest2) =
            t ++ str " " ++ joinWith (str " ") (t2 :: rest2) from rfl,
            List.append_assoc]
          rfl]
      rw [splitDrop_append_sep hsp, splitDrop_all_nonsep (h t (by simp)).2 (h t (by simp)).1,
        ih (fun x hx => h x (List.mem_cons_of_mem _ hx))]
      rfl

/-! ### Compiled word patterns and matching -/

theorem compileWordAux_no_dot : ∀ (w : Str), (∀ c ∈ w, c ≠ '.') → ∀ b,
    compileWordAux b w = w.map PChar.lit := by
  intro w
  induction w with
  | nil => intro _ b; rfl
  | cons c cs ih =>
    intro h b
    rw [compileWordAux, if_neg (by simpa using h c (List.mem_cons_self _ _)),
      List.map_cons, ih (fun x hx => h x (List.mem_cons_of_mem _ hx)) b]

theorem compileWord_no_dot (w : Str) (h : ∀ c ∈ w, c ≠ '.') :
    compileWord w = w.map PChar.lit := compileWordAux_no_dot w h false

theorem patMatch_split {ci : Bool} : ∀ {pat : List PChar} {s m r : Str},
    patMatch ci pat s = some (m, r) → s = m ++ r := by
  intro pat
  induction pat with
  | nil =>
    intro s m r h
    rw [patMatch] at h
    obtain ⟨h1, h2⟩ := Prod.mk.injEq .. ▸ Option.some.inj h
    rw [← h1, ← h2, List.nil_append]
  | cons p ps ih =>
    intro s m r h
    rcases s with _ | ⟨c, cs⟩
    · rw [patMatch] at h
      exact absurd h (by simp)
    · rw [patMatch] at h
      by_cases hm : pcharMatches ci p c = true
      · rw [if_pos hm] at h
        rcases hpm : patMatch ci ps cs with _ | ⟨m2, r2⟩
        · rw [hpm] at h
          exact absurd h (by simp)
        · rw [hpm] at h
          obtain ⟨h1, h2⟩ := Prod.mk.injEq .. ▸ Option.some.inj h
          rw [← h1, ← h2, List.cons_append, ← ih hpm]
      · rw [if_neg hm] at h
        exact absurd h (by simp)

theorem patMatch_lit_mem {ci : Bool} {l : Char} : ∀ {pat : List PChar} {s m r : Str},
    PChar.lit l ∈ pat → patMatch ci pat s = some (m, r) →
    ∃ c ∈ m, pcharMatches ci (PChar.lit l) c = true := by
  intro pat
  induction pat with
  | nil => intro s m r hl _; exact absurd hl (List.not_mem_nil _)
  | cons p ps ih =>
    intro s m r hl h
    rcases s with _ | ⟨c, cs⟩
    · rw [patMatch] at h
      exact absurd h (by simp)
    · rw [patMatch] at h
      by_cases hm : pcharMatches ci p c = true
      · rw [if_pos hm] at h
        rcases hpm : patMatch ci ps cs with _ | ⟨m2, r2⟩
        · rw [hpm] at h
          exact absurd h (by simp)
        · rw [hpm] at h
          obtain ⟨h1, h2⟩ := Prod.mk.injEq .. ▸ Option.some.inj h
          rcases List.mem_cons.mp hl with rfl | hl2
          · exact ⟨c, by rw [← h1]; exact List.mem_cons_self _ _, hm⟩
          · obtain ⟨x, hxm, hx⟩ := ih hl2 hpm
            exact ⟨x, by rw [← h1]; exact List.mem_cons_of_mem _ hxm, hx⟩
      · rw [if_neg hm] at h
        exact absurd h (by simp)

theorem pcharMatches_dot {c : Char} (h : pcharMatches true (PChar.lit '.') c = true) :
    c = '.' := by
  rw [show pcharMatches true (PChar.lit '.') c = decide (lowerChar c = lowerChar '.') from rfl,
    decide_eq_true_eq] at h
  exact lowerChar_eq_dot h

theorem pcharMatches_ntilde {c : Char} (h : pcharMatches true (PChar.lit 'ñ') c = true) :
    c = 'ñ' := by
  rw [show pcharMatches true (PChar.lit 'ñ') c = decide (lowerChar c = lowerChar 'ñ') from rfl,
    decide_eq_true_eq] at h
  exact lowerChar_eq_ntilde h

theorem dead_scan {pat : List PChar}
    (hp : PChar.lit '.' ∈ pat ∨ PChar.lit 'ñ' ∈ pat) :
    ∀ (n : Nat) (s : Str) (prev : Option Char), (∀ c ∈ s, c ≠ '.' ∧ c ≠ 'ñ') →
      hasWordMatch true pat prev n s = false ∧
      ∀ rep, replaceWordAll true pat rep prev n s = s := by
  intro n
  induction n with
  | zero =>
    intro s prev _
    exact ⟨rfl, fun rep => rfl⟩
  | succ n ih =>
    intro s prev h
    rcases s with _ | ⟨c, cs⟩
    · exact ⟨rfl, fun rep => rfl⟩
    · have hnone : patMatch true pat (c :: cs) = none := by
        rcases hpm : patMatch true pat (c :: cs) with _ | ⟨⟨m, r⟩⟩
        · rfl
        · exfalso
          have hsplit := patMatch_split hpm
          rcases hp with hp | hp
          · obtain ⟨x, hxm, hx⟩ := patMatch_lit_mem hp hpm
            exact (h x (hsplit ▸ List.mem_append_left _ hxm)).1 (pcharMatches_dot hx)
          · obtain ⟨x, hxm, hx⟩ := patMatch_lit_mem hp hpm
            exact (h x (hsplit ▸ List.mem_append_left _ hxm)).2 (pcharMatches_ntilde hx)
      have htail : ∀ x ∈ cs, x ≠ '.' ∧ x ≠ 'ñ' :=
        fun x hx => h x (List.mem_cons_of_mem _ hx)
      constructor
      · rw [hasWordMatch]
        simp only [hnone]
        exact (ih cs (some c) htail).1
      · intro rep
        rw [replaceWordAll]
        simp only [hnone]
        rw [(ih cs (some c) htail).2 rep]

theorem patMatch_lit (w : Str) (hw : ∀ c ∈ w, lowerChar c = c) :
    ∀ (s : Str), (∀ c ∈ s, lowerChar c = c) →
      patMatch true (w.map PChar.lit) s =
        if w <+: s then some (w, s.drop w.length) else none := by
  induction w with
  | nil =>
    intro s _
    rw [List.map_nil, patMatch, if_pos List.nil_prefix]
    rfl
  | cons a w2 ih =>
    intro s hs
    rcases s with _ | ⟨c, cs⟩
    · rw [List.map_cons, patMatch, if_neg]
      intro hp
      have := List.prefix_nil.mp hp
      simp at this
    · rw [List.map_cons, patMatch]
      have hpc : pcharMatches true (PChar.lit a) c = decide (c = a) := by
        rw [show pcharMatches true (PChar.lit a) c = decide (lowerChar c = lowerChar a) from rfl,
          hs c (List.mem_cons_self _ _), hw a (List.mem_cons_self _ _)]
      rw [hpc]
      by_cases hca : c = a
      · subst hca
        rw [if_pos (by simp)]
        rw [ih (fun x hx => hw x (List.mem_cons_of_mem _ hx)) cs
          (fun x hx => hs x (List.mem_cons_of_mem _ hx))]
        by_cases hp : w2 <+: cs
        · rw [if_pos hp, if_pos (List.cons_prefix_cons.mpr ⟨rfl, hp⟩)]
          rfl
        · rw [if_neg hp, if_neg (by
            intro hcon
            exact hp (List.cons_prefix_cons.mp hcon).2)]
      · rw [if_neg (by simpa using hca), if_neg (by
          intro hcon
          exact hca ((List.cons_prefix_cons.mp hcon).1).symm)]

theorem patMatch_cons_head {ci : Bool} {p : PChar} {ps : List PChar} {c : Char}
    {cs m r : Str} (h : patMatch ci (p :: ps) (c :: cs) = some (m, r)) :
    ∃ m2, m = c :: m2 := by
  rw [patMatch] at h
  by_cases hm : pcharMatches ci p c = true
  · rw [if_pos hm] at h
    rcases hpm : patMatch ci ps cs with _ | ⟨⟨m2, r2⟩⟩
    · rw [hpm] at h
      exact absurd h (by simp)
    · rw [hpm] at h
      obtain ⟨h1, -⟩ := Prod.mk.injEq .. ▸ Option.some.inj h
      exact ⟨m2, h1.symm⟩
  · rw [if_neg hm] at h
    exact absurd h (by simp)

theorem hasWordMatch_fuel {pat : List PChar} :
    ∀ (n1 : Nat) (s : Str) (prev : Option Char) (n2 : Nat), s.length < n1 → s.length < n2 →
      hasWordMatch true pat prev n1 s = hasWordMatch true pat prev n2 s := by
  intro n1
  induction n1 with
  | zero => intro s prev n2 h1 _; exact absurd h1 (Nat.not_lt_zero _)
  | succ n1 ih =>
    intro s prev n2 h1 h2
    rcases n2 with _ | n2
    · exact absurd h2 (Nat.not_lt_zero _)
    rcases s with _ | ⟨c, cs⟩
    · rfl
    · rw [hasWordMatch, hasWordMatch]
      rcases hpm : patMatch true pat (c :: cs) with _ | ⟨⟨m, r⟩⟩
      · simp only [hpm]
        exact ih cs (some c) n2 (by simpa using h1) (by simpa using h2)
      · simp only [hpm]
        by_cases hb : boundaryOk prev m r = true
        · rw [if_pos hb, if_pos hb]
        · rw [if_neg hb, if_neg hb]
          exact ih cs (some c) n2 (by simpa using h1) (by simpa using h2)

theorem replaceWordAll_fuel {p0 : PChar} {ps0 : List PChar} (rep : Str) :
    ∀ (n1 : Nat) (s : Str) (prev : Option Char) (n2 : Nat), s.length < n1 → s.length < n2 →
      replaceWordAll true (p0 :: ps0) rep prev n1 s =
        replaceWordAll true (p0 :: ps0) rep prev n2 s := by
  intro n1
  induction n1 with
  | zero => intro s prev n2 h1 _; exact absurd h1 (Nat.not_lt_zero _)
  | succ n1 ih =>
    intro s prev n2 h1 h2
    rcases n2 with _ | n2
    · exact absurd h2 (Nat.not_lt_zero _)
    rcases s with _ | ⟨c, cs⟩
    · rfl
    · rw [replaceWordAll, replaceWordAll]
      rcases hpm : patMatch true (p0 :: ps0) (c :: cs) with _ | ⟨⟨m, r⟩⟩
      · simp only [hpm]
        rw [ih cs (some c) n2 (by simpa using h1) (by simpa using h2)]
      · simp only [hpm]
        obtain ⟨m2, rfl⟩ := patMatch_cons_head hpm
        have hsplit := patMatch_split hpm
        have hr : r.length < n1 ∧ r.length < n2 := by
          have hlen := congrArg List.length hsplit
          have h1b : cs.length + 1 < n1 + 1 := by simpa using h1
          have h2b : cs.length + 1 < n2 + 1 := by simpa using h2
          simp at hlen
          omega
        by_cases hb : boundaryOk prev (c :: m2) r = true
        · rw [if_pos hb, if_pos hb, ih r _ n2 hr.1 hr.2]
        · rw [if_neg hb, if_neg hb, ih cs (some c) n2 (by simpa using h1) (by simpa using h2)]

theorem hasWordMatch_midrun {a : Char} {w2 : Str}
    (haw : isWordChar a = true) (hw : ∀ c ∈ a :: w2, lowerChar c = c) :
    ∀ (n : Nat) (s : Str) (prev : Option Char), s.length < n →
      (∀ c ∈ s, lowerChar c = c) → wordAt prev = true →
      hasWordMatch true ((a :: w2).map PChar.lit) prev n s =
        hasWordMatch true ((a :: w2).map PChar.lit) none
          ((s.dropWhile isWordChar).length + 1) (s.dropWhile isWordChar) := by
  intro n
  induction n with
  | zero => intro s prev h _ _; exact absurd h (Nat.not_lt_zero _)
  | succ n ih =>
    intro s prev hlen hs hprev
    rcases s with _ | ⟨c, cs⟩
    · rfl
    · have hstail : ∀ x ∈ cs, lowerChar x = x := fun x hx => hs x (List.mem_cons_of_mem _ hx)
      by_cases hcw : isWordChar c = true
      · rw [List.dropWhile_cons, if_pos hcw]
        rw [hasWordMatch]
        rcases hpm : patMatch true ((a :: w2).map PChar.lit) (c :: cs) with _ | ⟨⟨m, r⟩⟩
        · simp only [hpm]
          exact ih cs (some c) (by simpa using hlen) hstail
            (by rw [show wordAt (some c) = isWordChar c from rfl, hcw])
        · simp only [hpm]
          obtain ⟨m2, rfl⟩ := patMatch_cons_head hpm
          have hbf : boundaryOk prev (c :: m2) r = false := by
            rw [boundaryOk, hprev, show wordAt (some c) = isWordChar c from rfl, hcw]
            simp
          rw [if_neg (by simp [hbf])]
          exact ih cs (some c) (by simpa using hlen) hstail
            (by rw [show wordAt (some c) = isWordChar c from rfl, hcw])
      · rw [List.dropWhile_cons, if_neg (by simp [hcw])]
        have hnp : ¬((a :: w2) <+: (c :: cs)) := by
          intro hcon
          obtain ⟨h1, -⟩ := List.cons_prefix_cons.mp hcon
          rw [h1] at haw
          exact absurd haw (by simp [hcw])
        have hpm : patMatch true ((a :: w2).map PChar.lit) (c :: cs) = none := by
          rw [patMatch_lit (a :: w2) hw (c :: cs) hs, if_neg hnp]
        rw [hasWordMatch]
        simp only [hpm]
        conv_rhs => rw [hasWordMatch]
        simp only [hpm]
        exact hasWordMatch_fuel n cs (some c) ((c :: cs).length) (by simpa using hlen)
          (by simp)

theorem replaceWordAll_midrun {a : Char} {w2 : Str} (rep : Str)
    (haw : isWordChar a = true) (hw : ∀ c ∈ a :: w2, lowerChar c = c) :
    ∀ (n : Nat) (s : Str) (prev : Option Char), s.length < n →
      (∀ c ∈ s, lowerChar c = c) → wordAt prev = true →
      replaceWordAll true ((a :: w2).map PChar.lit) rep prev n s =
        s.takeWhile isWordChar ++
          replaceWordAll true ((a :: w2).map PChar.lit) rep none
            ((s.dropWhile isWordChar).length + 1) (s.dropWhile isWordChar) := by
  intro n
  induction n with
  | zero => intro s prev h _ _; exact absurd h (Nat.not_lt_zero _)
  | succ n ih =>
    intro s prev hlen hs hprev
    rcases s with _ | ⟨c, cs⟩
    · rfl
    · have hstail : ∀ x ∈ cs, lowerChar x = x := fun x hx => hs x (List.mem_cons_of_mem _ hx)
      by_cases hcw : isWordChar c = true
      · rw [List.takeWhile_cons, if_pos hcw, List.dropWhile_cons, if_pos hcw]
        rw [replaceWordAll]
        rcases hpm : patMatch true ((a :: w2).map PChar.lit) (c :: cs) with _ | ⟨⟨m, r⟩⟩
        · simp only [hpm]
          rw [ih cs (some c) (by simpa using hlen) hstail
            (by rw [show wordAt (some c) = isWordChar c from rfl, hcw])]
          rfl
        · simp only [hpm]
          obtain ⟨m2, rfl⟩ := patMatch_cons_head hpm
          have hbf : boundaryOk prev (c :: m2) r = false := by
            rw [boundaryOk, hprev, show wordAt (some c) = isWordChar c from rfl, hcw]
            simp
          rw [if_neg (by simp [hbf])]
          rw [ih cs (some c) (by simpa using hlen) hstail
            (by rw [show wordAt (some c) = isWordChar c from rfl, hcw])]
          rfl
      · rw [List.takeWhile_cons, if_neg (by simp [hcw]), List.dropWhile_cons,
          if_neg (by simp [hcw]), List.nil_append]
        have hnp : ¬((a :: w2) <+: (c :: cs)) := by
          intro hcon
          obtain ⟨h1, -⟩ := List.cons_prefix_cons.mp hcon
          rw [h1] at haw
          exact absurd haw (by simp [hcw])
        have hpm : patMatch true ((a :: w2).map PChar.lit) (c :: cs) = none := by
          rw [patMatch_lit (a :: w2) hw (c :: cs) hs, if_neg hnp]
        rw [replaceWordAll]
        simp only [hpm]
        conv_rhs => rw [replaceWordAll]
        simp only [hpm]
        rw [List.map_cons]
        rw [replaceWordAll_fuel rep n cs (some c) ((c :: cs).length) (by simpa using hlen)
          (by simp)]

theorem replaceWordAll_nil {ci : Bool} {pat : List PChar} {rep : Str} :
    ∀ (fuel : Nat) (prev : Option Char), replaceWordAll ci pat rep prev fuel [] = [] := by
  intro fuel prev
  rcases fuel with _ | fuel <;> rfl

theorem mem_dropWhile_imp {p : Char → Bool} {x : Char} : ∀ {l : Str},
    x ∈ l.dropWhile p → x ∈ l := by
  intro l
  induction l with
  | nil => exact fun h => h
  | cons c cs ih =>
    intro h
    rw [List.dropWhile_cons] at h
    by_cases hc : p c = true
    · rw [if_pos hc] at h
      exact List.mem_cons_of_mem _ (ih h)
    · rwa [if_neg hc] at h

theorem takeWhile_append_all {p : Char → Bool} : ∀ {u : Str}, (∀ c ∈ u, p c = true) →
    ∀ z : Str, List.takeWhile p (u ++ z) = u ++ z.takeWhile p := by
  intro u
  induction u with
  | nil => intro _ z; rfl
  | cons c cs ih =>
    intro h z
    rw [List.cons_append, List.takeWhile_cons, if_pos (h c (List.mem_cons_self _ _)),
      ih (fun x hx => h x (List.mem_cons_of_mem _ hx)) z, List.cons_append]

theorem dropWhile_append_all {p : Char → Bool} : ∀ {u : Str}, (∀ c ∈ u, p c = true) →
    ∀ z : Str, List.dropWhile p (u ++ z) = z.dropWhile p := by
  intro u
  induction u with
  | nil => intro _ z; rfl
  | cons c cs ih =>
    intro h z
    rw [List.cons_append, List.dropWhile_cons, if_pos (h c (List.mem_cons_self _ _)),
      ih (fun x hx => h x (List.mem_cons_of_mem _ hx)) z]

theorem length_dropWhile_le (p : Char → Bool) : ∀ l : Str,
    (l.dropWhile p).length ≤ l.length := by
  intro l
  induction l with
  | nil => exact Nat.le_refl _
  | cons c cs ih =>
    rw [List.dropWhile_cons]
    by_cases hc : p c = true
    · rw [if_pos hc]
      exact Nat.le_trans ih (by simp)
    · rw [if_neg hc]

theorem hasWordMatch_runs {a : Char} {w2 : Str}
    (hww : ∀ c ∈ a :: w2, isWordChar c = true)
    (hw : ∀ c ∈ a :: w2, lowerChar c = c) :
    ∀ (n : Nat) (s : Str) (prev : Option Char), s.length < n →
      (∀ c ∈ s, lowerChar c = c) → wordAt prev = false →
      (hasWordMatch true ((a :: w2).map PChar.lit) prev n s = true ↔
        (a :: w2) ∈ wordRuns s) := by
  intro n
  induction n using Nat.strong_induction_on with
  | _ n ih =>
  intro s prev hlen hs hprev
  rcases n with _ | n
  · exact absurd hlen (Nat.not_lt_zero _)
  rcases s with _ | ⟨c, cs⟩
  · constructor
    · intro h
      rw [hasWordMatch] at h
      exact absurd h (by simp)
    · intro h
      exact absurd h (List.not_mem_nil _)
  · have hstail : ∀ x ∈ cs, lowerChar x = x := fun x hx => hs x (List.mem_cons_of_mem _ hx)
    have hcslen : cs.length < n := by simpa using hlen
    rw [hasWordMatch]
    have hslit := patMatch_lit (a :: w2) hw (c :: cs) hs
    by_cases hpre : (a :: w2) <+: (c :: cs)
    · rw [if_pos hpre] at hslit
      simp only [hslit]
      obtain ⟨t0, ht0⟩ := hpre
      have hrest : (c :: cs).drop (a :: w2).length = t0 := by
        rw [← ht0]
        exact List.drop_left _ _
      obtain ⟨d, hd, hdm⟩ := getLast_mem_of_ne (show a :: w2 ≠ [] by simp)
      have hbok : boundaryOk prev (a :: w2) ((c :: cs).drop (a :: w2).length) =
          !wordAt t0.head? := by
        rw [boundaryOk, hprev, show wordAt (some a) = isWordChar a from rfl,
          hww a (List.mem_cons_self _ _), hd, show wordAt (some d) = isWordChar d from rfl,
          hww d hdm, hrest]
        simp
      rw [hbok]
      by_cases hnext : wordAt t0.head? = true
      · rw [if_neg (by simp [hnext])]
        -- continue scanning inside the run: c = a, word char
        obtain ⟨ha, -⟩ := List.cons_prefix_cons.mp ⟨t0, ht0⟩
        have hcw : isWordChar c = true := by
          rw [← ha]
          exact hww a (List.mem_cons_self _ _)
        rcases t0 with _ | ⟨e, r2⟩
        · simp [wordAt] at hnext
        have hew : isWordChar e = true := by simpa [wordAt] using hnext
        rw [hasWordMatch_midrun (hww a (List.mem_cons_self _ _)) hw n cs (some c) hcslen
          hstail (by rw [show wordAt (some c) = isWordChar c from rfl, hcw])]
        set t := cs.dropWhile isWordChar with hts
        have htlen : t.length ≤ cs.length := length_dropWhile_le _ _
        have htchars : ∀ x ∈ t, lowerChar x = x := fun x hx => hstail x (mem_dropWhile_imp hx)
        have hiff := ih (t.length + 1) (by omega) t none (by omega) htchars rfl
        rw [hiff]
        -- right side: runs (c :: cs) = r0 :: runs t with r0 ≠ a :: w2
        rw [wordRuns_word_decomp hcw]
        rw [show (c :: cs).dropWhile isWordChar = t from by
          rw [List.dropWhile_cons, if_pos hcw]]
        have hr0 : (c :: cs).takeWhile isWordChar = (a :: w2) ++ (e :: List.takeWhile isWordChar r2) := by
          rw [← ht0, takeWhile_append_all hww, List.takeWhile_cons, if_pos hew]
        have hr0ne : (c :: cs).takeWhile isWordChar ≠ a :: w2 := by
          rw [hr0]
          intro hcon
          have := congrArg List.length hcon
          simp at this
        rw [List.mem_cons]
        constructor
        · intro h
          exact Or.inr h
        · intro h
          rcases h with h | h
          · exact absurd h.symm hr0ne
          · exact h
      · rw [if_pos (by simp [Bool.not_eq_true] at hnext; simp [hnext])]
        have hmem : (a :: w2) ∈ wordRuns (c :: cs) := by
          rw [← ht0]
          rcases t0 with _ | ⟨e, r2⟩
          · rw [List.append_nil]
            rw [wordRuns_all_word hww (by simp)]
            exact List.mem_singleton.mpr rfl
          · have hew : isWordChar e = false := by simpa [wordAt] using hnext
            rw [wordRuns_append_nonword hew, wordRuns_all_word hww (by simp)]
            exact List.mem_append_left _ (List.mem_singleton.mpr rfl)
        exact ⟨fun _ => hmem, fun _ => rfl⟩
    · rw [if_neg hpre] at hslit
      simp only [hslit]
      by_cases hcw : isWordChar c = true
      · rw [hasWordMatch_midrun (hww a (List.mem_cons_self _ _)) hw n cs (some c) hcslen
          hstail (by rw [show wordAt (some c) = isWordChar c from rfl, hcw])]
        set t := cs.dropWhile isWordChar with hts
        have htlen : t.length ≤ cs.length := length_dropWhile_le _ _
        have htchars : ∀ x ∈ t, lowerChar x = x := fun x hx => hstail x (mem_dropWhile_imp hx)
        have hiff := ih (t.length + 1) (by omega) t none (by omega) htchars rfl
        rw [hiff]
        rw [wordRuns_word_decomp hcw]
        rw [show (c :: cs).dropWhile isWordChar = t from by
          rw [List.dropWhile_cons, if_pos hcw]]
        have hr0ne : (c :: cs).takeWhile isWordChar ≠ a :: w2 := by
          intro hcon
          exact hpre (hcon ▸ List.takeWhile_prefix _)
        rw [List.mem_cons]
        constructor
        · intro h
          exact Or.inr h
        · intro h
          rcases h with h | h
          · exact absurd h.symm hr0ne
          · exact h
      · have hcwf : isWordChar c = false := by simpa using hcw
        rw [wordRuns_cons_nonword hcwf]
        exact ih n (by omega) cs (some c) hcslen hstail
          (by rw [show wordAt (some c) = isWordChar c from rfl, hcwf])

theorem replaceWordAll_runs {a : Char} {w2 : Str}
    (hww : ∀ c ∈ a :: w2, isWordChar c = true)
    (hw : ∀ c ∈ a :: w2, lowerChar c = c) :
    ∀ (n : Nat) (s : Str) (prev : Option Char), s.length < n →
      (∀ c ∈ s, lowerChar c = c) → wordAt prev = false →
      wordRuns (replaceWordAll true ((a :: w2).map PChar.lit) (str " ") prev n s) =
        (wordRuns s).filter (fun r => decide (r ≠ a :: w2)) := by
  intro n
  induction n using Nat.strong_induction_on with
  | _ n ih =>
  intro s prev hlen hs hprev
  rcases n with _ | n
  · exact absurd hlen (Nat.not_lt_zero _)
  rcases s with _ | ⟨c, cs⟩
  · rfl
  · have hstail : ∀ x ∈ cs, lowerChar x = x := fun x hx => hs x (List.mem_cons_of_mem _ hx)
    have hcslen : cs.length < n := by simpa using hlen
    have hwordcopy : isWordChar c = true →
        (c :: cs).takeWhile isWordChar ≠ a :: w2 →
        wordRuns (c :: replaceWordAll true ((a :: w2).map PChar.lit) (str " ") (some c) n cs) =
          (wordRuns (c :: cs)).filter (fun r => decide (r ≠ a :: w2)) := by
      intro hcw hr0ne
      rw [replaceWordAll_midrun (str " ") (hww a (List.mem_cons_self _ _)) hw n cs (some c)
        hcslen hstail (by rw [show wordAt (some c) = isWordChar c from rfl, hcw])]
      have hr0cons : c :: cs.takeWhile isWordChar = (c :: cs).takeWhile isWordChar := by
        rw [List.takeWhile_cons, if_pos hcw]
      have hr0w : ∀ x ∈ (c :: cs).takeWhile isWordChar, isWordChar x = true :=
        fun x hx => List.mem_takeWhile_imp hx
      have hr0ne2 : (c :: cs).takeWhile isWordChar ≠ [] := by
        rw [List.takeWhile_cons, if_pos hcw]
        simp
      have hdecomp := @wordRuns_word_decomp c cs hcw
      have hdw : (c :: cs).dropWhile isWordChar = cs.dropWhile isWordChar := by
        rw [List.dropWhile_cons, if_pos hcw]
      rcases ht : cs.dropWhile isWordChar with _ | ⟨e, t2⟩
      · rw [replaceWordAll_nil, List.append_nil]
        rw [show (c :: List.takeWhile isWordChar cs) = (c :: cs).takeWhile isWordChar from
          hr0cons]
        rw [wordRuns_all_word hr0w hr0ne2]
        rw [hdecomp, hdw, ht]
        rw [show wordRuns ([] : Str) = [] from rfl, List.filter_cons,
          if_pos (by simpa using hr0ne)]
        rfl
      · have hew : isWordChar e = false := dropWhile_head_not ht
        have ht2chars : ∀ x ∈ t2, lowerChar x = x := fun x hx =>
          hstail x (mem_dropWhile_imp (ht ▸ List.mem_cons_of_mem _ hx))
        have hnp : ¬((a :: w2) <+: (e :: t2)) := by
          intro hcon
          obtain ⟨h1, -⟩ := List.cons_prefix_cons.mp hcon
          have haw := hww a (List.mem_cons_self _ _)
          rw [h1] at haw
          rw [haw] at hew
          exact absurd hew (by simp)
        have hechars : ∀ x ∈ e :: t2, lowerChar x = x := fun x hx =>
          hstail x (mem_dropWhile_imp (ht ▸ hx))
        rw [replaceWordAll]
        rw [patMatch_lit (a :: w2) hw (e :: t2) hechars, if_neg hnp]
        rw [show c :: (List.takeWhile isWordChar cs ++
            (e :: replaceWordAll true ((a :: w2).map PChar.lit) (str " ") (some e)
              ((e :: t2).length) t2)) =
          (c :: List.takeWhile isWordChar cs) ++
            (e :: replaceWordAll true ((a :: w2).map PChar.lit) (str " ") (some e)
              ((e :: t2).length) t2) from rfl]
        rw [wordRuns_append_nonword hew]
        rw [show (c :: List.takeWhile isWordChar cs) = (c :: cs).takeWhile isWordChar from
          hr0cons]
        rw [wordRuns_all_word hr0w hr0ne2]
        rw [ih ((e :: t2).length) (by
            have := length_dropWhile_le isWordChar cs
            rw [ht] at this
            omega) t2 (some e) (by simp) ht2chars
          (by rw [show wordAt (some e) = isWordChar e from rfl, hew])]
        rw [hdecomp, hdw, ht, wordRuns_cons_nonword hew, List.filter_cons,
          if_pos (by simpa using hr0ne)]
        rfl
    rw [replaceWordAll]
    have hslit := patMatch_lit (a :: w2) hw (c :: cs) hs
    by_cases hpre : (a :: w2) <+: (c :: cs)
    · rw [if_pos hpre] at hslit
      simp only [hslit]
      obtain ⟨t0, ht0⟩ := hpre
      have hrest : (c :: cs).drop (a :: w2).length = t0 := by
        rw [← ht0]
        exact List.drop_left _ _
      obtain ⟨d, hd, hdm⟩ := getLast_mem_of_ne (show a :: w2 ≠ [] by simp)
      have hbok : boundaryOk prev (a :: w2) ((c :: cs).drop (a :: w2).length) =
          !wordAt t0.head? := by
        rw [boundaryOk, hprev, show wordAt (some a) = isWordChar a from rfl,
          hww a (List.mem_cons_self _ _), hd, show wordAt (some d) = isWordChar d from rfl,
          hww d hdm, hrest]
        simp
      rw [hbok, hrest]
      by_cases hnext : wordAt t0.head? = true
      · rw [if_neg (by simp [hnext])]
        obtain ⟨ha, -⟩ := List.cons_prefix_cons.mp ⟨t0, ht0⟩
        have hcw : isWordChar c = true := by
          rw [← ha]
          exact hww a (List.mem_cons_self _ _)
        rcases t0 with _ | ⟨e0, r2⟩
        · simp [wordAt] at hnext
        have hew : isWordChar e0 = true := by simpa [wordAt] using hnext
        have hr0ne : (c :: cs).takeWhile isWordChar ≠ a :: w2 := by
          rw [← ht0, takeWhile_append_all hww, List.takeWhile_cons, if_pos hew]
          intro hcon
          have := congrArg List.length hcon
          simp at this
        exact hwordcopy hcw hr0ne
      · rw [if_pos (by
          rw [show wordAt t0.head? = false from by simpa using hnext]
          rfl)]
        rcases t0 with _ | ⟨e0, r2⟩
        · rw [replaceWordAll_nil, List.append_nil, ← ht0, List.append_nil]
          rw [show wordRuns (str " ") = wordRuns [] from
            wordRuns_cons_nonword (by decide) [], show wordRuns ([] : Str) = [] from rfl]
          rw [wordRuns_all_word hww (by simp), List.filter_cons,
            if_neg (by simp), List.filter_nil]
        · have hew : isWordChar e0 = false := by simpa [wordAt] using hnext
          rcases n with _ | n1
          · exact absurd hcslen (Nat.not_lt_zero _)
          have hr2chars : ∀ x ∈ r2, lowerChar x = x := by
            intro x hx
            apply hs
            rw [← ht0]
            exact List.mem_append_right _ (List.mem_cons_of_mem _ hx)
          have he0r2chars : ∀ x ∈ e0 :: r2, lowerChar x = x := by
            intro x hx
            apply hs
            rw [← ht0]
            exact List.mem_append_right _ hx
          have hnp : ¬((a :: w2) <+: (e0 :: r2)) := by
            intro hcon
            obtain ⟨h1, -⟩ := List.cons_prefix_cons.mp hcon
            have haw := hww a (List.mem_cons_self _ _)
            rw [h1] at haw
            rw [haw] at hew
            exact absurd hew (by simp)
          rw [replaceWordAll]
          rw [patMatch_lit (a :: w2) hw (e0 :: r2) he0r2chars, if_neg hnp]
          have hr2len : r2.length < n1 := by
            have := congrArg List.length ht0
            simp at this
            omega
          rw [show (str " ") ++ (e0 :: replaceWordAll true ((a :: w2).map PChar.lit)
              (str " ") (some e0) n1 r2) =
            ' ' :: e0 :: replaceWordAll true ((a :: w2).map PChar.lit)
              (str " ") (some e0) n1 r2 from rfl]
          rw [wordRuns_cons_nonword (by decide), wordRuns_cons_nonword hew]
          rw [ih n1 (by omega) r2 (some e0) hr2len hr2chars
            (by rw [show wordAt (some e0) = isWordChar e0 from rfl, hew])]
          rw [← ht0, wordRuns_append_nonword hew, wordRuns_all_word hww (by simp)]
          rw [List.filter_append, List.filter_cons, if_neg (by simp), List.filter_nil]
          rfl
    · rw [if_neg hpre] at hslit
      simp only [hslit]
      by_cases hcw : isWordChar c = true
      · have hr0ne : (c :: cs).takeWhile isWordChar ≠ a :: w2 := by
          intro hcon
          exact hpre (hcon ▸ List.takeWhile_prefix _)
        exact hwordcopy hcw hr0ne
      · have hcwf : isWordChar c = false := by simpa using hcw
        rw [wordRuns_cons_nonword hcwf, wordRuns_cons_nonword hcwf]
        exact ih n (by omega) cs (some c) hcslen hstail
          (by rw [show wordAt (some c) = isWordChar c from rfl, hcwf])

/-! ### Word runs are invariant under whitespace cleanup -/

theorem isJsSpace_not_word {c : Char} (h : isJsSpace c = true) : isWordChar c = false := by
  rw [isJsSpace] at h
  simp only [Bool.or_eq_true, decide_eq_true_eq, or_assoc] at h
  rcases h with rfl | rfl | rfl | rfl | rfl | rfl <;> decide

theorem wordRuns_append_last_nonword {d : Char} (hd : isWordChar d = false) (x : Str) :
    wordRuns (x ++ [d]) = wordRuns x := by
  rw [show x ++ [d] = x ++ d :: [] from rfl, wordRuns_append_nonword hd]
  rw [show wordRuns ([] : Str) = [] from rfl, List.append_nil]

theorem wordRuns_append_spaces {u : Str} (hu : ∀ c ∈ u, isJsSpace c = true) (t : Str) :
    wordRuns (t ++ u) = wordRuns t := by
  induction u using List.reverseRecOn generalizing t with
  | nil => rw [List.append_nil]
  | append_singleton u2 d ih =>
    have hd : isWordChar d = false := isJsSpace_not_word (hu d (by simp))
    rw [← List.append_assoc, wordRuns_append_last_nonword hd,
      ih (fun c hc => hu c (by simp [hc]))]

theorem wordRuns_trimLeft (s : Str) : wordRuns (trimLeft s) = wordRuns s := by
  induction s with
  | nil => rfl
  | cons c cs ih =>
    rw [trimLeft]
    by_cases hc : isJsSpace c = true
    · rw [if_pos hc, ih]
      have hcw : isWordChar c = false := isJsSpace_not_word hc
      rw [wordRuns_cons_nonword hcw]
    · rw [if_neg hc]

theorem wordRuns_jsTrim (s : Str) : wordRuns (jsTrim s) = wordRuns s := by
  unfold jsTrim
  rw [wordRuns_trimLeft, trimLeft_eq_dropWhile]
  have hsplit : s.reverse.takeWhile isJsSpace ++ s.reverse.dropWhile isJsSpace = s.reverse :=
    List.takeWhile_append_dropWhile isJsSpace s.reverse
  have hx : s = (s.reverse.dropWhile isJsSpace).reverse ++
      (s.reverse.takeWhile isJsSpace).reverse := by
    have := congrArg List.reverse hsplit
    rw [List.reverse_append, List.reverse_reverse] at this
    exact this.symm
  conv_rhs => rw [hx]
  rw [wordRuns_append_spaces (fun c hc => by
    rw [List.mem_reverse] at hc
    exact List.mem_takeWhile_imp hc)]

theorem splitDropAux_collapseWs {sep : Char → Bool}
    (hsp : ∀ c, isJsSpace c = true → sep c = true) (hsp2 : sep ' ' = true) :
    ∀ (s : Str) (b : Bool) (cur : Str), (b = true → cur = []) →
      splitDropAux sep cur (collapseWsAux b s) = splitDropAux sep cur s := by
  intro s
  induction s with
  | nil => intro b cur _; rfl
  | cons c cs ih =>
    intro b cur hb
    rw [collapseWsAux]
    by_cases hc : isJsSpace c = true
    · rw [if_pos hc]
      rcases b with _ | _
      · rw [if_neg (by simp)]
        conv_lhs => rw [splitDropAux]
        rw [if_pos hsp2]
        conv_rhs => rw [splitDropAux]
        rw [if_pos (hsp c hc)]
        by_cases hcur : cur = []
        · rw [if_pos hcur, if_pos hcur]
          exact ih true [] (fun _ => rfl)
        · rw [if_neg hcur, if_neg hcur, ih true [] (fun _ => rfl)]
      · have hcur : cur = [] := hb rfl
        subst hcur
        rw [if_pos rfl, ih true [] (fun _ => rfl)]
        conv_rhs => rw [splitDropAux]
        rw [if_pos (hsp c hc), if_pos rfl]
    · rw [if_neg hc]
      conv_lhs => rw [splitDropAux]
      conv_rhs => rw [splitDropAux]
      by_cases hsc : sep c = true
      · rw [if_pos hsc, if_pos hsc]
        by_cases hcur : cur = []
        · rw [if_pos hcur, if_pos hcur, ih false [] (fun h => absurd h (by simp))]
        · rw [if_neg hcur, if_neg hcur, ih false [] (fun h => absurd h (by simp))]
      · rw [if_neg hsc, if_neg hsc, ih false (c :: cur) (fun h => absurd h (by simp))]

theorem wordRuns_collapseWs (s : Str) : wordRuns (collapseWs s) = wordRuns s :=
  splitDropAux_collapseWs (fun c hc => by simp [isJsSpace_not_word hc]) (by decide)
    s false [] (fun h => absurd h (by simp))

theorem mem_replaceWordAll {ci : Bool} {pat : List PChar} {rep : Str} {x : Char} :
    ∀ (n : Nat) {s : Str} {prev : Option Char},
      x ∈ replaceWordAll ci pat rep prev n s → x ∈ s ∨ x ∈ rep := by
  intro n
  induction n with
  | zero => intro s prev h; exact Or.inl h
  | succ n ih =>
    intro s prev h
    rcases s with _ | ⟨c, cs⟩
    · exact Or.inl h
    · rw [replaceWordAll] at h
      rcases hpm : patMatch ci pat (c :: cs) with _ | ⟨⟨m, r⟩⟩
      · simp only [hpm] at h
        rcases List.mem_cons.mp h with rfl | h2
        · exact Or.inl (List.mem_cons_self _ _)
        · rcases ih h2 with h3 | h3
          · exact Or.inl (List.mem_cons_of_mem _ h3)
          · exact Or.inr h3
      · simp only [hpm] at h
        by_cases hbok : boundaryOk prev m r = true
        · rw [if_pos hbok] at h
          rcases List.mem_append.mp h with h2 | h2
          · exact Or.inr h2
          · rcases ih h2 with h3 | h3
            · exact Or.inl (by rw [patMatch_split hpm]; exact List.mem_append_right _ h3)
            · exact Or.inr h3
        · rw [if_neg hbok] at h
          rcases List.mem_cons.mp h with rfl | h2
          · exact Or.inl (List.mem_cons_self _ _)
          · rcases ih h2 with h3 | h3
            · exact Or.inl (List.mem_cons_of_mem _ h3)
            · exact Or.inr h3

/-! ### The honorific / suffix stripping loop at the level of word runs -/

theorem cleanStr_no_dot {s : Str} (h : cleanStr s) : ∀ c ∈ s, c ≠ '.' ∧ c ≠ 'ñ' := by
  intro c hc
  obtain ⟨h1, h2, h3⟩ := h c hc
  constructor
  · intro hcon
    subst hcon
    exact absurd h3 (by decide)
  · intro hcon
    subst hcon
    exact absurd h1 (by decide)

theorem goodw_no_dot {w : Str} (hg : goodw w) : ∀ c ∈ w, c ≠ '.' := by
  intro c hc hcon
  subst hcon
  exact absurd (hg.2 '.' hc).1 (by decide)

theorem goodw_not_deadw {w : Str} (hg : goodw w) (hd : deadw w) : False := by
  unfold deadw at hd
  rw [compileWord_no_dot w (goodw_no_dot hg)] at hd
  rcases hd with hd | hd <;>
    (rw [List.mem_map] at hd
     obtain ⟨c, hc, hcl⟩ := hd
     exact absurd (hg.2 c hc).1 (by rw [PChar.lit.inj hcl]; decide))

theorem goodw_shape {w : Str} (hg : goodw w) : ∃ a w2, w = a :: w2 := by
  rcases w with _ | ⟨a, w2⟩
  · exact absurd rfl hg.1
  · exact ⟨a, w2, rfl⟩

theorem jsTestWord_runs {w : Str} (hg : goodw w) {s : Str}
    (hs : ∀ c ∈ s, lowerChar c = c) :
    (jsTestWord true w s = true ↔ w ∈ wordRuns s) := by
  obtain ⟨a, w2, rfl⟩ := goodw_shape hg
  unfold jsTestWord
  rw [compileWord_no_dot _ (goodw_no_dot hg)]
  exact hasWordMatch_runs (fun c hc => (hg.2 c hc).1) (fun c hc => (hg.2 c hc).2)
    (s.length + 1) s none (by omega) hs rfl

theorem jsReplaceWord_runs {w : Str} (hg : goodw w) {s : Str}
    (hs : ∀ c ∈ s, lowerChar c = c) :
    wordRuns (jsReplaceWord true w (str " ") s) =
      (wordRuns s).filter (fun r => decide (r ≠ w)) := by
  obtain ⟨a, w2, rfl⟩ := goodw_shape hg
  unfold jsReplaceWord
  rw [compileWord_no_dot _ (goodw_no_dot hg)]
  exact replaceWordAll_runs (fun c hc => (hg.2 c hc).1) (fun c hc => (hg.2 c hc).2)
    (s.length + 1) s none (by omega) hs rfl

theorem stripWordStep_runs {w : Str} (hw : goodw w ∨ deadw w) {acc : List Str} {s : Str}
    (hs : cleanStr s) :
    cleanStr (stripWordStep (acc, s) w).2 ∧
    (∀ u, u ∈ wordRuns (stripWordStep (acc, s) w).2 → u ∈ wordRuns s) ∧
    (goodw w → w ∉ wordRuns (stripWordStep (acc, s) w).2) := by
  have hlc : ∀ c ∈ s, lowerChar c = c := fun c hc => (hs c hc).2.1
  rcases hw with hg | hd
  · by_cases ht : jsTestWord true w s = true
    · have hstep2 : (stripWordStep (acc, s) w).2 =
          jsTrim (collapseWs (jsReplaceWord true w (str " ") s)) := by
        rw [stripWordStep, if_pos ht]
      have hruns : wordRuns (stripWordStep (acc, s) w).2 =
          (wordRuns s).filter (fun r => decide (r ≠ w)) := by
        rw [hstep2, wordRuns_jsTrim, wordRuns_collapseWs, jsReplaceWord_runs hg hlc]
      refine ⟨?_, ?_, ?_⟩
      · intro c hc
        rw [hstep2] at hc
        rcases mem_collapseWs (mem_jsTrim hc) with h1 | rfl
        · rcases mem_replaceWordAll (s.length + 1) h1 with h2 | h2
          · exact hs c h2
          · rcases List.mem_singleton.mp h2 with rfl
            exact ⟨by decide, by decide, by decide⟩
        · exact ⟨by decide, by decide, by decide⟩
      · intro u hu
        rw [hruns] at hu
        exact (List.mem_filter.mp hu).1
      · intro _ hcon
        rw [hruns] at hcon
        have := (List.mem_filter.mp hcon).2
        simp at this
    · have hstep : stripWordStep (acc, s) w = (acc, s) := by
        rw [stripWordStep, if_neg ht]
      rw [hstep]
      exact ⟨hs, fun u hu => hu, fun hgw => by
        rw [← jsTestWord_runs hgw hlc]
        simpa using ht⟩
  · have ht : jsTestWord true w s = false := by
      unfold jsTestWord
      exact (dead_scan hd (s.length + 1) s none (cleanStr_no_dot hs)).1
    have hstep : stripWordStep (acc, s) w = (acc, s) := by
      rw [stripWordStep, if_neg (by simp [ht])]
    rw [hstep]
    exact ⟨hs, fun u hu => hu, fun hgw => absurd hd (fun hdd => goodw_not_deadw hgw hdd)⟩

theorem stripWords_fold : ∀ (ws : List Str), (∀ w ∈ ws, goodw w ∨ deadw w) →
    ∀ (acc : List Str) (s : Str), cleanStr s →
      cleanStr (List.foldl stripWordStep (acc, s) ws).2 ∧
      (∀ u, u ∈ wordRuns (List.foldl stripWordStep (acc, s) ws).2 → u ∈ wordRuns s) ∧
      (∀ w ∈ ws, goodw w → w ∉ wordRuns (List.foldl stripWordStep (acc, s) ws).2) := by
  intro ws
  induction ws with
  | nil =>
    intro _ acc s hs
    exact ⟨hs, fun u hu => hu, fun w hw => absurd hw (List.not_mem_nil _)⟩
  | cons w ws ih =>
    intro hws acc s hs
    rw [List.foldl_cons]
    obtain ⟨hc1, hmono1, hgone1⟩ := stripWordStep_runs (hws w (List.mem_cons_self _ _)) hs
    obtain ⟨hc2, hmono2, hgone2⟩ := ih (fun x hx => hws x (List.mem_cons_of_mem _ hx))
      (stripWordStep (acc, s) w).1 (stripWordStep (acc, s) w).2 hc1
    refine ⟨hc2, fun u hu => hmono1 u (hmono2 u hu), ?_⟩
    intro v hv hgv hcon
    rcases List.mem_cons.mp hv with rfl | hv2
    · exact hgone1 hgv (hmono2 v hcon)
    · exact hgone2 v hv2 hgv hcon

theorem stripWords_no_match : ∀ (ws : List Str) {s : Str} {acc : List Str},
    (∀ w ∈ ws, jsTestWord true w s = false) →
    List.foldl stripWordStep (acc, s) ws = (acc, s) := by
  intro ws
  induction ws with
  | nil => intro s acc _; rfl
  | cons w ws ih =>
    intro s acc h
    rw [List.foldl_cons, show stripWordStep (acc, s) w = (acc, s) from by
      rw [stripWordStep, if_neg (by simp [h w (List.mem_cons_self _ _)])]]
    exact ih (fun x hx => h x (List.mem_cons_of_mem _ hx))



/-! ### Lexicographic order: totality, antisymmetry, transitivity, sort idempotence -/

theorem char_eq_of_toNat {x y : Char} (h : x.toNat = y.toNat) : x = y := by
  have h1 := Char.ofNat_toNat x
  have h2 := Char.ofNat_toNat y
  rw [h] at h1
  rw [← h2]
  exact h1.symm

theorem lexLe_total : ∀ a b : Str, lexLe a b = true ∨ lexLe b a = true := by
  intro a
  induction a with
  | nil => intro b; exact Or.inl rfl
  | cons x xs ih =>
    intro b
    rcases b with _ | ⟨y, ys⟩
    · exact Or.inr rfl
    · by_cases h1 : x.toNat < y.toNat
      · refine Or.inl ?_
        rw [lexLe, if_pos h1]
      · by_cases h2 : y.toNat < x.toNat
        · refine Or.inr ?_
          rw [lexLe, if_pos h2]
        · rcases ih ys with h | h
          · refine Or.inl ?_
            rw [lexLe, if_neg h1, if_neg h2]
            exact h
          · refine Or.inr ?_
            rw [lexLe, if_neg h2, if_neg h1]
            exact h

theorem lexLe_antisymm : ∀ a b : Str, lexLe a b = true → lexLe b a = true → a = b := by
  intro a
  induction a with
  | nil =>
    intro b h1 h2
    rcases b with _ | ⟨y, ys⟩
    · rfl
    · rw [lexLe] at h2
      exact absurd h2 (by simp)
  | cons x xs ih =>
    intro b h1 h2
    rcases b with _ | ⟨y, ys⟩
    · rw [lexLe] at h1
      exact absurd h1 (by simp)
    · rw [lexLe] at h1 h2
      by_cases hxy : x.toNat < y.toNat
      · rw [if_pos hxy] at h1
        rw [if_neg (by omega), if_pos hxy] at h2
        exact absurd h2 (by simp)
      · by_cases hyx : y.toNat < x.toNat
        · rw [if_neg hxy, if_pos hyx] at h1
          exact absurd h1 (by simp)
        · rw [if_neg hxy, if_neg hyx] at h1
          rw [if_neg hyx, if_neg hxy] at h2
          rw [char_eq_of_toNat (by omega : x.toNat = y.toNat), ih ys h1 h2]

theorem lexLe_trans : ∀ a b c : Str, lexLe a b = true → lexLe b c = true →
    lexLe a c = true := by
  intro a
  induction a with
  | nil => intro b c _ _; rfl
  | cons x xs ih =>
    intro b c h1 h2
    rcases b with _ | ⟨y, ys⟩
    · rw [lexLe] at h1
      exact absurd h1 (by simp)
    · rcases c with _ | ⟨z, zs⟩
      · rw [lexLe] at h2
        exact absurd h2 (by simp)
      · rw [lexLe] at h1 h2 ⊢
        by_cases hxy : x.toNat < y.toNat
        · rw [if_pos hxy] at h1
          by_cases hyz : y.toNat < z.toNat
          · rw [if_pos (by omega)]
          · by_cases hzy : z.toNat < y.toNat
            · rw [if_neg hyz, if_pos hzy] at h2
              exact absurd h2 (by simp)
            · rw [if_pos (by omega)]
        · by_cases hyx : y.toNat < x.toNat
          · rw [if_neg hxy, if_pos hyx] at h1
            exact absurd h1 (by simp)
          · rw [if_neg hxy, if_neg hyx] at h1
            by_cases hyz : y.toNat < z.toNat
            · rw [if_pos (by omega)]
            · by_cases hzy : z.toNat < y.toNat
              · rw [if_neg hyz, if_pos hzy] at h2
                exact absurd h2 (by simp)
              · rw [if_neg hyz, if_neg hzy] at h2
                rw [if_neg (by omega), if_neg (by omega)]
                exact ih ys zs h1 h2

theorem insertBy_all_le {le : α → α → Bool}
    (hanti : ∀ a b, le a b = true → le b a = true → a = b) {x : α} :
    ∀ {l : List α}, (∀ y ∈ l, le x y = true) → insertBy le x l = x :: l := by
  intro l
  induction l with
  | nil => intro _; rfl
  | cons y ys ih =>
    intro h
    have hxy : le x y = true := h y (List.mem_cons_self _ _)
    rw [insertBy]
    by_cases hyx : le y x = true
    · have hxeqy : x = y := hanti x y hxy hyx
      rw [if_neg (by rw [hxy, hyx]; simp)]
      rw [ih (fun z hz => h z (List.mem_cons_of_mem _ hz))]
      rw [hxeqy]
    · rw [if_pos (by rw [hxy, show le y x = false from by
        cases hle : le y x
        · rfl
        · exact absurd hle hyx]; rfl)]

theorem sortBy_sorted_id {le : α → α → Bool}
    (hanti : ∀ a b, le a b = true → le b a = true → a = b) :
    ∀ l : List α, l.Pairwise (fun a b => le a b = true) → sortBy le l = l := by
  intro l
  induction l with
  | nil => intro _; rfl
  | cons x xs ih =>
    intro hp
    rw [List.pairwise_cons] at hp
    rw [sortBy, ih hp.2]
    exact insertBy_all_le hanti hp.1

theorem sortStrs_idem (l : List Str) : sortStrs (sortStrs l) = sortStrs l := by
  unfold sortStrs
  exact sortBy_sorted_id lexLe_antisymm _ (sortBy_pairwise lexLe lexLe_total lexLe_trans l)

theorem tables_ok : ∀ w ∈ HONORIFICS ++ SUFFIXES, goodw w ∨ deadw w := by decide

/-! ### The cleaned name string and the canonical form -/

theorem map_self {f : Char → Char} : ∀ {l : Str}, (∀ a ∈ l, f a = a) → l.map f = l := by
  intro l
  induction l with
  | nil => intro _; rfl
  | cons c cs ih =>
    intro h
    rw [List.map_cons, h c (List.mem_cons_self _ _), ih (fun a ha => h a (List.mem_cons_of_mem _ ha))]

theorem name2_clean (x : Str) :
    cleanStr (jsTrim (collapseWs (replaceChars isNamePunct ' '
      (collapseWs (jsTrim (toLowerStr (removeAccents x))))))) := by
  intro c hc
  have h1 := mem_collapseWs (mem_jsTrim hc)
  rcases h1 with h1 | rfl
  · rcases mem_replaceChars h1 with ⟨h2, hpunct⟩ | rfl
    · rcases mem_collapseWs h2 with h3 | rfl
      · have h4 := mem_jsTrim h3
        rw [toLowerStr, removeAccents, List.map_map, List.mem_map] at h4
        obtain ⟨d, hd, rfl⟩ := h4
        obtain ⟨hsa, hlc⟩ := clean_image d
        exact ⟨hsa, hlc, hpunct⟩
      · exact ⟨by decide, by decide, by decide⟩
    · exact ⟨by decide, by decide, by decide⟩
  · exact ⟨by decide, by decide, by decide⟩

set_option maxRecDepth 8192 in
theorem normalizeName_canonical_no_comma (s : Str) (hne : s ≠ []) (hnc : ',' ∉ s) :
    (normalizeName s).canonical =
      joinWith (str " ") (sortStrs (splitDrop (fun c => isJsSpace c || c = ',')
        (stripWords SUFFIXES (stripWords HONORIFICS (jsTrim (collapseWs (replaceChars isNamePunct ' ' (collapseWs (jsTrim (toLowerStr (removeAccents s)))))))).2).2)) := by
  rcases hH : stripWords HONORIFICS (jsTrim (collapseWs (replaceChars isNamePunct ' ' (collapseWs (jsTrim (toLowerStr (removeAccents s))))))) with ⟨fH, name3⟩
  rcases hS : stripWords SUFFIXES name3 with ⟨fS, name4⟩
  rw [normalizeName, if_neg hne]
  simp only [hH, hS]
  rw [if_neg hnc]

theorem normalizeName_canonical_fixed (ts : List Str)
    (hts : ∀ t ∈ ts, t ≠ [] ∧ ∀ c ∈ t, cleanChar c ∧ isJsSpace c = false ∧ c ≠ ',')
    (hsorted : ts.Pairwise (fun a b => lexLe a b = true))
    (hnoword : ∀ w ∈ HONORIFICS ++ SUFFIXES, goodw w → w ∉ (ts.map wordRuns).flatten) :
    (normalizeName (joinWith (str " ") ts)).canonical = joinWith (str " ") ts := by
  rcases ts with _ | ⟨t0, ts2⟩
  · rfl
  · have hne : joinWith (str " ") (t0 :: ts2) ≠ [] :=
      joinWith_ne_nil (hts t0 (by simp)).1 ts2
    have hcc : ∀ c ∈ joinWith (str " ") (t0 :: ts2), cleanChar c := by
      intro c hc
      rcases mem_joinWith hc with ⟨t, ht, hct⟩ | rfl
      · exact ((hts t ht).2 c hct).1
      · exact ⟨by decide, by decide, by decide⟩
    have hncm : ',' ∉ joinWith (str " ") (t0 :: ts2) := by
      intro hc
      rcases mem_joinWith hc with ⟨t, ht, hct⟩ | hsp
      · exact ((hts t ht).2 ',' hct).2.2 rfl
      · exact absurd hsp (by decide)
    rw [normalizeName_canonical_no_comma _ hne hncm]
    have htok : ∀ t ∈ t0 :: ts2, t ≠ [] ∧ ∀ c ∈ t, isJsSpace c = false :=
      fun t ht => ⟨(hts t ht).1, fun c hc => ((hts t ht).2 c hc).2.1⟩
    have h1 : removeAccents (joinWith (str " ") (t0 :: ts2)) = joinWith (str " ") (t0 :: ts2) :=
      map_self (fun a ha => (hcc a ha).1)
    have h2 : toLowerStr (joinWith (str " ") (t0 :: ts2)) = joinWith (str " ") (t0 :: ts2) :=
      map_self (fun a ha => (hcc a ha).2.1)
    have h3 : jsTrim (joinWith (str " ") (t0 :: ts2)) = joinWith (str " ") (t0 :: ts2) :=
      jsTrim_join _ htok
    have h4 : collapseWs (joinWith (str " ") (t0 :: ts2)) = joinWith (str " ") (t0 :: ts2) :=
      collapseWsAux_join _ htok false
    have h5 : replaceChars isNamePunct ' ' (joinWith (str " ") (t0 :: ts2)) =
        joinWith (str " ") (t0 :: ts2) := by
      unfold replaceChars
      exact map_self (fun a ha => by rw [if_neg (by simp [(hcc a ha).2.2])])
    rw [h1, h2, h3, h4, h5, h4, h3]
    have hlc : ∀ a ∈ joinWith (str " ") (t0 :: ts2), lowerChar a = a :=
      fun a ha => (hcc a ha).2.1
    have hruns : wordRuns (joinWith (str " ") (t0 :: ts2)) =
        ((t0 :: ts2).map wordRuns).flatten := wordRuns_joinWith _
    have htests : ∀ w ∈ HONORIFICS ++ SUFFIXES,
        jsTestWord true w (joinWith (str " ") (t0 :: ts2)) = false := by
      intro w hw
      rcases tables_ok w hw with hg | hd
      · cases hjt : jsTestWord true w (joinWith (str " ") (t0 :: ts2))
        · rfl
        · exfalso
          have hmem := (jsTestWord_runs hg hlc).mp hjt
          rw [hruns] at hmem
          exact hnoword w hw hg hmem
      · exact (dead_scan hd _ _ none (cleanStr_no_dot hcc)).1
    have hsw1 : stripWords HONORIFICS (joinWith (str " ") (t0 :: ts2)) =
        ([], joinWith (str " ") (t0 :: ts2)) := by
      unfold stripWords
      exact stripWords_no_match _ (fun w hw => htests w (List.mem_append_left _ hw))
    rw [hsw1]
    rw [show (([], joinWith (str " ") (t0 :: ts2)) : List Str × Str).2 =
      joinWith (str " ") (t0 :: ts2) from rfl]
    have hsw2 : stripWords SUFFIXES (joinWith (str " ") (t0 :: ts2)) =
        ([], joinWith (str " ") (t0 :: ts2)) := by
      unfold stripWords
      exact stripWords_no_match _ (fun w hw => htests w (List.mem_append_right _ hw))
    rw [hsw2]
    rw [show (([], joinWith (str " ") (t0 :: ts2)) : List Str × Str).2 =
      joinWith (str " ") (t0 :: ts2) from rfl]
    have hsep : ∀ t ∈ t0 :: ts2, t ≠ [] ∧ ∀ c ∈ t, (isJsSpace c || c = ',') = false :=
      fun t ht => ⟨(hts t ht).1, fun c hc => by
        simp [((hts t ht).2 c hc).2.1, ((hts t ht).2 c hc).2.2]⟩
    rw [splitDrop_joinWith (by decide) _ hsep]
    rw [show sortStrs (t0 :: ts2) = t0 :: ts2 from by
      unfold sortStrs
      exact sortBy_sorted_id lexLe_antisymm _ hsorted]

theorem normalizeName_idem_no_comma (x : Str) (hx : ',' ∉ x) :
    (normalizeName (normalizeName x).canonical).canonical = (normalizeName x).canonical := by
  by_cases hxe : x = []
  · subst hxe
    rfl
  · rw [normalizeName_canonical_no_comma x hxe hx]
    set name2 := jsTrim (collapseWs (replaceChars isNamePunct ' '
      (collapseWs (jsTrim (toLowerStr (removeAccents x)))))) with hname2
    obtain ⟨hc3, hmono3, hgone3⟩ := stripWords_fold HONORIFICS
      (fun w hw => tables_ok w (List.mem_append_left _ hw)) [] name2 (name2_clean x)
    obtain ⟨hc4, hmono4, hgone4⟩ := stripWords_fold SUFFIXES
      (fun w hw => tables_ok w (List.mem_append_right _ hw)) []
      ((stripWords HONORIFICS name2).2) hc3
    refine normalizeName_canonical_fixed _ ?_ ?_ ?_
    · intro t ht
      have htp : t ∈ splitDrop (fun c => isJsSpace c || c = ',')
          ((stripWords SUFFIXES (stripWords HONORIFICS name2).2).2) :=
        (sortBy_mem lexLe t _).mp ht
      obtain ⟨hne, hall⟩ := splitDrop_chars htp
      refine ⟨hne, fun c hc => ?_⟩
      obtain ⟨hcm, hsep⟩ := hall c hc
      rw [Bool.or_eq_false_iff] at hsep
      refine ⟨hc4 c hcm, hsep.1, fun hcon => ?_⟩
      rw [hcon] at hsep
      exact absurd hsep.2 (by decide)
    · exact sortBy_pairwise lexLe lexLe_total lexLe_trans _
    · intro w hw hg hmem
      rw [List.mem_flatten] at hmem
      obtain ⟨l, hl, hwl⟩ := hmem
      rw [List.mem_map] at hl
      obtain ⟨t, htmem, rfl⟩ := hl
      have htp : t ∈ splitDrop (fun c => isJsSpace c || c = ',')
          ((stripWords SUFFIXES (stripWords HONORIFICS name2).2).2) :=
        (sortBy_mem lexLe t _).mp htmem
      have hw4 : w ∈ wordRuns ((stripWords SUFFIXES (stripWords HONORIFICS name2).2).2) :=
        runs_of_token_mem (fun c hcsep => by
          rw [Bool.or_eq_true] at hcsep
          rcases hcsep with h | h
          · exact isJsSpace_not_word h
          · rw [decide_eq_true_eq] at h
            rw [h]
            decide) htp hwl
      rcases List.mem_append.mp hw with hwh | hws
      · exact hgone3 w hwh hg (hmono4 w hw4)
      · exact hgone4 w hws hg hw4

set_option maxRecDepth 10000 in
/-- Claim C9 (counterexample): `normalizeName` is not idempotent on `canonical`.
    For the comma input `"Smith, Dr. John"` the comma branch re-splits the
    original string, bypassing honorific extraction, so the first canonical
    keeps `dr.` and a second normalization strips it. -/
theorem C9_counterexample :
    (normalizeName (normalizeName (str "Smith, Dr. John")).canonical).canonical ≠
      (normalizeName (str "Smith, Dr. John")).canonical := by decide

/-- Claim C9 (amended): for comma-free inputs, normalizing the canonical form is
    a fixed point: `normalizeName(normalizeName(x).canonical).canonical`
    equals `normalizeName(x).canonical`. -/
theorem C9_amended_comma_free_idempotence (x : Str) (hx : ',' ∉ x) :
    (normalizeName (normalizeName x).canonical).canonical = (normalizeName x).canonical :=
  normalizeName_idem_no_comma x hx

set_option maxRecDepth 10000 in
/-- Claim C9 amended theorem instantiated at a concrete comma-free input. -/
theorem C9_witness :
    (',' ∉ str "Dr. John A. Smith") ∧
    (normalizeName (normalizeName (str "Dr. John A. Smith")).canonical).canonical =
      (normalizeName (str "Dr. John A. Smith")).canonical :=
  ⟨by decide, C9_amended_comma_free_idempotence (str "Dr. John A. Smith") (by decide)⟩
